import Mathlib

/-!
# dksplit-go: the decode engine of `dksplit.go`

A shallow embedding of `src/dksplit.go` and the properties of its
character encoder, Viterbi decoder, word assembler and batch scheduler.

Conventions of the embedding.

* A Go `string` is its sequence of bytes: `List Nat`, every element below
  256.  `len(text)`, `text[i]` and `text[:n]` are byte operations in Go,
  while `for i, c := range text` decodes UTF-8 and `WriteRune` encodes it.
* Go `int` / `int64` values that occur are small non-negative counts and
  indices; they are `Nat`.
* `float32` is abstract: the decoder only adds scores and compares them
  with `>`, so it is written over a type `α` with those two operations and
  the constant `-math.MaxFloat32` (`Float32Ops`).  Exact arithmetic is the
  instance `exact` over `Int`; the arithmetic of the code is the instance
  `float32` over `F32`, with the rounding of IEEE-754 binary32.
* An index out of range is a Go panic: functions that index return
  `Option`, `none` being the panic.
* The ONNX session is a function from the input tensor to the values it
  writes into the output tensor, or `none` when the call fails.
* Every call of the emission provider and of the decoder is recorded in a
  trace, so that statements about which calls are made can be written.
-/

set_option maxRecDepth 100000

namespace DKSplit

/-! ## Constants (dksplit.go, lines 16-21) -/

def padIdx : Nat := 0
def unkIdx : Nat := 1
def maxLen : Nat := 64
def numTags : Nat := 2

/-! ## Character table (dksplit.go, lines 23, 31-39, 207-218) -/

/-- The bytes of the literal `"abcdefghijklmnopqrstuvwxyz0123456789"`. -/
def vocab : List Nat :=
  [97, 98, 99, 100, 101, 102, 103, 104, 105, 106, 107, 108, 109,
   110, 111, 112, 113, 114, 115, 116, 117, 118, 119, 120, 121, 122,
   48, 49, 50, 51, 52, 53, 54, 55, 56, 57]

/-- The table `charMap [128]int64` as `init` leaves it: every entry is first
set to `unkIdx`, then `charMap[c] = i + 2` for the `i`-th character `c` of
`vocab`. -/
def charMap : List Nat :=
  vocab.enum.foldl (fun m ic => m.set ic.2 (ic.1 + 2)) (List.replicate 128 unkIdx)

/-- Function `textToIds`: one id per byte; a byte below 128 is looked up in
`charMap`, any other byte is `unkIdx`. -/
def textToIds (text : List Nat) : List Nat :=
  text.map (fun c => if c < 128 then charMap.getD c padIdx else unkIdx)

/-- The id the specification assigns to a byte: `a..z` are 2..27, `0..9`
are 28..37 in that order, everything else is the unknown id 1. -/
def specId (c : Nat) : Nat :=
  if 97 ≤ c ∧ c ≤ 122 then c - 97 + 2
  else if 48 ≤ c ∧ c ≤ 57 then c - 48 + 28
  else 1

/-! ## Go strings: UTF-8 decoding and encoding

`for i, c := range text` yields, at byte offset `i`, the rune encoded there
and advances by its width; a byte that starts no valid encoding yields
`utf8.RuneError` (U+FFFD) and advances by one byte.
`strings.Builder.WriteRune` appends the UTF-8 encoding of a rune.
Bit operations are written with `/`, `%` and `*`:
`(b & 0x3F)` is `b % 64`, `x << 6` is `x * 64`. -/

def runeError : Nat := 0xFFFD

/-- A continuation byte, `0x80 ≤ b ≤ 0xBF`. -/
def isCont (b : Nat) : Bool := decide (0x80 ≤ b) && decide (b ≤ 0xBF)

/-- Lowest second byte accepted after the leading byte `b0` (package
`unicode/utf8`, `acceptRanges`). -/
def secondLo (b0 : Nat) : Nat :=
  if b0 = 0xE0 then 0xA0 else if b0 = 0xF0 then 0x90 else 0x80

/-- Highest second byte accepted after the leading byte `b0`. -/
def secondHi (b0 : Nat) : Nat :=
  if b0 = 0xED then 0x9F else if b0 = 0xF4 then 0x8F else 0xBF

/-- The rune at the start of a string and its width in bytes, as
`utf8.DecodeRuneInString` and the `range` loop compute them. -/
def decodeRune : List Nat → Nat × Nat
  | [] => (runeError, 0)
  | b0 :: rest =>
    if b0 < 0x80 then (b0, 1)
    else if 0xC2 ≤ b0 ∧ b0 ≤ 0xDF then
      match rest with
      | b1 :: _ =>
        if isCont b1 then ((b0 % 32) * 64 + b1 % 64, 2) else (runeError, 1)
      | _ => (runeError, 1)
    else if 0xE0 ≤ b0 ∧ b0 ≤ 0xEF then
      match rest with
      | b1 :: b2 :: _ =>
        if secondLo b0 ≤ b1 ∧ b1 ≤ secondHi b0 ∧ isCont b2 = true then
          ((b0 % 16) * 4096 + (b1 % 64) * 64 + b2 % 64, 3)
        else (runeError, 1)
      | _ => (runeError, 1)
    else if 0xF0 ≤ b0 ∧ b0 ≤ 0xF4 then
      match rest with
      | b1 :: b2 :: b3 :: _ =>
        if secondLo b0 ≤ b1 ∧ b1 ≤ secondHi b0 ∧ isCont b2 = true ∧ isCont b3 = true then
          ((b0 % 8) * 262144 + (b1 % 64) * 4096 + (b2 % 64) * 64 + b3 % 64, 4)
        else (runeError, 1)
      | _ => (runeError, 1)
    else (runeError, 1)

/-- The bytes `WriteRune` appends (`utf8.AppendRune`): a surrogate or a value
above U+10FFFF is written as U+FFFD. -/
def encodeRune (r : Nat) : List Nat :=
  if r ≤ 0x7F then [r]
  else if r ≤ 0x7FF then [0xC0 + r / 64, 0x80 + r % 64]
  else if 0x10FFFF < r ∨ (0xD800 ≤ r ∧ r ≤ 0xDFFF) then [0xEF, 0xBF, 0xBD]
  else if r ≤ 0xFFFF then [0xE0 + r / 4096, 0x80 + (r / 64) % 64, 0x80 + r % 64]
  else [0xF0 + r / 262144, 0x80 + (r / 4096) % 64, 0x80 + (r / 64) % 64, 0x80 + r % 64]

/-- The runes a `range` loop over the string yields, in order.  The first
argument bounds the number of iterations; the length of the string is
enough, every iteration consuming at least one byte. -/
def runesLoop : Nat → List Nat → List Nat
  | _, [] => []
  | 0, _ :: _ => []
  | fuel + 1, b :: rest =>
    let rw := decodeRune (b :: rest)
    rw.1 :: runesLoop fuel ((b :: rest).drop rw.2)

def runes (s : List Nat) : List Nat := runesLoop s.length s

/-- The string with every rune written back by `WriteRune`: the string
itself when it is valid UTF-8, and otherwise the string with each byte that
starts no valid encoding replaced by the three bytes of U+FFFD. -/
def reencode (s : List Nat) : List Nat := (runes s).flatMap encodeRune

/-- The loop of `utf8.ValidString`: no `range` step meets a byte that
starts no valid encoding (such a step, and no other, yields U+FFFD with
width 1). -/
def validLoop : Nat → List Nat → Bool
  | _, [] => true
  | 0, _ :: _ => false
  | fuel + 1, b :: rest =>
    let rw := decodeRune (b :: rest)
    !(rw.1 == runeError && rw.2 == 1) && validLoop fuel ((b :: rest).drop rw.2)

/-- Function `utf8.ValidString`. -/
def validUTF8 (s : List Nat) : Bool := validLoop s.length s

/-! ## strings.ToLower

`caseTable` is the lower-case mapping of the Unicode tables for runes from
U+0080 on (package `unicode`); it is a parameter. -/

def asciiLower (c : Nat) : Nat := if 65 ≤ c ∧ c ≤ 90 then c + 32 else c

/-- Function `unicode.ToLower`. -/
def unicodeToLower (caseTable : Nat → Nat) (r : Nat) : Nat :=
  if r ≤ 0x7F then asciiLower r else caseTable r

/-- Function `strings.Map`, for a mapping that drops no rune: every rune of
the string, mapped and written back.  (Go returns the argument itself when
no rune changes and no byte is invalid; re-encoding gives the same
bytes then.) -/
def stringsMap (mapping : Nat → Nat) (s : List Nat) : List Nat :=
  (runes s).flatMap (fun c => encodeRune (mapping c))

/-- Function `strings.ToLower`: a string of ASCII bytes is lowered byte by
byte, any other string goes through `strings.Map(unicode.ToLower, s)`. -/
def ToLower (caseTable : Nat → Nat) (s : List Nat) : List Nat :=
  if s.all (fun c => decide (c < 0x80)) then s.map asciiLower
  else stringsMap (unicodeToLower caseTable) s

/-- The normalisation both `Split` (lines 104-107) and `SplitBatch`
(lines 143-146) apply: lower-case, then keep the first `maxLen` bytes. -/
def normalize (caseTable : Nat → Nat) (text : List Nat) : List Nat :=
  let text := ToLower caseTable text
  if text.length > maxLen then text.take maxLen else text

/-! ## Scores, the splitter and the emission provider -/

/-- The `float32` operations the decoder uses: `+`, `>` and the constant
`float32(-math.MaxFloat32)`. -/
structure Float32Ops (α : Type) where
  add : α → α → α
  gt : α → α → Bool
  negMaxFloat32 : α

/-- The largest finite `float32`, `(2^24 - 1) * 2^104`, counted in units of
`2^-149`, the spacing of the smallest `float32` values: every finite
`float32` is a whole number of such units. -/
def maxFloat32Units : Int := (2 ^ 24 - 1) * 2 ^ 104 * 2 ^ 149

/-- Exact arithmetic: scores are integers (whole numbers of units of
`2^-149`), added without rounding. -/
def exact : Float32Ops Int where
  add := fun a b => a + b
  gt := fun a b => decide (b < a)
  negMaxFloat32 := -maxFloat32Units

/-- Type `Splitter` (lines 49-54).  `session` stands for the ONNX session: for
the ids of a `batchSize × seqLen` input tensor it gives the value written at
each flat index of the output tensor, or `none` when the call fails. -/
structure Splitter (α : Type) where
  session : List Nat → Nat → Nat → Option (Nat → α)
  transitions : List α
  startTransitions : List α
  endTransitions : List α

/-- Method `runInference` (lines 220-242): on success the result is the buffer
`outputData`, which has exactly `batchSize*seqLen*numTags` entries. -/
def runInference {α : Type} (s : Splitter α) (charIds : List Nat) (batchSize seqLen : Nat) :
    Option (List α) :=
  match s.session charIds batchSize seqLen with
  | none => none
  | some out => some ((List.range (batchSize * seqLen * numTags)).map out)

/-- The tables have the sizes of the data model: `T*T` pairwise scores, `T`
start scores and `T` end scores, for `T = numTags`. -/
def Splitter.WellSized {α : Type} (s : Splitter α) : Prop :=
  s.transitions.length = numTags * numTags ∧ s.startTransitions.length = numTags ∧
    s.endTransitions.length = numTags

/-! ## Loops that may panic -/

/-- A loop that fills a slice, one element per index, stopping at a panic. -/
def collect {β : Type} (f : Nat → Option β) : List Nat → Option (List β)
  | [] => some []
  | i :: is =>
    match f i with
    | none => none
    | some x =>
      match collect f is with
      | none => none
      | some xs => some (x :: xs)

/-- A loop that updates a state, one step per index, stopping at a panic. -/
def iterate {σ : Type} (f : σ → Nat → Option σ) : σ → List Nat → Option σ
  | st, [] => some st
  | st, i :: is =>
    match f st i with
    | none => none
    | some st' => iterate f st' is

/-! ## The Viterbi decoder (method `crfDecodeBatch`, lines 244-298) -/

/-- Lines 250-253: `score[i] = startTransitions[i] + emissions[offset+i]`. -/
def initScore {α : Type} (F : Float32Ops α) (s : Splitter α) (emissions : List α)
    (offset : Nat) : Option (List α) :=
  collect (fun i =>
    match s.startTransitions[i]?, emissions[offset + i]? with
    | some a, some e => some (F.add a e)
    | _, _ => none) (List.range numTags)

/-- The update `if sc > best { best = sc; bestIdx = i }` of lines 267-270 and
282-285, on the state `(best, bestIdx)`. -/
def keepBest {α : Type} (F : Float32Ops α) (st : α × Nat) (sc : α) (i : Nat) : α × Nat :=
  if F.gt sc st.1 = true then (sc, i) else st

/-- One round of the loop over `i` of lines 265-271, from the state
`(maxScore, maxIdx)`. -/
def tagStep {α : Type} (F : Float32Ops α) (s : Splitter α) (score emissions : List α)
    (emitOffset j : Nat) (st : α × Nat) (i : Nat) : Option (α × Nat) :=
  match score[i]?, s.transitions[i * numTags + j]?, emissions[emitOffset + j]? with
  | some a, some p, some e =>
    some (keepBest F st (F.add (F.add a p) e) i)
  | _, _, _ => none

/-- Lines 263-273 for one tag `j`: the pair `(newScore[j], history[t-1][j])`. -/
def stepTag {α : Type} (F : Float32Ops α) (s : Splitter α) (score emissions : List α)
    (emitOffset j : Nat) : Option (α × Nat) :=
  iterate (tagStep F s score emissions emitOffset j) (F.negMaxFloat32, 0) (List.range numTags)

/-- Lines 258-275 for one position: `newScore` and the row `history[t-1]`. -/
def stepPos {α : Type} (F : Float32Ops α) (s : Splitter α) (score emissions : List α)
    (emitOffset : Nat) : Option (List α × List Nat) :=
  match collect (stepTag F s score emissions emitOffset) (List.range numTags) with
  | none => none
  | some row => some (row.map Prod.fst, row.map Prod.snd)

/-- The state `(score, history)` after the loop of lines 257-276 has handled
the positions `t = 1 .. n` of the sequence that starts at `offset`. -/
def forward {α : Type} (F : Float32Ops α) (s : Splitter α) (emissions : List α)
    (offset : Nat) : Nat → Option (List α × List (List Nat))
  | 0 =>
    match initScore F s emissions offset with
    | none => none
    | some score => some (score, [])
  | n + 1 =>
    match forward F s emissions offset n with
    | none => none
    | some (score, history) =>
      match stepPos F s score emissions (offset + (n + 1) * numTags) with
      | none => none
      | some (newScore, row) => some (newScore, history ++ [row])

/-- One round of the loop of lines 280-286, from the state
`(bestScore, bestLast)`. -/
def lastStep {α : Type} (F : Float32Ops α) (s : Splitter α) (score : List α)
    (st : α × Nat) (i : Nat) : Option (α × Nat) :=
  match score[i]?, s.endTransitions[i]? with
  | some a, some e =>
    some (keepBest F st (F.add a e) i)
  | _, _ => none

/-- Lines 278-286: the final tag `bestLast`. -/
def bestLast {α : Type} (F : Float32Ops α) (s : Splitter α) (score : List α) : Option Nat :=
  match iterate (lastStep F s score) (F.negMaxFloat32, 0) (List.range numTags) with
  | none => none
  | some st => some st.2

/-- Lines 288-292 on the rows of `history` taken from the last one back:
`path[t] = history[t][path[t+1]]`. -/
def backtraceRev : List (List Nat) → Nat → Option (List Nat)
  | [], last => some [last]
  | row :: earlier, last =>
    match row[last]? with
    | none => none
    | some prev =>
      match backtraceRev earlier prev with
      | none => none
      | some path => some (path ++ [last])

/-- Lines 288-292: the path that ends in `last`. -/
def backtrace (history : List (List Nat)) (last : Nat) : Option (List Nat) :=
  backtraceRev history.reverse last

/-- The body of the loop over `b` (lines 248-294) for the sequence whose
emissions start at `offset`.  `make([][]int, seqLen-1)` panics for
`seqLen = 0`. -/
def crfDecodeOne {α : Type} (F : Float32Ops α) (s : Splitter α) (emissions : List α)
    (offset seqLen : Nat) : Option (List Nat) :=
  if seqLen = 0 then none
  else
    match forward F s emissions offset (seqLen - 1) with
    | none => none
    | some (score, history) =>
      match bestLast F s score with
      | none => none
      | some last => backtrace history last

/-- Method `crfDecodeBatch`: one path per sequence of the batch. -/
def crfDecodeBatch {α : Type} (F : Float32Ops α) (s : Splitter α) (emissions : List α)
    (batchSize seqLen : Nat) : Option (List (List Nat)) :=
  collect (fun b => crfDecodeOne F s emissions (b * seqLen * numTags) seqLen)
    (List.range batchSize)

/-! ## The word assembler (function `decodeToWords`, lines 300-317) -/

/-- The loop of lines 304-310 from byte offset `i`, where `rest` is
`text[i:]`; the state is `(words, current)`.  The first argument bounds the
number of iterations. -/
def wordsLoop (preds : List Nat) :
    Nat → List Nat → Nat → List (List Nat) × List Nat → Option (List (List Nat) × List Nat)
  | _, [], _, st => some st
  | 0, _ :: _, _, _ => none
  | fuel + 1, b :: rest, i, st =>
    let rw := decodeRune (b :: rest)
    match preds[i]? with
    | none => none
    | some p =>
      let st' := if p = 1 ∧ st.2.length > 0 then (st.1 ++ [st.2], []) else st
      wordsLoop preds fuel ((b :: rest).drop rw.2) (i + rw.2) (st'.1, st'.2 ++ encodeRune rw.1)

/-- Function `decodeToWords`. -/
def decodeToWords (text : List Nat) (preds : List Nat) : Option (List (List Nat)) :=
  match wordsLoop preds text.length text 0 ([], []) with
  | none => none
  | some st => some (if st.2.length > 0 then st.1 ++ [st.2] else st.1)

/-! ## Calls made, and how a call ends -/

/-- A call of the emission provider (`runInference`) or of the decoder
(`crfDecodeBatch`).  `rows` lists, for each row of the input tensor, the
index in `texts` of the input it encodes (`it.index`; `Split` has the one
input 0). -/
inductive Event (α : Type) where
  | infer (rows : List Nat) (charIds : List Nat) (batchSize seqLen : Nat)
  | decode (emissions : List α) (batchSize seqLen : Nat)

/-- The sequence length a call is made with. -/
def Event.seqLen {α : Type} : Event α → Nat
  | .infer _ _ _ l => l
  | .decode _ _ l => l

/-- The batch size a call is made with. -/
def Event.batchSize {α : Type} : Event α → Nat
  | .infer _ _ b _ => b
  | .decode _ b _ => b

/-- The inputs whose rows a provider call holds. -/
def Event.rows {α : Type} : Event α → List Nat
  | .infer r _ _ _ => r
  | .decode _ _ _ => []

/-- Whether the event is a provider call. -/
def Event.isInfer {α : Type} : Event α → Bool
  | .infer _ _ _ _ => true
  | .decode _ _ _ => false

/-- Whether the event is a provider call that fails. -/
def Event.fails {α : Type} (s : Splitter α) : Event α → Bool
  | .infer _ ids b l => (s.session ids b l).isNone
  | .decode _ _ _ => false

/-- How a call that does not return a result ends: with the error of the
emission provider, or with a run-time panic. -/
inductive Fault where
  | inference
  | panic
  deriving DecidableEq

/-! ## Split (lines 99-120) -/

/-- Method `Split`: the calls made, and the words or the error returned. -/
def Split {α : Type} (F : Float32Ops α) (caseTable : Nat → Nat) (s : Splitter α)
    (text : List Nat) : List (Event α) × Except Fault (List (List Nat)) :=
  if text.length = 0 then ([], .ok [])
  else
    let text := normalize caseTable text
    let seqLen := text.length
    let charIds := textToIds text
    let call := Event.infer [0] charIds 1 seqLen
    match runInference s charIds 1 seqLen with
    | none => ([call], .error .inference)
    | some emissions =>
      let trace := [call, Event.decode emissions 1 seqLen]
      match crfDecodeBatch F s emissions 1 seqLen with
      | none => (trace, .error .panic)
      | some preds =>
        match preds[0]? with
        | none => (trace, .error .panic)
        | some path =>
          match decodeToWords text path with
          | none => (trace, .error .panic)
          | some words => (trace, .ok words)

/-! ## SplitBatch (lines 123-197) -/

/-- Type `item` (lines 135-138). -/
structure Item where
  index : Nat
  text : List Nat

/-- The slice `results`: an entry is `none` while it is the nil slice that
`make` put there. -/
abbrev Results := List (Option (List (List Nat)))

/-- The map `lengthGroups`: the keys present, and the value of every key
(the empty slice for a key that is absent, as a Go map lookup gives). -/
structure Groups where
  keys : List Nat
  get : Nat → List Item

def Groups.empty : Groups := ⟨[], fun _ => []⟩

/-- The assignment `lengthGroups[length] = append(lengthGroups[length], it)`. -/
def Groups.push (g : Groups) (length : Nat) (it : Item) : Groups where
  keys := if length ∈ g.keys then g.keys else g.keys ++ [length]
  get := fun l => if l = length then g.get l ++ [it] else g.get l

/-- The loop of lines 142-154 from input number `i` on. -/
def groupInputs (caseTable : Nat → Nat) : List (List Nat) → Nat → Results × Groups → Results × Groups
  | [], _, st => st
  | text :: rest, i, st =>
    let processed := normalize caseTable text
    let length := processed.length
    if length = 0 then groupInputs caseTable rest (i + 1) (st.1.set i (some []), st.2)
    else groupInputs caseTable rest (i + 1) (st.1, st.2.push length ⟨i, processed⟩)

/-- The builtin `copy(dst[off:], src)`. -/
def copyAt (dst : List Nat) (off : Nat) (src : List Nat) : List Nat :=
  dst.take off ++ src.take (dst.length - off) ++ dst.drop (off + src.length)

/-- The loop of lines 177-181 on `charIds`, from member number `i` of the
chunk on. -/
def fillCharIds (length : Nat) : List Item → Nat → List Nat → List Nat
  | [], _, charIds => charIds
  | it :: rest, i, charIds =>
    fillCharIds length rest (i + 1) (copyAt charIds (i * length) (textToIds it.text))

/-- The loop of lines 190-192, from member number `i` of the chunk on. -/
def writeResults (batchTexts : List (List Nat)) (preds : List (List Nat)) :
    List Item → Nat → Results → Option Results
  | [], _, results => some results
  | it :: rest, i, results =>
    match batchTexts[i]?, preds[i]? with
    | some text, some path =>
      match decodeToWords text path with
      | none => none
      | some words =>
        if it.index < results.length then
          writeResults batchTexts preds rest (i + 1) (results.set it.index (some words))
        else none
    | _, _ => none

/-- Lines 171-192: one chunk `batch` of the group of the given length. -/
def processChunk {α : Type} (F : Float32Ops α) (s : Splitter α) (length : Nat)
    (batch : List Item) (st : List (Event α) × Results) :
    List (Event α) × Except Fault Results :=
  let batchLen := batch.length
  let charIds := fillCharIds length batch 0 (List.replicate (batchLen * length) 0)
  let batchTexts := batch.map Item.text
  let call := Event.infer (batch.map Item.index) charIds batchLen length
  match runInference s charIds batchLen length with
  | none => (st.1 ++ [call], .error .inference)
  | some emissions =>
    let trace := st.1 ++ [call, Event.decode emissions batchLen length]
    match crfDecodeBatch F s emissions batchLen length with
    | none => (trace, .error .panic)
    | some preds =>
      match writeResults batchTexts preds batch 0 st.2 with
      | none => (trace, .error .panic)
      | some results => (trace, .ok results)

/-- The loop of lines 165-193 over the chunks of one group, from
`batchStart` on.  The first argument bounds the number of iterations; the
length of the group is enough when `batchSize` is positive. -/
def chunkLoop {α : Type} (F : Float32Ops α) (s : Splitter α) (length : Nat)
    (group : List Item) (batchSize : Nat) :
    Nat → Nat → List (Event α) × Results → List (Event α) × Except Fault Results
  | 0, batchStart, st =>
    if batchStart < group.length then (st.1, .error .panic) else (st.1, .ok st.2)
  | fuel + 1, batchStart, st =>
    if batchStart < group.length then
      let batchEnd := if batchStart + batchSize > group.length then group.length
        else batchStart + batchSize
      let batch := (group.take batchEnd).drop batchStart
      match processChunk F s length batch st with
      | (trace, .error e) => (trace, .error e)
      | (trace, .ok results) =>
        chunkLoop F s length group batchSize fuel (batchStart + batchSize) (trace, results)
    else (st.1, .ok st.2)

/-- The loop of lines 162-194 over the sorted lengths. -/
def groupLoop {α : Type} (F : Float32Ops α) (s : Splitter α) (groups : Groups)
    (batchSize : Nat) :
    List Nat → List (Event α) × Results → List (Event α) × Except Fault Results
  | [], st => (st.1, .ok st.2)
  | length :: rest, st =>
    let group := groups.get length
    match chunkLoop F s length group batchSize group.length 0 st with
    | (trace, .error e) => (trace, .error e)
    | (trace, .ok results) => groupLoop F s groups batchSize rest (trace, results)

/-- Lines 128-130: the chunk size in use. -/
def maxSubBatch (batchSize : Int) : Nat :=
  if batchSize ≤ 0 then 256 else batchSize.toNat

/-- Method `SplitBatch`: the calls made, and the results or the error
returned. -/
def SplitBatch {α : Type} (F : Float32Ops α) (caseTable : Nat → Nat) (s : Splitter α)
    (texts : List (List Nat)) (batchSize : Int) :
    List (Event α) × Except Fault Results :=
  if texts.length = 0 then ([], .ok [])
  else
    let batchSize := maxSubBatch batchSize
    let n := texts.length
    let st := groupInputs caseTable texts 0 (List.replicate n none, Groups.empty)
    let lengths := List.insertionSort (fun a b => a ≤ b) st.2.keys
    groupLoop F s st.2 batchSize lengths ([], st.1)

/-! ## Construction (function `New`, lines 57-96; `loadFloat32Bin`, lines 319-336) -/

/-- The files `New` opens below `modelDir`: `dksplit-int8.onnx`,
`transitions.bin`, `start_transitions.bin`, `end_transitions.bin`. -/
inductive ModelFile where
  | onnx
  | transitions
  | startTransitions
  | endTransitions
  deriving DecidableEq

/-- What `New` meets outside the program: whether the ONNX runtime
initialises (`initORT`), the session created for the model file of a
directory (`ort.NewDynamicAdvancedSession`), the bytes `os.ReadFile` returns
for a file of a directory, and the `float32` with a given bit pattern
(`float32frombits`).  `none` is an error. -/
structure World (α : Type) where
  initORT : Bool
  newSession : List Nat → Option (List Nat → Nat → Nat → Option (Nat → α))
  readFile : List Nat → ModelFile → Option (List Nat)
  float32frombits : Nat → α

/-- Why `New` returns an error. -/
inductive LoadError where
  | init
  | session
  | file (f : ModelFile)
  deriving DecidableEq

/-- Function `binary.LittleEndian.Uint32` on the first four bytes:
`b[0] | b[1]<<8 | b[2]<<16 | b[3]<<24`. -/
def uint32LE (b : List Nat) : Nat :=
  b.getD 0 0 + 2 ^ 8 * b.getD 1 0 + 2 ^ 16 * b.getD 2 0 + 2 ^ 24 * b.getD 3 0

/-- Function `loadFloat32Bin`: `len(data)/4` values, value `i` from the four
bytes at `data[i*4:]`; `none` when the file cannot be read. -/
def loadFloat32Bin {α : Type} (W : World α) (modelDir : List Nat) (f : ModelFile) :
    Option (List α) :=
  match W.readFile modelDir f with
  | none => none
  | some data =>
    some ((List.range (data.length / 4)).map
      (fun i => W.float32frombits (uint32LE (data.drop (i * 4)))))

/-- Function `New`. -/
def New {α : Type} (W : World α) (modelDir : List Nat) : Except LoadError (Splitter α) :=
  if W.initORT = false then .error .init
  else
    match W.newSession modelDir with
    | none => .error .session
    | some session =>
      match loadFloat32Bin W modelDir .transitions with
      | none => .error (.file .transitions)
      | some transitions =>
        match loadFloat32Bin W modelDir .startTransitions with
        | none => .error (.file .startTransitions)
        | some startTrans =>
          match loadFloat32Bin W modelDir .endTransitions with
          | none => .error (.file .endTransitions)
          | some endTrans =>
            .ok { session := session, transitions := transitions,
                  startTransitions := startTrans, endTransitions := endTrans }

/-! ## Auxiliary definitions used in the proofs -/

/-- What the loop over the positions keeps true of `(score, history)`. -/
def GoodState {α : Type} (n : Nat) (st : List α × List (List Nat)) : Prop :=
  st.1.length = 2 ∧ st.2.length = n ∧ ∀ row ∈ st.2, row.length = 2 ∧ ∀ x ∈ row, x < 2

/-- What `Split` computes from a normalised text: the provider call for the
one row, the path of that row, the words. -/
def decodeSingle {α : Type} (F : Float32Ops α) (s : Splitter α) (t : List Nat) :
    Option (List (List Nat)) :=
  match runInference s (textToIds t) 1 t.length with
  | none => none
  | some emissions =>
    match crfDecodeOne F s emissions 0 t.length with
    | none => none
    | some path => decodeToWords t path

/-- The ids of a chunk laid out row after row. -/
def flatIds (batch : List Item) : List Nat :=
  (batch.map (fun it => textToIds it.text)).flatten

/-- The inputs that are not empty after normalisation, each with its index,
in input order, for the inputs numbered from `i` on. -/
def itemsFrom (caseTable : Nat → Nat) : List (List Nat) → Nat → List Item
  | [], _ => []
  | text :: rest, i =>
    if (normalize caseTable text).length = 0 then itemsFrom caseTable rest (i + 1)
    else ⟨i, normalize caseTable text⟩ :: itemsFrom caseTable rest (i + 1)

/-- The results `R'` are the results `R` with the entry of every item of `S`
overwritten by a word list that `Q` accepts for an item of `S` with that
index; every other entry is untouched. -/
def Written (Q : Item → List (List Nat) → Prop) (S : List Item) (R R' : Results) : Prop :=
  R'.length = R.length ∧
  ∀ j, (j ∉ S.map Item.index → R'[j]? = R[j]?) ∧
    (j ∈ S.map Item.index → ∃ it w, it ∈ S ∧ it.index = j ∧ R'[j]? = some (some w) ∧ Q it w)

/-- A call made for a chunk of items of `S` with chunk size `bs`. -/
def EvGood {α : Type} (bs : Nat) (S : List Item) (e : Event α) : Prop :=
  1 ≤ e.seqLen ∧ e.seqLen ≤ maxLen ∧ 1 ≤ e.batchSize ∧ e.batchSize ≤ bs ∧
    ∀ j ∈ e.rows, j ∈ S.map Item.index

/-- How a part of `SplitBatch` that handles the items `S` takes the state
`st` to the outcome `r`: it adds calls for chunks of `S`, and either returns
results in which exactly the entries of `S` are written and no call failed,
or returns the provider error after a call that failed, or panics, which
takes tables of a wrong size. -/
def Handles {α : Type} (s : Splitter α) (bs : Nat) (Q : Item → List (List Nat) → Prop)
    (S : List Item) (st : List (Event α) × Results)
    (r : List (Event α) × Except Fault Results) : Prop :=
  ∃ new, r.1 = st.1 ++ new ∧ (∀ e ∈ new, EvGood bs S e) ∧
    ((∃ R', r.2 = .ok R' ∧ (∀ e ∈ new, e.fails s = false) ∧ Written Q S st.2 R') ∨
     (r.2 = .error .inference ∧ ∃ e ∈ new, e.fails s = true) ∨
     (r.2 = .error .panic ∧ ¬ s.WellSized ∧ ∀ e ∈ new, e.fails s = false))

/-- What a chunk guarantees of the words it writes: `Q` accepts the words of
member `k`, assembled from the path of row `k`, whenever the provider call
for the chunk succeeds. -/
def ChunkSound {α : Type} (F : Float32Ops α) (s : Splitter α)
    (Q : Item → List (List Nat) → Prop) (good : Item → Prop) : Prop :=
  ∀ (batch : List Item) (L : Nat) (out : Nat → α) (k : Nat) (it : Item)
    (path : List Nat) (w : List (List Nat)),
    1 ≤ L → (∀ x ∈ batch, good x ∧ x.text.length = L) →
    s.session (flatIds batch) batch.length L = some out →
    batch[k]? = some it →
    crfDecodeOne F s ((List.range (batch.length * L * numTags)).map out)
      (k * L * numTags) L = some path →
    decodeToWords it.text path = some w → Q it w

/-- The emission provider never fails. -/
def Splitter.NeverFails {α : Type} (s : Splitter α) : Prop :=
  ∀ ids b l, ∃ out, s.session ids b l = some out

/-- The emission provider scores each row of a batch exactly as it scores
that row alone. -/
def Splitter.RowWise {α : Type} (s : Splitter α) : Prop :=
  ∀ (rows : List (List Nat)) (L : Nat) (out out1 : Nat → α) (b : Nat) (row : List Nat),
    (∀ r ∈ rows, r.length = L) → rows[b]? = some row →
    s.session rows.flatten rows.length L = some out →
    s.session row 1 L = some out1 →
    ∀ k, k < L * numTags → out (b * L * numTags + k) = out1 k

/-- An item as the first loop of `SplitBatch` builds it: the normalised text
of the input with its index, not empty. -/
def GoodItem (caseTable : Nat → Nat) (texts : List (List Nat)) (it : Item) : Prop :=
  ∃ t, texts[it.index]? = some t ∧ it.text = normalize caseTable t ∧ it.text ≠ []

/-- The slice `results` after the first loop of `SplitBatch`. -/
def initialResults (caseTable : Nat → Nat) (texts : List (List Nat)) : Results :=
  (groupInputs caseTable texts 0 (List.replicate texts.length none, Groups.empty)).1

/-- The words written for an item are not empty, none of them is empty, and
their concatenation is the text of the item with every rune written back. -/
def WordsOf (it : Item) (w : List (List Nat)) : Prop :=
  w.flatten = reencode it.text ∧ [] ∉ w ∧ w ≠ []

/-- The words written for an item are those of the single-row decode. -/
def SingleOf {α : Type} (F : Float32Ops α) (s : Splitter α) (it : Item)
    (w : List (List Nat)) : Prop :=
  decodeSingle F s it.text = some w

/-! ## Concrete inputs for evaluation -/

/-- A case table that changes no rune.  It agrees with the Unicode tables on
every rune without a lower-case mapping, among them U+00E9 and U+FFFD, the
only runes from U+0080 on in the inputs evaluated below. -/
def noCase : Nat → Nat := fun r => r

/-- A splitter whose provider returns the score 0 everywhere and whose
transition scores are all 0. -/
def zeroSplitter : Splitter Int where
  session := fun _ _ _ => some (fun _ => 0)
  transitions := [0, 0, 0, 0]
  startTransitions := [0, 0]
  endTransitions := [0, 0]

/-- A splitter whose provider gives, at every position that holds the letter
`w` (id 24), the score 5 to the boundary tag, and 0 otherwise. -/
def markSplitter : Splitter Int where
  session := fun ids _ _ => some (fun k => if k % 2 = 1 ∧ ids.getD (k / 2) 0 = 24 then 5 else 0)
  transitions := [0, 0, 0, 0]
  startTransitions := [0, 0]
  endTransitions := [0, 0]

/-- A splitter whose provider fails on every call. -/
def failingSplitter : Splitter Int where
  session := fun _ _ _ => none
  transitions := [0, 0, 0, 0]
  startTransitions := [0, 0]
  endTransitions := [0, 0]

/-- A splitter whose provider fails on the sequences of length 2 and returns
the score 0 everywhere on any other call. -/
def pickySplitter : Splitter Int where
  session := fun _ _ l => if l = 2 then none else some (fun _ => 0)
  transitions := [0, 0, 0, 0]
  startTransitions := [0, 0]
  endTransitions := [0, 0]

/-- The 65 bytes of sixty-three letters `a` followed by `é` (U+00E9, the two
bytes C3 A9): valid UTF-8, already lower-case. -/
def cutRuneInput : List Nat := List.replicate 63 97 ++ [0xC3, 0xA9]

/-! ## The score of a tag path, in exact arithmetic -/

/-- The entry `start[i]` of the transition model. -/
def startScore (s : Splitter Int) (i : Nat) : Int := s.startTransitions.getD i 0

/-- The entry `end[i]` of the transition model. -/
def endScore (s : Splitter Int) (i : Nat) : Int := s.endTransitions.getD i 0

/-- The entry `pairwise[i][j]` of the transition model, stored row-major. -/
def pairwise (s : Splitter Int) (i j : Nat) : Int := s.transitions.getD (i * numTags + j) 0

/-- The entry `emissions[t][j]` of the sequence whose emissions start at
`offset`. -/
def emit (emissions : List Int) (offset t j : Nat) : Int :=
  emissions.getD (offset + t * numTags + j) 0

/-- The score of the tags `p0 .. pt` of a path without the end score:
`start[p0]`, the emissions `emissions[k][pk]` and the transitions
`pairwise[p(k-1)][pk]` along it. -/
def prefixScore (s : Splitter Int) (emissions : List Int) (offset : Nat) (p : List Nat) : Int :=
  startScore s (p.getD 0 0) +
    ((List.range p.length).map (fun t => emit emissions offset t (p.getD t 0))).sum +
    ((List.range (p.length - 1)).map (fun t => pairwise s (p.getD t 0) (p.getD (t + 1) 0))).sum

/-- The total score of a path:
`start[p0] + sum of emissions[t][pt] + sum of pairwise[p(t-1)][pt] + end[p(L-1)]`. -/
def pathScore (s : Splitter Int) (emissions : List Int) (offset : Nat) (p : List Nat) : Int :=
  prefixScore s emissions offset p + endScore s (p.getD (p.length - 1) 0)

/-- A tag path of length `L`: one tag, 0 or 1, per position. -/
def IsPath (L : Nat) (p : List Nat) : Prop := p.length = L ∧ ∀ x ∈ p, x < 2

/-- Every maximum the decoder takes is over scores one of which is above the
starting value `-math.MaxFloat32` of the running maximum: for each position
`t ≥ 1` and each tag `j` some path over the positions `0..t` that ends in
`j` scores above it, and some path over all positions has a total score
above it. -/
def AboveSentinel (s : Splitter Int) (emissions : List Int) (offset L : Nat) : Prop :=
  (∀ t j, 1 ≤ t → t < L → j < 2 →
    ∃ q, IsPath (t + 1) q ∧ q.getD t 0 = j ∧
      exact.negMaxFloat32 < prefixScore s emissions offset q) ∧
  ∃ q, IsPath L q ∧ exact.negMaxFloat32 < pathScore s emissions offset q

/-- What the loop over the positions keeps true in exact arithmetic: after
position `n`, `score[j]` is the best score of a path over the positions
`0..n` that ends in `j`, and following `history` back from `j` gives a path
with that score. -/
def ViterbiInv (s : Splitter Int) (emissions : List Int) (offset n : Nat)
    (st : List Int × List (List Nat)) : Prop :=
  ∃ m0 m1, st.1 = [m0, m1] ∧
    ∀ j, j < 2 →
      (∀ q, IsPath (n + 1) q → q.getD n 0 = j →
        prefixScore s emissions offset q ≤ [m0, m1].getD j 0) ∧
      (∃ q, backtraceRev st.2.reverse j = some q ∧ IsPath (n + 1) q ∧ q.getD n 0 = j ∧
        prefixScore s emissions offset q = [m0, m1].getD j 0)

/-- A splitter whose start scores are both `-math.MaxFloat32` and whose
other transition scores are 0; its provider is not used. -/
def lowStartSplitter : Splitter Int where
  session := fun _ _ _ => none
  transitions := [0, 0, 0, 0]
  startTransitions := [-maxFloat32Units, -maxFloat32Units]
  endTransitions := [0, 0]

/-- A splitter with transition scores that differ from tag to tag; its
provider is not used. -/
def sampleSplitter : Splitter Int where
  session := fun _ _ _ => none
  transitions := [1, -2, 3, 0]
  startTransitions := [0, -1]
  endTransitions := [2, 0]

/-- Index `a` is the lowest tag among those that maximise `f`. -/
def LowestArgmax (f : Nat → Int) (a : Nat) : Prop :=
  a < 2 ∧ (∀ i, i < 2 → f i ≤ f a) ∧ (∀ i, i < 2 → f i = f a → a ≤ i)

/-- The score of the rest of a path after a tag `last` at position `t - 1`:
the transitions and emissions of the tags that follow, and the end score. -/
def tailScore (s : Splitter Int) (emissions : List Int) (offset : Nat) :
    Nat → Nat → List Nat → Int
  | last, _, [] => endScore s last
  | last, t, j :: rest =>
    pairwise s last j + emit emissions offset t j + tailScore s emissions offset j (t + 1) rest

/-- A model directory in which every file can be read, `transitions.bin`
holds 8 bytes (two values instead of four) and the other two parameter
files 8 bytes each. -/
def shortTableWorld : World Nat where
  initORT := true
  newSession := fun _ => some (fun _ _ _ => none)
  readFile := fun _ _ => some [0, 0, 0, 0, 0, 0, 128, 63]
  float32frombits := fun bits => bits

/-! ## Auxiliary definitions: word boundaries, path order, the schedule -/

/-- The positions `i` with `1 ≤ i < n` whose tag is 1, in increasing order. -/
def boundaries (preds : List Nat) (n : Nat) : List Nat :=
  (List.range n).filter (fun i => decide (1 ≤ i) && decide (preds[i]? = some 1))

/-- The total length of the first `k + 1` words, for every `k`. -/
def prefixLens (ws : List (List Nat)) : List Nat :=
  (List.range ws.length).map (fun k => (ws.take (k + 1)).flatten.length)

/-- The byte offsets at which a list of words cuts their concatenation: the
total length of the first `k + 1` words, for every word but the last. -/
def cutPoints (ws : List (List Nat)) : List Nat :=
  (List.range (ws.length - 1)).map (fun k => (ws.take (k + 1)).flatten.length)

/-- A byte of the vocabulary: `a..z` or `0..9`. -/
def isVocab (c : Nat) : Prop := (97 ≤ c ∧ c ≤ 122) ∨ (48 ≤ c ∧ c ≤ 57)


instance isVocabDecidable (c : Nat) : Decidable (isVocab c) := by
  unfold isVocab; exact inferInstance

/-- A splitter whose end scores are both `-math.MaxFloat32` and whose other
transition scores are 0; its provider is not used. -/
def lowEndSplitter : Splitter Int where
  session := fun _ _ _ => none
  transitions := [0, 0, 0, 0]
  startTransitions := [0, 0]
  endTransitions := [-maxFloat32Units, -maxFloat32Units]

/-- The total score of the one-tag path `[i]` of the sequence whose
emissions start at `offset`: `start[i] + end[i] + emissions[0][i]`. -/
def singleScore (s : Splitter Int) (emissions : List Int) (offset i : Nat) : Int :=
  startScore s i + endScore s i + emit emissions offset 0 i

/-- Order on tag paths of one length, compared from the last position
backwards: `p` is `q`, or at the last position where they differ `p` has
the lower tag. -/
def RevLexLE (p q : List Nat) : Prop :=
  p = q ∨ ∃ t, p.getD t 0 < q.getD t 0 ∧ ∀ u, t < u → p.getD u 0 = q.getD u 0

/-- What the loop over the positions keeps true besides `ViterbiInv`:
following `history` back from `j` gives the smallest, in the order
`RevLexLE`, of the paths over the positions `0..n` that end in `j` with the
same score. -/
def CanonInv (s : Splitter Int) (emissions : List Int) (offset n : Nat)
    (st : List Int × List (List Nat)) : Prop :=
  ∀ j, j < 2 → ∀ p, backtraceRev st.2.reverse j = some p →
    ∀ q, IsPath (n + 1) q → q.getD n 0 = j →
      prefixScore s emissions offset q = prefixScore s emissions offset p → RevLexLE p q

/-- Upper-casing of an ASCII byte: `a..z` go to `A..Z`, every other byte is
kept. -/
def upperASCII (c : Nat) : Nat := if 97 ≤ c ∧ c ≤ 122 then c - 32 else c

/-- A model directory in which every file holds the six bytes
`00 00 80 3F 07 07`: one value and two trailing bytes. -/
def trailingBytesWorld : World Nat where
  initORT := true
  newSession := fun _ => some (fun _ _ _ => none)
  readFile := fun _ _ => some [0, 0, 128, 63, 7, 7]
  float32frombits := fun bits => bits

/-! ## The schedule of SplitBatch -/

/-- The chunks the loop of lines 165-193 forms from `batchStart` on, each
the slice `group[batchStart:batchEnd]`.  The first argument bounds the number
of chunks. -/
def chunksFrom (group : List Item) (batchSize : Nat) : Nat → Nat → List (List Item)
  | 0, _ => []
  | fuel + 1, batchStart =>
    if batchStart < group.length then
      let batchEnd := if batchStart + batchSize > group.length then group.length
        else batchStart + batchSize
      (group.take batchEnd).drop batchStart ::
        chunksFrom group batchSize fuel (batchStart + batchSize)
    else []

/-- The chunks of the groups of the given lengths, each with the length of
its group, in the order in which the loops of lines 162-194 meet them. -/
def schedule (groups : Groups) (batchSize : Nat) (lengths : List Nat) : List (Nat × List Item) :=
  lengths.flatMap (fun l =>
    (chunksFrom (groups.get l) batchSize (groups.get l).length 0).map (fun c => (l, c)))

/-- The chunks `SplitBatch` forms for a list of texts, in the order in which
it processes them. -/
def chunkPlan (caseTable : Nat → Nat) (texts : List (List Nat)) (batchSize : Int) :
    List (Nat × List Item) :=
  schedule (groupInputs caseTable texts 0 (List.replicate texts.length none, Groups.empty)).2
    (maxSubBatch batchSize)
    (List.insertionSort (fun a b => a ≤ b)
      (groupInputs caseTable texts 0 (List.replicate texts.length none, Groups.empty)).2.keys)

/-- Lines 171-192 for each chunk of a list, in the order of the list,
stopping at the first chunk that ends with an error. -/
def runSchedule {α : Type} (F : Float32Ops α) (s : Splitter α) :
    List (Nat × List Item) → List (Event α) × Results → List (Event α) × Except Fault Results
  | [], st => (st.1, .ok st.2)
  | c :: rest, st =>
    match processChunk F s c.1 c.2 st with
    | (trace, .error e) => (trace, .error e)
    | (trace, .ok results) => runSchedule F s rest (trace, results)

/-- A `float32` value: a finite value as a whole number of units of `2^-149`
(every finite `float32` is one; the two zeros, which compare equal and add
alike, are the one value 0), an infinity, or a NaN. -/
inductive F32 where
  | fin (units : Int)
  | posInf
  | negInf
  | nan
  deriving DecidableEq

/-- The spacing of the `float32` values around a magnitude of `a` units: the
least `q`, among `q0, 2*q0, 4*q0, ...`, with `a / q < 2^24`.  The first
argument bounds the number of doublings; `a` itself is enough. -/
def quantum : Nat → Nat → Nat → Nat
  | 0, _, q => q
  | fuel + 1, a, q => if a / q < 2 ^ 24 then q else quantum fuel a (2 * q)

/-- The `float32` nearest to the exact value of `n` units: the magnitude is
rounded to a multiple of the spacing, a tie to the even multiple, and the
result is an infinity when it is beyond the largest finite value. -/
def roundF32 (n : Int) : F32 :=
  let q := quantum n.natAbs n.natAbs 1
  let m := n.natAbs / q
  let r := n.natAbs % q
  let m' := if q < 2 * r ∨ (2 * r = q ∧ m % 2 = 1) then m + 1 else m
  if maxFloat32Units.toNat < m' * q then (if n < 0 then F32.negInf else F32.posInf)
  else F32.fin (if n < 0 then -((m' * q : Nat) : Int) else ((m' * q : Nat) : Int))

/-- The operator `+` on `float32`. -/
def F32.add : F32 → F32 → F32
  | .nan, _ => .nan
  | _, .nan => .nan
  | .posInf, .negInf => .nan
  | .negInf, .posInf => .nan
  | .posInf, _ => .posInf
  | _, .posInf => .posInf
  | .negInf, _ => .negInf
  | _, .negInf => .negInf
  | .fin a, .fin b => roundF32 (a + b)

/-- The position of a value that is not a NaN in the order of the numbers:
`-Inf`, the finite values, `+Inf`. -/
def F32.key : F32 → Option (Nat × Int)
  | .nan => none
  | .negInf => some (0, 0)
  | .fin a => some (1, a)
  | .posInf => some (2, 0)

/-- The operator `>` on `float32`: false when an operand is a NaN. -/
def F32.gt (x y : F32) : Bool :=
  match x.key, y.key with
  | some (c, a), some (d, b) => decide (d < c ∨ (d = c ∧ b < a))
  | _, _ => false

/-- The arithmetic of the code: `float32`. -/
def float32 : Float32Ops F32 where
  add := F32.add
  gt := F32.gt
  negMaxFloat32 := F32.fin (-maxFloat32Units)

/-- The number of units of a finite value. -/
def F32.units : F32 → Int
  | .fin a => a
  | _ => 0

/-! ## Auxiliary definitions: the tie-break for any arithmetic -/

theorem charMap_length : charMap.length = 128 := by decide

theorem charMap_getD (c : Nat) (h : c < 128) : charMap.getD c padIdx = specId c := by
  revert c
  decide

theorem specId_of_not_vocab (c : Nat) (h1 : ¬ (97 ≤ c ∧ c ≤ 122)) (h2 : ¬ (48 ≤ c ∧ c ≤ 57)) :
    specId c = 1 := by
  unfold specId
  rw [if_neg h1, if_neg h2]

theorem textToIds_length (text : List Nat) : (textToIds text).length = text.length := by
  simp [textToIds]

theorem textToIds_getElem? (text : List Nat) (i : Nat) :
    (textToIds text)[i]? = (text[i]?).map specId := by
  simp only [textToIds, List.getElem?_map]
  cases h : text[i]? with
  | none => rfl
  | some c =>
    simp only [Option.map_some']
    by_cases hc : c < 128
    · rw [if_pos hc, charMap_getD c hc]
    · rw [if_neg hc, specId_of_not_vocab c (by omega) (by omega)]
      rfl

theorem specId_range (c : Nat) : 1 ≤ specId c ∧ specId c ≤ 37 := by
  unfold specId
  split
  · omega
  · split <;> omega

/-- Claim C7.  `textToIds` returns one id per byte of the text.  The id at
position `i` is `c - 97 + 2` for a byte `c` in `a..z` (so 2..27 in order),
`c - 48 + 28` for a byte in `0..9` (so 28..37 in order), and the unknown id 1
for every other byte, among them the upper-case letters and every byte from
128 on.  Every id lies in 1..37, none is the padding id 0, and two
different vocabulary bytes never share an id.  The function is total: there
is no error result. -/
theorem textToIds_encoding (text : List Nat) :
    (textToIds text).length = text.length ∧
    (∀ (i c : Nat), text[i]? = some c →
      ∃ id, (textToIds text)[i]? = some id ∧
        (97 ≤ c ∧ c ≤ 122 → id = c - 97 + 2 ∧ 2 ≤ id ∧ id ≤ 27) ∧
        (48 ≤ c ∧ c ≤ 57 → id = c - 48 + 28 ∧ 28 ≤ id ∧ id ≤ 37) ∧
        (¬ (97 ≤ c ∧ c ≤ 122) ∧ ¬ (48 ≤ c ∧ c ≤ 57) → id = unkIdx) ∧
        (65 ≤ c ∧ c ≤ 90 → id = unkIdx) ∧
        (128 ≤ c → id = unkIdx) ∧
        id ≠ padIdx ∧ 1 ≤ id ∧ id ≤ 37) ∧
    (∀ (i j c d : Nat), text[i]? = some c → text[j]? = some d →
      (97 ≤ c ∧ c ≤ 122) ∨ (48 ≤ c ∧ c ≤ 57) →
      (textToIds text)[i]? = (textToIds text)[j]? → c = d) := by
  refine ⟨textToIds_length text, ?_, ?_⟩
  · intro i c hc
    refine ⟨specId c, by rw [textToIds_getElem?, hc]; rfl, ?_, ?_, ?_, ?_, ?_, ?_, ?_⟩
    · intro h
      have : specId c = c - 97 + 2 := by unfold specId; rw [if_pos h]
      omega
    · intro h
      have : specId c = c - 48 + 28 := by
        unfold specId; rw [if_neg (by omega), if_pos h]
      omega
    · intro h
      exact specId_of_not_vocab c h.1 h.2
    · intro h
      exact specId_of_not_vocab c (by omega) (by omega)
    · intro h
      exact specId_of_not_vocab c (by omega) (by omega)
    · have := specId_range c
      simp only [padIdx]
      omega
    · exact specId_range c
  · intro i j c d hc hd hv hEq
    rw [textToIds_getElem?, textToIds_getElem?, hc, hd] at hEq
    simp only [Option.map_some', Option.some.injEq] at hEq
    unfold specId at hEq
    split_ifs at hEq <;> omega

theorem textToIds_encoding_witness :
    (textToIds [104, 57, 65, 200])[1]? = some 37 ∧ (textToIds [104, 57, 65, 200])[0]? = some 9 := by
  have h := (textToIds_encoding [104, 57, 65, 200]).2.1
  obtain ⟨id1, h1, -, h1b, -⟩ := h 1 57 (by decide)
  obtain ⟨id0, h0, h0a, -⟩ := h 0 104 (by decide)
  have e1 := (h1b (by decide)).1
  have e0 := (h0a (by decide)).1
  subst e1
  subst e0
  exact ⟨h1, h0⟩

/-! ## UTF-8 and the word assembler -/

theorem decodeRune_width (b : Nat) (rest : List Nat) :
    1 ≤ (decodeRune (b :: rest)).2 ∧ (decodeRune (b :: rest)).2 ≤ rest.length + 1 := by
  simp only [decodeRune]
  split_ifs
  · simp
  · rcases rest with _ | ⟨b1, r1⟩
    · simp
    · simp only [List.length_cons]; split_ifs <;> simp
  · rcases rest with _ | ⟨b1, _ | ⟨b2, r2⟩⟩
    · simp
    · simp
    · simp only [List.length_cons]; split_ifs <;> simp
  · rcases rest with _ | ⟨b1, _ | ⟨b2, _ | ⟨b3, r3⟩⟩⟩
    · simp
    · simp
    · simp
    · simp only [List.length_cons]; split_ifs <;> simp
  · simp

theorem runesLoop_fuel (fuel : Nat) : ∀ (s : List Nat), s.length ≤ fuel →
    runesLoop fuel s = runesLoop s.length s := by
  induction fuel using Nat.strong_induction_on with
  | _ fuel ih =>
    intro s hs
    rcases s with _ | ⟨b, rest⟩
    · cases fuel <;> rfl
    · rcases fuel with _ | fuel
      · simp at hs
      · have hw := decodeRune_width b rest
        have hlen : ((b :: rest).drop (decodeRune (b :: rest)).2).length ≤ rest.length := by
          simp only [List.length_drop, List.length_cons]; omega
        simp only [runesLoop, List.length_cons]
        rw [ih fuel (Nat.lt_succ_self _) _ (by simp only [List.length_cons] at hs; omega),
          ih rest.length (by simp only [List.length_cons] at hs; omega) _ hlen]

theorem runes_cons (b : Nat) (rest : List Nat) :
    runes (b :: rest) =
      (decodeRune (b :: rest)).1 :: runes ((b :: rest).drop (decodeRune (b :: rest)).2) := by
  have hw := decodeRune_width b rest
  have hlen : ((b :: rest).drop (decodeRune (b :: rest)).2).length ≤ rest.length := by
    simp only [List.length_drop, List.length_cons]; omega
  simp only [runes, List.length_cons, runesLoop]
  rw [runesLoop_fuel rest.length _ hlen]

theorem reencode_nil : reencode [] = [] := rfl

theorem reencode_cons (b : Nat) (rest : List Nat) :
    reencode (b :: rest) =
      encodeRune (decodeRune (b :: rest)).1 ++
        reencode ((b :: rest).drop (decodeRune (b :: rest)).2) := by
  simp only [reencode, runes_cons, List.flatMap_cons]

theorem encodeRune_ne_nil (r : Nat) : encodeRune r ≠ [] := by
  unfold encodeRune
  split_ifs <;> simp

/-- The loop of `decodeToWords` ends without a panic when there is a tag for
every byte offset, and the words and the buffer it leaves hold, in order,
what they held before followed by the runes of the text written back. -/
theorem wordsLoop_flatten (preds : List Nat) (fuel : Nat) :
    ∀ (rest : List Nat) (i : Nat) (st : List (List Nat) × List Nat),
      rest.length ≤ fuel → i + rest.length ≤ preds.length →
      ∃ st', wordsLoop preds fuel rest i st = some st' ∧
        st'.1.flatten ++ st'.2 = st.1.flatten ++ st.2 ++ reencode rest ∧
        ([] ∉ st.1 → [] ∉ st'.1) ∧ (st.2 ≠ [] ∨ rest ≠ [] → st'.2 ≠ []) := by
  induction fuel using Nat.strong_induction_on with
  | _ fuel ih =>
    intro rest i st hf hp
    rcases rest with _ | ⟨b, rest⟩
    · refine ⟨st, ?_, by simp [reencode_nil], fun h => h, fun h => h.elim id (fun h => absurd rfl h)⟩
      cases fuel <;> rfl
    · rcases fuel with _ | fuel
      · simp at hf
      · have hw := decodeRune_width b rest
        simp only [List.length_cons] at hf hp
        have hi : i < preds.length := by omega
        obtain ⟨p, hpi⟩ : ∃ p, preds[i]? = some p := ⟨preds[i], List.getElem?_eq_getElem hi⟩
        have hlen : ((b :: rest).drop (decodeRune (b :: rest)).2).length =
            rest.length + 1 - (decodeRune (b :: rest)).2 := by
          simp only [List.length_drop, List.length_cons]
        simp only [wordsLoop, hpi]
        obtain ⟨st', h1, h2, h3, h4⟩ := ih fuel (Nat.lt_succ_self _)
          ((b :: rest).drop (decodeRune (b :: rest)).2) (i + (decodeRune (b :: rest)).2)
          ((if p = 1 ∧ st.2.length > 0 then (st.1 ++ [st.2], []) else st).1,
            (if p = 1 ∧ st.2.length > 0 then (st.1 ++ [st.2], []) else st).2 ++
              encodeRune (decodeRune (b :: rest)).1)
          (by omega) (by omega)
        refine ⟨st', h1, ?_, ?_, ?_⟩
        · rw [h2, reencode_cons]
          split_ifs <;> simp [List.flatten_append]
        · intro hne
          apply h3
          split_ifs with hc
          · simp only [List.mem_append, List.mem_singleton, not_or]
            refine ⟨hne, ?_⟩
            intro h
            rw [← h] at hc
            simp at hc
          · exact hne
        · intro _
          apply h4
          left
          simp [encodeRune_ne_nil]

/-- Function `decodeToWords` returns, for a tag sequence with a tag for every
byte offset of the text, words none of which is empty and whose
concatenation is the text with every rune written back. -/
theorem decodeToWords_flatten (text preds : List Nat) (h : text.length ≤ preds.length) :
    ∃ ws, decodeToWords text preds = some ws ∧ ws.flatten = reencode text ∧
      [] ∉ ws ∧ (text ≠ [] → ws ≠ []) := by
  obtain ⟨st, h1, h2, h3, h4⟩ :=
    wordsLoop_flatten preds text.length text 0 ([], []) (Nat.le_refl _) (by omega)
  simp only [List.flatten_nil, List.append_nil, List.nil_append] at h2
  refine ⟨if st.2.length > 0 then st.1 ++ [st.2] else st.1, by simp only [decodeToWords, h1],
    ?_, ?_, ?_⟩
  · split_ifs with hc
    · simp only [List.flatten_append, List.flatten_cons, List.flatten_nil, List.append_nil]
      exact h2
    · have : st.2 = [] := by
        rcases hs : st.2 with _ | ⟨x, xs⟩
        · rfl
        · rw [hs] at hc; simp at hc
      rw [this, List.append_nil] at h2
      exact h2
  · have h3' := h3 (by simp)
    split_ifs with hc
    · simp only [List.mem_append, List.mem_singleton, not_or]
      refine ⟨h3', ?_⟩
      intro h
      rw [← h] at hc
      simp at hc
    · exact h3'
  · intro hne
    have := h4 (Or.inr hne)
    have hpos : st.2.length > 0 := List.length_pos.mpr this
    rw [if_pos hpos]
    simp

theorem encodeRune_decodeRune (b : Nat) (rest : List Nat)
    (h : ¬ ((decodeRune (b :: rest)).1 = runeError ∧ (decodeRune (b :: rest)).2 = 1)) :
    encodeRune (decodeRune (b :: rest)).1 = (b :: rest).take (decodeRune (b :: rest)).2 := by
  simp only [decodeRune] at h ⊢
  split_ifs at h ⊢ with h1 h2 h3 h4
  · simp only [encodeRune]
    rw [if_pos (by omega)]
    simp
  · rcases rest with _ | ⟨b1, r1⟩
    · simp at h
    · simp only [isCont, Bool.and_eq_true, decide_eq_true_eq] at h ⊢
      split_ifs at h ⊢ with hc
      · simp only [encodeRune, List.take_succ_cons, List.take_zero]
        rw [if_neg (by omega), if_pos (by omega)]
        simp only [List.cons.injEq, and_true]
        omega
      · simp at h
  · rcases rest with _ | ⟨b1, _ | ⟨b2, r2⟩⟩
    · simp at h
    · simp at h
    · simp only [isCont, secondLo, secondHi, Bool.and_eq_true, decide_eq_true_eq] at h ⊢
      split_ifs at h ⊢ <;>
        first
        | (exfalso; simp at h; done)
        | (simp only [encodeRune, List.take_succ_cons, List.take_zero]
           rw [if_neg (by omega), if_neg (by omega), if_neg (by omega), if_pos (by omega)]
           simp only [List.cons.injEq, and_true]
           omega)
  · rcases rest with _ | ⟨b1, _ | ⟨b2, _ | ⟨b3, r3⟩⟩⟩
    · simp at h
    · simp at h
    · simp at h
    · simp only [isCont, secondLo, secondHi, Bool.and_eq_true, decide_eq_true_eq] at h ⊢
      split_ifs at h ⊢ <;>
        first
        | (exfalso; simp at h; done)
        | (simp only [encodeRune, List.take_succ_cons, List.take_zero]
           rw [if_neg (by omega), if_neg (by omega), if_neg (by omega), if_neg (by omega)]
           simp only [List.cons.injEq, and_true]
           omega)
  · simp at h

/-- Writing back the runes of a valid UTF-8 string gives the string. -/
theorem reencode_of_valid (fuel : Nat) : ∀ (s : List Nat), s.length ≤ fuel →
    validLoop fuel s = true → reencode s = s := by
  induction fuel using Nat.strong_induction_on with
  | _ fuel ih =>
    intro s hs hv
    rcases s with _ | ⟨b, rest⟩
    · rfl
    · rcases fuel with _ | fuel
      · simp at hs
      · have hw := decodeRune_width b rest
        simp only [List.length_cons] at hs
        simp only [validLoop, Bool.and_eq_true, Bool.not_eq_true', Bool.and_eq_false_iff,
          beq_eq_false_iff_ne, ne_eq] at hv
        have hne : ¬ ((decodeRune (b :: rest)).1 = runeError ∧ (decodeRune (b :: rest)).2 = 1) := by
          intro hc
          rcases hv.1 with h | h
          · exact h hc.1
          · exact h hc.2
        rw [reencode_cons, encodeRune_decodeRune b rest hne,
          ih fuel (Nat.lt_succ_self _) _ (by simp only [List.length_drop, List.length_cons]; omega) hv.2]
        exact List.take_append_drop _ _

theorem reencode_of_validUTF8 (s : List Nat) (h : validUTF8 s = true) : reencode s = s :=
  reencode_of_valid s.length s (Nat.le_refl _) h

theorem validLoop_ascii (fuel : Nat) : ∀ (s : List Nat), s.length ≤ fuel →
    (∀ b ∈ s, b < 128) → validLoop fuel s = true := by
  induction fuel with
  | zero =>
    intro s hs _
    rcases s with _ | ⟨b, rest⟩
    · rfl
    · simp at hs
  | succ fuel ih =>
    intro s hs hb
    rcases s with _ | ⟨b, rest⟩
    · rfl
    · have hb0 : b < 128 := hb b (List.mem_cons_self _ _)
      have hd : decodeRune (b :: rest) = (b, 1) := by
        simp only [decodeRune]
        rw [if_pos hb0]
      simp only [validLoop, hd, List.drop_succ_cons, List.drop_zero, Bool.and_eq_true,
        Bool.not_eq_true', Bool.and_eq_false_iff, beq_eq_false_iff_ne, ne_eq]
      refine ⟨Or.inl (by simp only [runeError]; omega), ?_⟩
      exact ih rest (by simp only [List.length_cons] at hs; omega)
        (fun x hx => hb x (List.mem_cons_of_mem _ hx))

/-- An ASCII string is valid UTF-8. -/
theorem validUTF8_ascii (s : List Nat) (h : ∀ b ∈ s, b < 128) : validUTF8 s = true :=
  validLoop_ascii s.length s (Nat.le_refl _) h
/-! ## The decoder returns a path -/

theorem range_numTags : List.range numTags = [0, 1] := rfl

theorem collect_congr {β : Type} (f g : Nat → Option β) (l : List Nat)
    (h : ∀ i ∈ l, f i = g i) : collect f l = collect g l := by
  induction l with
  | nil => rfl
  | cons i is ih =>
    simp only [collect]
    rw [h i (List.mem_cons_self _ _), ih (fun k hk => h k (List.mem_cons_of_mem _ hk))]

theorem collect_some {β : Type} (f : Nat → Option β) (l : List Nat)
    (h : ∀ i ∈ l, ∃ x, f i = some x) :
    ∃ xs, collect f l = some xs ∧ xs.length = l.length ∧ xs.map some = l.map f := by
  induction l with
  | nil => exact ⟨[], rfl, rfl, rfl⟩
  | cons i is ih =>
    obtain ⟨x, hx⟩ := h i (List.mem_cons_self _ _)
    obtain ⟨xs, hxs, hlen, hget⟩ := ih (fun k hk => h k (List.mem_cons_of_mem _ hk))
    exact ⟨x :: xs, by simp only [collect, hx, hxs], by simp [hlen], by simp [hx, hget]⟩

theorem collect_getElem? {β : Type} (f : Nat → Option β) (n : Nat) (xs : List β)
    (h : collect f (List.range n) = some xs) (b : Nat) (hb : b < n) :
    ∃ x, xs[b]? = some x ∧ f b = some x := by
  have hall : ∀ i ∈ List.range n, ∃ x, f i = some x := by
    intro i hi
    by_contra hc
    have hnone : f i = none := by
      cases hf : f i with
      | none => rfl
      | some x => exact absurd ⟨x, hf⟩ hc
    have : ∀ l : List Nat, i ∈ l → collect f l = none := by
      intro l
      induction l with
      | nil => intro h; simp at h
      | cons j js ih =>
        intro hmem
        simp only [collect]
        by_cases hij : j = i
        · rw [hij, hnone]
        · have := ih (by simpa [Ne.symm hij] using hmem)
          rw [this]
          cases f j <;> rfl
    rw [this _ hi] at h
    exact Option.noConfusion h
  obtain ⟨ys, h1, h2, h3⟩ := collect_some f _ hall
  rw [h] at h1
  cases Option.some.inj h1
  have hb2 : b < xs.length := by rw [h2, List.length_range]; exact hb
  have h4 : (xs.map some)[b]? = ((List.range n).map f)[b]? := by rw [h3]
  rw [List.getElem?_map, List.getElem?_map, List.getElem?_eq_getElem hb2,
    List.getElem?_range hb] at h4
  simp only [Option.map_some'] at h4
  exact ⟨xs[b], List.getElem?_eq_getElem hb2, (Option.some.inj h4).symm⟩

theorem keepBest_snd {α : Type} (F : Float32Ops α) (st : α × Nat) (sc : α) (i : Nat) :
    (keepBest F st sc i).2 = i ∨ (keepBest F st sc i).2 = st.2 := by
  unfold keepBest
  split_ifs
  · exact Or.inl rfl
  · exact Or.inr rfl

theorem keepBest_two_lt {α : Type} (F : Float32Ops α) (x sc0 sc1 : α) :
    (keepBest F (keepBest F (x, 0) sc0 0) sc1 1).2 < 2 := by
  rcases keepBest_snd F (keepBest F (x, 0) sc0 0) sc1 1 with h | h
  · rw [h]; omega
  · rw [h]
    rcases keepBest_snd F (x, 0) sc0 0 with h' | h'
    · rw [h']; omega
    · rw [h']; simp

/-- Lines 263-273 in closed form, for a score vector of two entries. -/
theorem stepTag_eq {α : Type} (F : Float32Ops α) (s : Splitter α) (a0 a1 p0 p1 e : α)
    (emissions : List α) (emitOffset j : Nat)
    (h0 : s.transitions[0 * numTags + j]? = some p0)
    (h1 : s.transitions[1 * numTags + j]? = some p1)
    (he : emissions[emitOffset + j]? = some e) :
    stepTag F s [a0, a1] emissions emitOffset j =
      some (keepBest F (keepBest F (F.negMaxFloat32, 0) (F.add (F.add a0 p0) e) 0)
        (F.add (F.add a1 p1) e) 1) := by
  simp only [stepTag, range_numTags, iterate, tagStep, h0, h1, he, List.getElem?_cons_zero,
    List.getElem?_cons_succ]

theorem transitions_get {α : Type} (s : Splitter α) (hs : s.WellSized) (i j : Nat)
    (hi : i < 2) (hj : j < 2) : ∃ p, s.transitions[i * numTags + j]? = some p := by
  have hlen : i * numTags + j < s.transitions.length := by
    rw [hs.1]; simp only [numTags]; omega
  exact ⟨_, List.getElem?_eq_getElem hlen⟩

theorem stepTag_some {α : Type} (F : Float32Ops α) (s : Splitter α) (hs : s.WellSized)
    (score emissions : List α) (emitOffset j : Nat) (hsc : score.length = 2) (hj : j < 2)
    (he : emitOffset + j < emissions.length) :
    ∃ m idx, stepTag F s score emissions emitOffset j = some (m, idx) ∧ idx < 2 := by
  obtain ⟨a0, a1, rfl⟩ := List.length_eq_two.mp hsc
  obtain ⟨p0, h0⟩ := transitions_get s hs 0 j (by omega) hj
  obtain ⟨p1, h1⟩ := transitions_get s hs 1 j (by omega) hj
  rw [stepTag_eq F s a0 a1 p0 p1 _ emissions emitOffset j h0 h1 (List.getElem?_eq_getElem he)]
  exact ⟨_, _, rfl, keepBest_two_lt F _ _ _⟩

theorem stepPos_some {α : Type} (F : Float32Ops α) (s : Splitter α) (hs : s.WellSized)
    (score emissions : List α) (emitOffset : Nat) (hsc : score.length = 2)
    (he : emitOffset + 2 ≤ emissions.length) :
    ∃ newScore row, stepPos F s score emissions emitOffset = some (newScore, row) ∧
      newScore.length = 2 ∧ row.length = 2 ∧ ∀ x ∈ row, x < 2 := by
  obtain ⟨m0, i0, h0, hi0⟩ := stepTag_some F s hs score emissions emitOffset 0 hsc (by omega) (by omega)
  obtain ⟨m1, i1, h1, hi1⟩ := stepTag_some F s hs score emissions emitOffset 1 hsc (by omega) (by omega)
  refine ⟨[m0, m1], [i0, i1], ?_, rfl, rfl, ?_⟩
  · simp only [stepPos, range_numTags, collect, h0, h1, List.map_cons, List.map_nil]
  · intro x hx
    simp only [List.mem_cons, List.mem_singleton, List.not_mem_nil, or_false] at hx
    rcases hx with rfl | rfl <;> assumption

theorem initScore_some {α : Type} (F : Float32Ops α) (s : Splitter α) (hs : s.WellSized)
    (emissions : List α) (offset : Nat) (he : offset + 2 ≤ emissions.length) :
    ∃ score, initScore F s emissions offset = some score ∧ score.length = 2 := by
  obtain ⟨a0, a1, hst⟩ := List.length_eq_two.mp hs.2.1
  obtain ⟨x0, e0⟩ : ∃ x, emissions[offset + 0]? = some x :=
    ⟨_, List.getElem?_eq_getElem (by omega)⟩
  obtain ⟨x1, e1⟩ : ∃ x, emissions[offset + 1]? = some x :=
    ⟨_, List.getElem?_eq_getElem (by omega)⟩
  refine ⟨[F.add a0 x0, F.add a1 x1], ?_, rfl⟩
  simp only [initScore, range_numTags, collect, hst, e0, e1, List.getElem?_cons_zero,
    List.getElem?_cons_succ]

theorem forward_some {α : Type} (F : Float32Ops α) (s : Splitter α) (hs : s.WellSized)
    (emissions : List α) (offset : Nat) :
    ∀ n, offset + (n + 1) * 2 ≤ emissions.length →
      ∃ st, forward F s emissions offset n = some st ∧ GoodState n st := by
  intro n
  induction n with
  | zero =>
    intro he
    obtain ⟨score, h1, h2⟩ := initScore_some F s hs emissions offset (by omega)
    exact ⟨(score, []), by simp only [forward, h1], h2, rfl, by simp⟩
  | succ n ih =>
    intro he
    obtain ⟨⟨score, history⟩, h1, h2, h3, h4⟩ := ih (by omega)
    obtain ⟨newScore, row, h5, h6, h7, h8⟩ :=
      stepPos_some F s hs score emissions (offset + (n + 1) * numTags) h2
        (by simp only [numTags]; omega)
    refine ⟨(newScore, history ++ [row]), by simp only [forward, h1, h5], h6, ?_, ?_⟩
    · simp only [List.length_append, List.length_singleton]
      simp only at h3
      omega
    · intro r hr
      simp only [List.mem_append, List.mem_singleton] at hr
      rcases hr with hr | rfl
      · exact h4 r hr
      · exact ⟨h7, h8⟩

theorem bestLast_some {α : Type} (F : Float32Ops α) (s : Splitter α) (hs : s.WellSized)
    (score : List α) (hsc : score.length = 2) :
    ∃ last, bestLast F s score = some last ∧ last < 2 := by
  obtain ⟨a0, a1, rfl⟩ := List.length_eq_two.mp hsc
  obtain ⟨e0, e1, hen⟩ := List.length_eq_two.mp hs.2.2
  refine ⟨(keepBest F (keepBest F (F.negMaxFloat32, 0) (F.add a0 e0) 0) (F.add a1 e1) 1).2,
    by simp only [bestLast, range_numTags, iterate, lastStep, hen,
      List.getElem?_cons_zero, List.getElem?_cons_succ], keepBest_two_lt F _ _ _⟩

theorem backtraceRev_some : ∀ (rows : List (List Nat)) (last : Nat),
    (∀ row ∈ rows, row.length = 2 ∧ ∀ x ∈ row, x < 2) → last < 2 →
    ∃ path, backtraceRev rows last = some path ∧ path.length = rows.length + 1 ∧
      ∀ x ∈ path, x < 2 := by
  intro rows
  induction rows with
  | nil =>
    intro last _ hl
    exact ⟨[last], rfl, rfl, by simp [hl]⟩
  | cons row earlier ih =>
    intro last hrows hl
    have hrow := hrows row (List.mem_cons_self _ _)
    have hlt : last < row.length := by rw [hrow.1]; exact hl
    have hprev : row[last] < 2 := hrow.2 _ (List.getElem_mem _)
    obtain ⟨path, h1, h2, h3⟩ := ih row[last]
      (fun r hr => hrows r (List.mem_cons_of_mem _ hr)) hprev
    refine ⟨path ++ [last], by simp only [backtraceRev, List.getElem?_eq_getElem hlt, h1],
      by simp [h2], ?_⟩
    intro x hx
    simp only [List.mem_append, List.mem_singleton] at hx
    rcases hx with hx | rfl
    · exact h3 x hx
    · exact hl

/-- With tables of the right sizes and the emissions of the whole sequence
in the buffer, the body of the decoder returns a path: one tag, 0 or 1, for
each position. -/
theorem crfDecodeOne_some {α : Type} (F : Float32Ops α) (s : Splitter α) (hs : s.WellSized)
    (emissions : List α) (offset seqLen : Nat) (hL : 1 ≤ seqLen)
    (he : offset + seqLen * 2 ≤ emissions.length) :
    ∃ path, crfDecodeOne F s emissions offset seqLen = some path ∧ path.length = seqLen ∧
      ∀ x ∈ path, x < 2 := by
  obtain ⟨⟨score, history⟩, h1, h2, h3, h4⟩ :=
    forward_some F s hs emissions offset (seqLen - 1)
      (by rw [Nat.sub_add_cancel hL]; exact he)
  obtain ⟨last, h5, h6⟩ := bestLast_some F s hs score h2
  obtain ⟨path, h7, h8, h9⟩ := backtraceRev_some history.reverse last
    (fun r hr => h4 r (List.mem_reverse.mp hr)) h6
  refine ⟨path, ?_, ?_, h9⟩
  · simp only [crfDecodeOne, h1, h5, backtrace, h7]
    rw [if_neg (by omega)]
  · rw [h8, List.length_reverse]
    simp only at h3
    omega

/-- Method `crfDecodeBatch` returns one path per sequence, each the result of
the loop body at the offset of that sequence. -/
theorem crfDecodeBatch_some {α : Type} (F : Float32Ops α) (s : Splitter α) (hs : s.WellSized)
    (emissions : List α) (batchSize seqLen : Nat) (hL : 1 ≤ seqLen)
    (he : batchSize * seqLen * 2 ≤ emissions.length) :
    ∃ preds, crfDecodeBatch F s emissions batchSize seqLen = some preds ∧
      preds.length = batchSize ∧
      ∀ b, b < batchSize → ∃ path, preds[b]? = some path ∧
        crfDecodeOne F s emissions (b * seqLen * numTags) seqLen = some path ∧
        path.length = seqLen ∧ ∀ x ∈ path, x < 2 := by
  have hall : ∀ b ∈ List.range batchSize,
      ∃ path, crfDecodeOne F s emissions (b * seqLen * numTags) seqLen = some path := by
    intro b hb
    have hb' : b < batchSize := List.mem_range.mp hb
    have : b * seqLen * numTags + seqLen * 2 ≤ emissions.length := by
      have h1 : (b + 1) * seqLen * 2 ≤ batchSize * seqLen * 2 :=
        Nat.mul_le_mul_right 2 (Nat.mul_le_mul_right seqLen hb')
      simp only [numTags]
      have h2 : (b + 1) * seqLen * 2 = b * seqLen * 2 + seqLen * 2 := by ring
      omega
    obtain ⟨path, hp, -⟩ := crfDecodeOne_some F s hs emissions _ seqLen hL this
    exact ⟨path, hp⟩
  obtain ⟨preds, h1, h2, -⟩ := collect_some _ _ hall
  refine ⟨preds, h1, by rw [h2, List.length_range], ?_⟩
  intro b hb
  obtain ⟨path, hp1, hp2⟩ := collect_getElem? _ _ _ h1 b hb
  have : b * seqLen * numTags + seqLen * 2 ≤ emissions.length := by
    have h1 : (b + 1) * seqLen * 2 ≤ batchSize * seqLen * 2 :=
      Nat.mul_le_mul_right 2 (Nat.mul_le_mul_right seqLen hb)
    simp only [numTags]
    have h2 : (b + 1) * seqLen * 2 = b * seqLen * 2 + seqLen * 2 := by ring
    omega
  obtain ⟨path', hp, hl, hx⟩ := crfDecodeOne_some F s hs emissions _ seqLen hL this
  rw [hp] at hp2
  cases Option.some.inj hp2
  exact ⟨_, hp1, hp, hl, hx⟩

/-! ### The decoder reads only the emissions of its own sequence -/

theorem stepTag_congr {α : Type} (F : Float32Ops α) (s : Splitter α) (score em1 em2 : List α)
    (o1 o2 j : Nat) (h : em1[o1 + j]? = em2[o2 + j]?) :
    stepTag F s score em1 o1 j = stepTag F s score em2 o2 j := by
  have : tagStep F s score em1 o1 j = tagStep F s score em2 o2 j := by
    funext st i
    simp only [tagStep, h]
  simp only [stepTag, this]

theorem stepPos_congr {α : Type} (F : Float32Ops α) (s : Splitter α) (score em1 em2 : List α)
    (o1 o2 : Nat) (h : ∀ j, j < 2 → em1[o1 + j]? = em2[o2 + j]?) :
    stepPos F s score em1 o1 = stepPos F s score em2 o2 := by
  simp only [stepPos]
  rw [collect_congr (stepTag F s score em1 o1) (stepTag F s score em2 o2)]
  intro j hj
  rw [range_numTags] at hj
  simp only [List.mem_cons, List.mem_singleton, List.not_mem_nil, or_false] at hj
  exact stepTag_congr F s score em1 em2 o1 o2 j (h j (by omega))

theorem initScore_congr {α : Type} (F : Float32Ops α) (s : Splitter α) (em1 em2 : List α)
    (o1 o2 : Nat) (h : ∀ j, j < 2 → em1[o1 + j]? = em2[o2 + j]?) :
    initScore F s em1 o1 = initScore F s em2 o2 := by
  simp only [initScore]
  apply collect_congr
  intro j hj
  rw [range_numTags] at hj
  simp only [List.mem_cons, List.mem_singleton, List.not_mem_nil, or_false] at hj
  simp only [h j (by omega)]

theorem forward_congr {α : Type} (F : Float32Ops α) (s : Splitter α) (em1 em2 : List α)
    (o1 o2 : Nat) : ∀ n, (∀ k, k < (n + 1) * 2 → em1[o1 + k]? = em2[o2 + k]?) →
      forward F s em1 o1 n = forward F s em2 o2 n := by
  intro n
  induction n with
  | zero =>
    intro h
    simp only [forward]
    rw [initScore_congr F s em1 em2 o1 o2 (fun j hj => h j (by omega))]
  | succ n ih =>
    intro h
    simp only [forward]
    rw [ih (fun k hk => h k (by omega))]
    cases forward F s em2 o2 n with
    | none => rfl
    | some st =>
      obtain ⟨score, history⟩ := st
      simp only
      rw [stepPos_congr F s score em1 em2 (o1 + (n + 1) * numTags) (o2 + (n + 1) * numTags)]
      intro j hj
      have := h ((n + 1) * numTags + j) (by simp only [numTags]; omega)
      rw [← Nat.add_assoc, ← Nat.add_assoc] at this
      exact this

/-- The path of a sequence depends only on the `seqLen * numTags` emissions
that start at its offset. -/
theorem crfDecodeOne_congr {α : Type} (F : Float32Ops α) (s : Splitter α) (em1 em2 : List α)
    (o1 o2 seqLen : Nat) (h : ∀ k, k < seqLen * 2 → em1[o1 + k]? = em2[o2 + k]?) :
    crfDecodeOne F s em1 o1 seqLen = crfDecodeOne F s em2 o2 seqLen := by
  simp only [crfDecodeOne]
  by_cases hL : seqLen = 0
  · rw [if_pos hL, if_pos hL]
  · rw [if_neg hL, if_neg hL,
      forward_congr F s em1 em2 o1 o2 (seqLen - 1) (fun k hk => h k (by
        have : seqLen - 1 + 1 = seqLen := by omega
        rw [this] at hk
        exact hk))]

theorem runInference_eq {α : Type} (s : Splitter α) (charIds : List Nat) (b l : Nat)
    (out : Nat → α) (h : s.session charIds b l = some out) :
    runInference s charIds b l = some ((List.range (b * l * numTags)).map out) := by
  simp only [runInference, h]

theorem runInference_none {α : Type} (s : Splitter α) (charIds : List Nat) (b l : Nat)
    (h : s.session charIds b l = none) : runInference s charIds b l = none := by
  simp only [runInference, h]

theorem map_range_getElem? {α : Type} (out : Nat → α) (n k : Nat) (h : k < n) :
    ((List.range n).map out)[k]? = some (out k) := by
  rw [List.getElem?_map, List.getElem?_range h]
  rfl

/-! ### The length of a path -/

theorem forward_history_length {α : Type} (F : Float32Ops α) (s : Splitter α)
    (emissions : List α) (offset : Nat) :
    ∀ n score history, forward F s emissions offset n = some (score, history) →
      history.length = n := by
  intro n
  induction n with
  | zero =>
    intro score history h
    simp only [forward] at h
    cases hi : initScore F s emissions offset with
    | none => rw [hi] at h; exact Option.noConfusion h
    | some sc =>
      rw [hi] at h
      simp only [Option.some.injEq, Prod.mk.injEq] at h
      rw [← h.2]
      rfl
  | succ n ih =>
    intro score history h
    simp only [forward] at h
    cases hf : forward F s emissions offset n with
    | none => rw [hf] at h; exact Option.noConfusion h
    | some st =>
      obtain ⟨sc, hist⟩ := st
      rw [hf] at h
      simp only at h
      cases hp : stepPos F s sc emissions (offset + (n + 1) * numTags) with
      | none => rw [hp] at h; exact Option.noConfusion h
      | some nr =>
        obtain ⟨ns, row⟩ := nr
        rw [hp] at h
        simp only [Option.some.injEq, Prod.mk.injEq] at h
        rw [← h.2, List.length_append, ih sc hist hf]
        rfl

theorem backtraceRev_length : ∀ (rows : List (List Nat)) (last : Nat) (path : List Nat),
    backtraceRev rows last = some path → path.length = rows.length + 1 := by
  intro rows
  induction rows with
  | nil =>
    intro last path h
    simp only [backtraceRev, Option.some.injEq] at h
    rw [← h]
    rfl
  | cons row earlier ih =>
    intro last path h
    simp only [backtraceRev] at h
    cases hr : row[last]? with
    | none => rw [hr] at h; exact Option.noConfusion h
    | some prev =>
      rw [hr] at h
      simp only at h
      cases hb : backtraceRev earlier prev with
      | none => rw [hb] at h; exact Option.noConfusion h
      | some p =>
        rw [hb] at h
        simp only [Option.some.injEq] at h
        rw [← h, List.length_append, ih prev p hb]
        rfl

/-- A path the decoder returns has one tag per position, whatever the sizes
of the tables. -/
theorem crfDecodeOne_length {α : Type} (F : Float32Ops α) (s : Splitter α)
    (emissions : List α) (offset seqLen : Nat) (path : List Nat)
    (h : crfDecodeOne F s emissions offset seqLen = some path) : path.length = seqLen := by
  simp only [crfDecodeOne] at h
  by_cases hL : seqLen = 0
  · rw [if_pos hL] at h
    exact Option.noConfusion h
  · rw [if_neg hL] at h
    cases hf : forward F s emissions offset (seqLen - 1) with
    | none => rw [hf] at h; exact Option.noConfusion h
    | some st =>
      obtain ⟨sc, hist⟩ := st
      rw [hf] at h
      simp only at h
      cases hb : bestLast F s sc with
      | none => rw [hb] at h; exact Option.noConfusion h
      | some last =>
        rw [hb] at h
        simp only [backtrace] at h
        rw [backtraceRev_length _ _ _ h, List.length_reverse,
          forward_history_length F s emissions offset _ sc hist hf]
        omega
/-! ## Normalisation and Split -/

theorem ToLower_nil (caseTable : Nat → Nat) : ToLower caseTable [] = [] := rfl

theorem normalize_nil (caseTable : Nat → Nat) : normalize caseTable [] = [] := rfl

theorem ToLower_ne_nil (caseTable : Nat → Nat) (text : List Nat) (h : text ≠ []) :
    ToLower caseTable text ≠ [] := by
  rcases text with _ | ⟨b, rest⟩
  · exact absurd rfl h
  · unfold ToLower
    split_ifs
    · simp
    · simp only [stringsMap, runes_cons, List.flatMap_cons]
      intro hc
      exact encodeRune_ne_nil _ (List.append_eq_nil.mp hc).1

theorem normalize_ne_nil (caseTable : Nat → Nat) (text : List Nat) (h : text ≠ []) :
    normalize caseTable text ≠ [] := by
  have h1 := ToLower_ne_nil caseTable text h
  simp only [normalize]
  split_ifs with hc
  · intro h2
    have := congrArg List.length h2
    simp only [List.length_take, List.length_nil, maxLen] at this hc
    omega
  · exact h1

theorem normalize_length_le (caseTable : Nat → Nat) (text : List Nat) :
    (normalize caseTable text).length ≤ maxLen := by
  simp only [normalize]
  split_ifs with hc
  · simp only [List.length_take]
    omega
  · omega

theorem normalize_length_pos (caseTable : Nat → Nat) (text : List Nat) (h : text ≠ []) :
    1 ≤ (normalize caseTable text).length :=
  List.length_pos.mpr (normalize_ne_nil caseTable text h)

/-- The single-row decode of a non-empty text returns words when the tables
are well sized and the provider call succeeds. -/
theorem decodeSingle_some {α : Type} (F : Float32Ops α) (s : Splitter α) (hs : s.WellSized)
    (t : List Nat) (ht : t ≠ []) (out : Nat → α)
    (hrun : s.session (textToIds t) 1 t.length = some out) :
    ∃ path ws, crfDecodeOne F s ((List.range (1 * t.length * numTags)).map out) 0 t.length
        = some path ∧ path.length = t.length ∧ (∀ x ∈ path, x < 2) ∧
      decodeToWords t path = some ws ∧ decodeSingle F s t = some ws ∧
      ws.flatten = reencode t ∧ [] ∉ ws ∧ ws ≠ [] := by
  have hL : 1 ≤ t.length := List.length_pos.mpr ht
  obtain ⟨path, h1, h2, h3⟩ := crfDecodeOne_some F s hs
    ((List.range (1 * t.length * numTags)).map out) 0 t.length hL
    (by simp [numTags])
  obtain ⟨ws, h4, h5, h6, h7⟩ := decodeToWords_flatten t path (by omega)
  refine ⟨path, ws, h1, h2, h3, h4, ?_, h5, h6, h7 ht⟩
  simp only [decodeSingle, runInference_eq s _ 1 _ out hrun, h1, h4]

/-- Method `Split` on a non-empty text, tables well sized, provider call
successful: the two calls made and the words returned. -/
theorem Split_ok {α : Type} (F : Float32Ops α) (caseTable : Nat → Nat) (s : Splitter α)
    (hs : s.WellSized) (text : List Nat) (ht : text ≠ []) (out : Nat → α)
    (hrun : s.session (textToIds (normalize caseTable text)) 1
      (normalize caseTable text).length = some out) :
    ∃ ws, Split F caseTable s text =
        ([Event.infer [0] (textToIds (normalize caseTable text)) 1
            (normalize caseTable text).length,
          Event.decode ((List.range (1 * (normalize caseTable text).length * numTags)).map out)
            1 (normalize caseTable text).length], .ok ws) ∧
      decodeSingle F s (normalize caseTable text) = some ws ∧
      ws.flatten = reencode (normalize caseTable text) ∧ [] ∉ ws ∧ ws ≠ [] := by
  have hn := normalize_ne_nil caseTable text ht
  obtain ⟨path, ws, h1, h2, h3, h4, h5, h6, h7, h8⟩ :=
    decodeSingle_some F s hs (normalize caseTable text) hn out hrun
  have hL : 1 ≤ (normalize caseTable text).length := List.length_pos.mpr hn
  obtain ⟨preds, h9, h10, h11⟩ := crfDecodeBatch_some F s hs
    ((List.range (1 * (normalize caseTable text).length * numTags)).map out) 1
    (normalize caseTable text).length hL (by simp [numTags])
  obtain ⟨path', h12, h13, -⟩ := h11 0 (by omega)
  rw [Nat.zero_mul, Nat.zero_mul, h1] at h13
  cases Option.some.inj h13
  refine ⟨ws, ?_, h5, h6, h7, h8⟩
  have hlen : ¬ text.length = 0 := by
    intro hc
    exact ht (List.length_eq_zero.mp hc)
  simp only [Split, if_neg hlen, runInference_eq s _ 1 _ out hrun, h9, h12, h4]

/-- Method `Split` when the provider call fails: the one call made, and the
error. -/
theorem Split_error {α : Type} (F : Float32Ops α) (caseTable : Nat → Nat) (s : Splitter α)
    (text : List Nat) (ht : text ≠ [])
    (hrun : s.session (textToIds (normalize caseTable text)) 1
      (normalize caseTable text).length = none) :
    Split F caseTable s text =
      ([Event.infer [0] (textToIds (normalize caseTable text)) 1
          (normalize caseTable text).length], .error .inference) := by
  have hlen : ¬ text.length = 0 := by
    intro hc
    exact ht (List.length_eq_zero.mp hc)
  simp only [Split, if_neg hlen, runInference_none s _ 1 _ hrun]

theorem Split_nil {α : Type} (F : Float32Ops α) (caseTable : Nat → Nat) (s : Splitter α) :
    Split F caseTable s [] = ([], .ok []) := rfl
/-! ## One chunk of SplitBatch -/

theorem copyAt_append (pre pad src : List Nat) (h : src.length ≤ pad.length) :
    copyAt (pre ++ pad) pre.length src = pre ++ src ++ pad.drop src.length := by
  simp only [copyAt, List.take_left', List.length_append, Nat.add_sub_cancel_left,
    List.take_of_length_le h, List.drop_append, List.append_assoc]

theorem fillCharIds_append (L : Nat) : ∀ (rest : List Item) (i : Nat) (pre pad : List Nat),
    (∀ it ∈ rest, it.text.length = L) → pre.length = i * L → pad.length = rest.length * L →
    fillCharIds L rest i (pre ++ pad) = pre ++ flatIds rest := by
  intro rest
  induction rest with
  | nil =>
    intro i pre pad _ _ hpad
    have : pad = [] := List.length_eq_zero.mp (by simpa using hpad)
    simp [fillCharIds, flatIds, this]
  | cons it rest ih =>
    intro i pre pad hall hpre hpad
    have hit : (textToIds it.text).length = L := by
      rw [textToIds_length]; exact hall it (List.mem_cons_self _ _)
    have hle : (textToIds it.text).length ≤ pad.length := by
      rw [hit, hpad, List.length_cons, Nat.add_mul]; omega
    simp only [fillCharIds]
    rw [← hpre, copyAt_append pre pad _ hle,
      ih (i + 1) (pre ++ textToIds it.text) (pad.drop (textToIds it.text).length)
        (fun x hx => hall x (List.mem_cons_of_mem _ hx))
        (by rw [List.length_append, hit, hpre, Nat.add_mul]; omega)
        (by rw [List.length_drop, hit, hpad, List.length_cons, Nat.add_mul]; omega)]
    simp [flatIds, List.append_assoc]

/-- The loop of lines 177-181 lays the ids of the chunk out row after row. -/
theorem fillCharIds_eq (L : Nat) (batch : List Item) (h : ∀ it ∈ batch, it.text.length = L) :
    fillCharIds L batch 0 (List.replicate (batch.length * L) 0) = flatIds batch := by
  have := fillCharIds_append L batch 0 [] (List.replicate (batch.length * L) 0) h
    (by simp) (by simp)
  simpa using this

theorem getElem?_of_drop_cons {β : Type} (batch : List β) (i : Nat) (x : β) (rest : List β)
    (h : batch.drop i = x :: rest) : batch[i]? = some x ∧ batch.drop (i + 1) = rest := by
  constructor
  · have : (batch.drop i)[0]? = some x := by rw [h]; simp
    rw [List.getElem?_drop] at this
    simpa using this
  · have : (batch.drop i).drop 1 = rest := by rw [h]; rfl
    rw [List.drop_drop] at this
    rw [← this]

/-- The loop of lines 190-192, when it ends without a panic, overwrites the
entries of the members it handles with their words and nothing else. -/
theorem writeResults_spec (batch : List Item) (preds : List (List Nat)) :
    ∀ (rest : List Item) (i : Nat) (R R' : Results), batch.drop i = rest →
      writeResults (batch.map Item.text) preds rest i R = some R' →
      R'.length = R.length ∧
      ∀ j, (j ∉ rest.map Item.index → R'[j]? = R[j]?) ∧
        (j ∈ rest.map Item.index → ∃ (k : Nat) (it : Item) (path : List Nat)
          (w : List (List Nat)), batch[k]? = some it ∧ it.index = j ∧
          preds[k]? = some path ∧ decodeToWords it.text path = some w ∧
          R'[j]? = some (some w)) := by
  intro rest
  induction rest with
  | nil =>
    intro i R R' _ h
    simp only [writeResults, Option.some.injEq] at h
    subst h
    exact ⟨rfl, fun j => ⟨fun _ => rfl, fun hj => by simp at hj⟩⟩
  | cons it rest ih =>
    intro i R R' hd h
    obtain ⟨hi, hd'⟩ := getElem?_of_drop_cons batch i it rest hd
    have hti : (batch.map Item.text)[i]? = some it.text := by
      rw [List.getElem?_map, hi]; rfl
    simp only [writeResults, hti] at h
    cases hp : preds[i]? with
    | none => simp only [hp] at h; exact Option.noConfusion h
    | some path =>
      simp only [hp] at h
      cases hw : decodeToWords it.text path with
      | none => simp only [hw] at h; exact Option.noConfusion h
      | some w =>
        simp only [hw] at h
        by_cases hlt : it.index < R.length
        · rw [if_pos hlt] at h
          obtain ⟨h1, h2⟩ := ih (i + 1) (R.set it.index (some w)) R' hd' h
          refine ⟨by rw [h1, List.length_set], ?_⟩
          intro j
          constructor
          · intro hj
            simp only [List.map_cons, List.mem_cons, not_or] at hj
            rw [(h2 j).1 hj.2, List.getElem?_set, if_neg (Ne.symm hj.1)]
          · intro hj
            by_cases hjr : j ∈ rest.map Item.index
            · exact (h2 j).2 hjr
            · simp only [List.map_cons, List.mem_cons] at hj
              have hje : j = it.index := hj.resolve_right hjr
              refine ⟨i, it, path, w, hi, hje.symm, hp, hw, ?_⟩
              rw [(h2 j).1 hjr, hje, List.getElem?_set, if_pos rfl, if_pos hlt]
        · rw [if_neg hlt] at h
          exact Option.noConfusion h

/-- The loop of lines 190-192 ends without a panic when there is a path of
sufficient length for every member and every index is within `results`. -/
theorem writeResults_some (batch : List Item) (preds : List (List Nat)) :
    ∀ (rest : List Item) (i : Nat) (R : Results), batch.drop i = rest →
      (∀ (k : Nat) (it : Item), batch[k]? = some it → ∃ path, preds[k]? = some path ∧
        it.text.length ≤ path.length ∧ it.index < R.length) →
      ∃ R', writeResults (batch.map Item.text) preds rest i R = some R' := by
  intro rest
  induction rest with
  | nil =>
    intro i R _ _
    exact ⟨R, rfl⟩
  | cons it rest ih =>
    intro i R hd hall
    obtain ⟨hi, hd'⟩ := getElem?_of_drop_cons batch i it rest hd
    have hti : (batch.map Item.text)[i]? = some it.text := by
      rw [List.getElem?_map, hi]; rfl
    obtain ⟨path, hp, hlen, hidx⟩ := hall i it hi
    obtain ⟨w, hw, -⟩ := decodeToWords_flatten it.text path hlen
    obtain ⟨R', hR'⟩ := ih (i + 1) (R.set it.index (some w)) hd' (by
      intro k x hk
      obtain ⟨p, h1, h2, h3⟩ := hall k x hk
      exact ⟨p, h1, h2, by rw [List.length_set]; exact h3⟩)
    exact ⟨R', by simp only [writeResults, hti, hp, hw, if_pos hidx, hR']⟩

theorem Event.fails_infer_some {α : Type} (s : Splitter α) (rows ids : List Nat) (b l : Nat)
    (out : Nat → α) (h : s.session ids b l = some out) :
    (Event.infer rows ids b l : Event α).fails s = false := by
  simp only [Event.fails, h, Option.isNone_some]

theorem Event.fails_infer_none {α : Type} (s : Splitter α) (rows ids : List Nat) (b l : Nat)
    (h : s.session ids b l = none) :
    (Event.infer rows ids b l : Event α).fails s = true := by
  simp only [Event.fails, h, Option.isNone_none]

/-- One chunk: the calls it adds and the entries it writes. -/
theorem processChunk_handles {α : Type} (F : Float32Ops α) (s : Splitter α) (bs : Nat)
    (Q : Item → List (List Nat) → Prop) (good : Item → Prop) (hQ : ChunkSound F s Q good)
    (L : Nat) (batch : List Item) (st : List (Event α) × Results)
    (hL : 1 ≤ L) (hL64 : L ≤ maxLen) (hne : batch ≠ []) (hbs : batch.length ≤ bs)
    (hgood : ∀ it ∈ batch, good it ∧ it.text.length = L)
    (hidx : ∀ it ∈ batch, it.index < st.2.length) :
    Handles s bs Q batch st (processChunk F s L batch st) := by
  have hB : 1 ≤ batch.length := List.length_pos.mpr hne
  have hfill := fillCharIds_eq L batch (fun it hit => (hgood it hit).2)
  have hcall : ∀ e : Event α, e = Event.infer (batch.map Item.index) (flatIds batch) batch.length L
      ∨ (∃ em, e = Event.decode em batch.length L) → EvGood bs batch e := by
    intro e he
    rcases he with rfl | ⟨em, rfl⟩
    · exact ⟨hL, hL64, hB, hbs, fun j hj => hj⟩
    · exact ⟨hL, hL64, hB, hbs, fun j hj => by simp [Event.rows] at hj⟩
  simp only [processChunk, hfill]
  cases hrun : s.session (flatIds batch) batch.length L with
  | none =>
    rw [runInference_none s _ _ _ hrun]
    refine ⟨[_], rfl, ?_, Or.inr (Or.inl ⟨rfl, _, List.mem_singleton.mpr rfl,
      Event.fails_infer_none s _ _ _ _ hrun⟩)⟩
    intro e he
    exact hcall e (Or.inl (List.mem_singleton.mp he))
  | some out =>
    rw [runInference_eq s _ _ _ out hrun]
    dsimp only
    have hev : ∀ e ∈ [Event.infer (batch.map Item.index) (flatIds batch) batch.length L,
        Event.decode ((List.range (batch.length * L * numTags)).map out) batch.length L],
        EvGood bs batch e ∧ e.fails s = false := by
      intro e he
      simp only [List.mem_cons, List.mem_singleton, List.not_mem_nil, or_false] at he
      rcases he with rfl | rfl
      · exact ⟨hcall _ (Or.inl rfl), Event.fails_infer_some s _ _ _ _ out hrun⟩
      · exact ⟨hcall _ (Or.inr ⟨_, rfl⟩), rfl⟩
    have hwf : s.WellSized → ∃ preds,
        crfDecodeBatch F s ((List.range (batch.length * L * numTags)).map out) batch.length L
          = some preds ∧
        ∀ (k : Nat) (it : Item), batch[k]? = some it → ∃ path, preds[k]? = some path ∧
          it.text.length ≤ path.length ∧ it.index < st.2.length := by
      intro hs
      obtain ⟨preds, h1, -, h3⟩ := crfDecodeBatch_some F s hs
        ((List.range (batch.length * L * numTags)).map out) batch.length L hL
        (by simp [numTags])
      refine ⟨preds, h1, ?_⟩
      intro k it hk
      have hklt : k < batch.length := by
        by_contra hc
        rw [List.getElem?_eq_none (by omega)] at hk
        exact Option.noConfusion hk
      have hmem : it ∈ batch := List.getElem?_mem hk
      obtain ⟨path, hp, -, hl, -⟩ := h3 k hklt
      exact ⟨path, hp, by rw [hl, (hgood it hmem).2], hidx it hmem⟩
    cases hdec : crfDecodeBatch F s ((List.range (batch.length * L * numTags)).map out)
        batch.length L with
    | none =>
      refine ⟨_, rfl, fun e he => (hev e he).1, Or.inr (Or.inr ⟨rfl, ?_, fun e he => (hev e he).2⟩)⟩
      intro hs
      obtain ⟨preds, h1, -⟩ := hwf hs
      rw [hdec] at h1
      exact Option.noConfusion h1
    | some preds =>
      simp only
      cases hwr : writeResults (batch.map Item.text) preds batch 0 st.2 with
      | none =>
        refine ⟨_, rfl, fun e he => (hev e he).1,
          Or.inr (Or.inr ⟨rfl, ?_, fun e he => (hev e he).2⟩)⟩
        intro hs
        obtain ⟨preds', h1, h2⟩ := hwf hs
        rw [hdec] at h1
        cases Option.some.inj h1
        obtain ⟨R', hR'⟩ := writeResults_some batch preds batch 0 st.2 rfl h2
        rw [hwr] at hR'
        exact Option.noConfusion hR'
      | some R' =>
        refine ⟨_, rfl, fun e he => (hev e he).1,
          Or.inl ⟨R', rfl, fun e he => (hev e he).2, ?_⟩⟩
        obtain ⟨h1, h2⟩ := writeResults_spec batch preds batch 0 st.2 R' rfl hwr
        refine ⟨h1, fun j => ⟨(h2 j).1, ?_⟩⟩
        intro hj
        obtain ⟨k, it, path, w, hk, hidxj, hp, hw, hR⟩ := (h2 j).2 hj
        have hklt : k < batch.length := by
          by_contra hc
          rw [List.getElem?_eq_none (by omega)] at hk
          exact Option.noConfusion hk
        obtain ⟨path', hp1, hp2⟩ := collect_getElem? _ _ _ hdec k hklt
        rw [hp] at hp1
        cases Option.some.inj hp1
        exact ⟨it, w, List.getElem?_mem hk, hidxj, hR,
          hQ batch L out k it _ w hL hgood hrun hk hp2 hw⟩
/-! ## The loops of SplitBatch -/

theorem Written_refl (Q : Item → List (List Nat) → Prop) (R : Results) : Written Q [] R R :=
  ⟨rfl, fun j => ⟨fun _ => rfl, fun hj => by simp at hj⟩⟩

theorem Written_comp (Q : Item → List (List Nat) → Prop) (S1 S2 : List Item)
    (R R1 R2 : Results) (h1 : Written Q S1 R R1) (h2 : Written Q S2 R1 R2) :
    Written Q (S1 ++ S2) R R2 := by
  refine ⟨by rw [h2.1, h1.1], fun j => ⟨?_, ?_⟩⟩
  · intro hj
    simp only [List.map_append, List.mem_append, not_or] at hj
    rw [(h2.2 j).1 hj.2, (h1.2 j).1 hj.1]
  · intro hj
    by_cases hj2 : j ∈ S2.map Item.index
    · obtain ⟨it, w, hit, hi, hR, hq⟩ := (h2.2 j).2 hj2
      exact ⟨it, w, List.mem_append_right _ hit, hi, hR, hq⟩
    · simp only [List.map_append, List.mem_append] at hj
      obtain ⟨it, w, hit, hi, hR, hq⟩ := (h1.2 j).2 (hj.resolve_right hj2)
      exact ⟨it, w, List.mem_append_left _ hit, hi, by rw [(h2.2 j).1 hj2]; exact hR, hq⟩

theorem Written_of_mem_iff (Q : Item → List (List Nat) → Prop) (S S' : List Item)
    (R R' : Results) (hS : ∀ it, it ∈ S ↔ it ∈ S') (h : Written Q S R R') :
    Written Q S' R R' := by
  have hidx : ∀ j, j ∈ S.map Item.index ↔ j ∈ S'.map Item.index := by
    intro j
    simp only [List.mem_map]
    constructor
    · rintro ⟨it, h1, h2⟩; exact ⟨it, (hS it).mp h1, h2⟩
    · rintro ⟨it, h1, h2⟩; exact ⟨it, (hS it).mpr h1, h2⟩
  refine ⟨h.1, fun j => ⟨fun hj => (h.2 j).1 (fun hc => hj ((hidx j).mp hc)), ?_⟩⟩
  intro hj
  obtain ⟨it, w, hit, hi, hR, hq⟩ := (h.2 j).2 ((hidx j).mpr hj)
  exact ⟨it, w, (hS it).mp hit, hi, hR, hq⟩

theorem EvGood_mono {α : Type} (bs : Nat) (S S' : List Item) (e : Event α)
    (hS : ∀ it, it ∈ S → it ∈ S') (h : EvGood bs S e) : EvGood bs S' e := by
  obtain ⟨h1, h2, h3, h4, h5⟩ := h
  refine ⟨h1, h2, h3, h4, fun j hj => ?_⟩
  have := h5 j hj
  simp only [List.mem_map] at this ⊢
  obtain ⟨it, hit, hi⟩ := this
  exact ⟨it, hS it hit, hi⟩

theorem Handles_nil {α : Type} (s : Splitter α) (bs : Nat) (Q : Item → List (List Nat) → Prop)
    (st : List (Event α) × Results) : Handles s bs Q [] st (st.1, .ok st.2) :=
  ⟨[], by simp, fun e he => by simp at he,
    Or.inl ⟨st.2, rfl, fun e he => by simp at he, Written_refl Q st.2⟩⟩

theorem Handles_of_mem_iff {α : Type} (s : Splitter α) (bs : Nat)
    (Q : Item → List (List Nat) → Prop) (S S' : List Item) (st : List (Event α) × Results)
    (r : List (Event α) × Except Fault Results) (hS : ∀ it, it ∈ S ↔ it ∈ S')
    (h : Handles s bs Q S st r) : Handles s bs Q S' st r := by
  obtain ⟨new, h1, h2, h3⟩ := h
  refine ⟨new, h1, fun e he => EvGood_mono bs S S' e (fun it => (hS it).mp) (h2 e he), ?_⟩
  rcases h3 with ⟨R', h4, h5, h6⟩ | h3 | h3
  · exact Or.inl ⟨R', h4, h5, Written_of_mem_iff Q S S' _ _ hS h6⟩
  · exact Or.inr (Or.inl h3)
  · exact Or.inr (Or.inr h3)

/-- A part that stops with an error stops the whole. -/
theorem Handles_stop {α : Type} (s : Splitter α) (bs : Nat) (Q : Item → List (List Nat) → Prop)
    (S1 S2 : List Item) (st : List (Event α) × Results) (tr : List (Event α)) (e : Fault)
    (h : Handles s bs Q S1 st (tr, .error e)) : Handles s bs Q (S1 ++ S2) st (tr, .error e) := by
  obtain ⟨new, h1, h2, h3⟩ := h
  refine ⟨new, h1, fun x hx => EvGood_mono bs S1 _ x
    (fun it hit => List.mem_append_left _ hit) (h2 x hx), ?_⟩
  rcases h3 with ⟨R', h4, -⟩ | h3 | h3
  · exact Except.noConfusion h4
  · exact Or.inr (Or.inl h3)
  · exact Or.inr (Or.inr h3)

/-- Two parts in sequence handle the items of both. -/
theorem Handles_seq {α : Type} (s : Splitter α) (bs : Nat) (Q : Item → List (List Nat) → Prop)
    (S1 S2 : List Item) (st : List (Event α) × Results) (tr : List (Event α)) (R1 : Results)
    (r : List (Event α) × Except Fault Results)
    (h1 : Handles s bs Q S1 st (tr, .ok R1)) (h2 : Handles s bs Q S2 (tr, R1) r) :
    Handles s bs Q (S1 ++ S2) st r := by
  obtain ⟨new1, a1, a2, a3⟩ := h1
  obtain ⟨new2, b1, b2, b3⟩ := h2
  have hev : ∀ e ∈ new1 ++ new2, EvGood bs (S1 ++ S2) e := by
    intro e he
    rcases List.mem_append.mp he with he | he
    · exact EvGood_mono bs S1 _ e (fun it hit => List.mem_append_left _ hit) (a2 e he)
    · exact EvGood_mono bs S2 _ e (fun it hit => List.mem_append_right _ hit) (b2 e he)
  simp only at a1 b1
  refine ⟨new1 ++ new2, by rw [b1, a1, List.append_assoc], hev, ?_⟩
  rcases a3 with ⟨R', a4, a5, a6⟩ | ⟨a4, -⟩ | ⟨a4, -⟩
  · simp only [Except.ok.injEq] at a4
    subst a4
    have hnf1 : ∀ e ∈ new1 ++ new2, (∀ x ∈ new2, x.fails s = false) → e.fails s = false := by
      intro e he hx
      rcases List.mem_append.mp he with he | he
      · exact a5 e he
      · exact hx e he
    rcases b3 with ⟨R2, b4, b5, b6⟩ | ⟨b4, e, he, hf⟩ | ⟨b4, b5, b6⟩
    · exact Or.inl ⟨R2, b4, fun e he => hnf1 e he b5, Written_comp Q S1 S2 _ _ _ a6 b6⟩
    · exact Or.inr (Or.inl ⟨b4, e, List.mem_append_right _ he, hf⟩)
    · exact Or.inr (Or.inr ⟨b4, b5, fun e he => hnf1 e he b6⟩)
  · exact Except.noConfusion a4
  · exact Except.noConfusion a4

theorem take_drop_chunk {β : Type} (group : List β) (batchStart bs : Nat)
    (h : batchStart < group.length) :
    (group.take (if batchStart + bs > group.length then group.length else batchStart + bs)).drop
      batchStart = (group.drop batchStart).take bs := by
  split_ifs with hc
  · rw [List.take_length, List.take_of_length_le]
    rw [List.length_drop]
    omega
  · rw [List.drop_take]
    congr 1
    omega

/-- The loop over the chunks of one group handles the members from
`batchStart` on. -/
theorem chunkLoop_handles {α : Type} (F : Float32Ops α) (s : Splitter α) (bs : Nat)
    (Q : Item → List (List Nat) → Prop) (good : Item → Prop) (hQ : ChunkSound F s Q good)
    (L : Nat) (group : List Item) (hbs : 1 ≤ bs) (hL : 1 ≤ L) (hL64 : L ≤ maxLen)
    (hgood : ∀ it ∈ group, good it ∧ it.text.length = L) :
    ∀ (fuel batchStart : Nat) (st : List (Event α) × Results),
      group.length ≤ fuel + batchStart → (∀ it ∈ group, it.index < st.2.length) →
      Handles s bs Q (group.drop batchStart) st
        (chunkLoop F s L group bs fuel batchStart st) := by
  intro fuel
  induction fuel with
  | zero =>
    intro batchStart st hf _
    have hn : ¬ batchStart < group.length := by omega
    simp only [chunkLoop, if_neg hn]
    rw [List.drop_of_length_le (by omega)]
    exact Handles_nil s bs Q st
  | succ fuel ih =>
    intro batchStart st hf hidx
    by_cases hlt : batchStart < group.length
    · simp only [chunkLoop, if_pos hlt]
      rw [take_drop_chunk group batchStart bs hlt]
      have hsplit : group.drop batchStart =
          (group.drop batchStart).take bs ++ group.drop (batchStart + bs) := by
        rw [← List.drop_drop, List.take_append_drop]
      have hmem : ∀ it ∈ (group.drop batchStart).take bs, it ∈ group :=
        fun it hit => List.mem_of_mem_drop (List.mem_of_mem_take hit)
      have hne : (group.drop batchStart).take bs ≠ [] := by
        intro hc
        have := congrArg List.length hc
        simp only [List.length_take, List.length_drop, List.length_nil] at this
        omega
      have hchunk := processChunk_handles F s bs Q good hQ L ((group.drop batchStart).take bs) st
        hL hL64 hne (by simp only [List.length_take]; omega)
        (fun it hit => hgood it (hmem it hit)) (fun it hit => hidx it (hmem it hit))
      nth_rewrite 1 [hsplit]
      rcases hproc : processChunk F s L ((group.drop batchStart).take bs) st with ⟨tr, e | R1⟩
      · rw [hproc] at hchunk
        exact Handles_stop s bs Q _ _ st tr e hchunk
      · rw [hproc] at hchunk
        have hlen : R1.length = st.2.length := by
          obtain ⟨new, -, -, h3⟩ := hchunk
          rcases h3 with ⟨R', h4, -, h6⟩ | ⟨h4, -⟩ | ⟨h4, -⟩
          · simp only [Except.ok.injEq] at h4
            subst h4
            exact h6.1
          · exact Except.noConfusion h4
          · exact Except.noConfusion h4
        exact Handles_seq s bs Q _ _ st tr R1 _ hchunk
          (ih (batchStart + bs) (tr, R1) (by omega) (fun it hit => by rw [hlen]; exact hidx it hit))
    · simp only [chunkLoop, if_neg hlt]
      rw [List.drop_of_length_le (by omega)]
      exact Handles_nil s bs Q st

/-- The loop over the lengths handles the members of every group it meets. -/
theorem groupLoop_handles {α : Type} (F : Float32Ops α) (s : Splitter α) (bs : Nat)
    (Q : Item → List (List Nat) → Prop) (good : Item → Prop) (hQ : ChunkSound F s Q good)
    (groups : Groups) (hbs : 1 ≤ bs) :
    ∀ (lengths : List Nat) (st : List (Event α) × Results),
      (∀ l ∈ lengths, 1 ≤ l ∧ l ≤ maxLen ∧
        ∀ it ∈ groups.get l, (good it ∧ it.text.length = l) ∧ it.index < st.2.length) →
      Handles s bs Q (lengths.flatMap groups.get) st
        (groupLoop F s groups bs lengths st) := by
  intro lengths
  induction lengths with
  | nil =>
    intro st _
    exact Handles_nil s bs Q st
  | cons l rest ih =>
    intro st hall
    obtain ⟨hl1, hl2, hl3⟩ := hall l (List.mem_cons_self _ _)
    have hgroup := chunkLoop_handles F s bs Q good hQ l (groups.get l) hbs hl1 hl2
      (fun it hit => (hl3 it hit).1) (groups.get l).length 0 st (by omega)
      (fun it hit => (hl3 it hit).2)
    rw [List.drop_zero] at hgroup
    simp only [groupLoop, List.flatMap_cons]
    rcases hproc : chunkLoop F s l (groups.get l) bs (groups.get l).length 0 st with ⟨tr, e | R1⟩
    · rw [hproc] at hgroup
      exact Handles_stop s bs Q _ _ st tr e hgroup
    · rw [hproc] at hgroup
      have hlen : R1.length = st.2.length := by
        obtain ⟨new, -, -, h3⟩ := hgroup
        rcases h3 with ⟨R', h4, -, h6⟩ | ⟨h4, -⟩ | ⟨h4, -⟩
        · simp only [Except.ok.injEq] at h4
          subst h4
          exact h6.1
        · exact Except.noConfusion h4
        · exact Except.noConfusion h4
      exact Handles_seq s bs Q _ _ st tr R1 _ hgroup
        (ih (tr, R1) (fun l' hl' => by
          obtain ⟨h1, h2, h3⟩ := hall l' (List.mem_cons_of_mem _ hl')
          exact ⟨h1, h2, fun it hit => ⟨(h3 it hit).1, by rw [hlen]; exact (h3 it hit).2⟩⟩))
/-! ## The first loop of SplitBatch, and SplitBatch as a whole -/

theorem itemsFrom_mem (caseTable : Nat → Nat) : ∀ (texts : List (List Nat)) (i : Nat) (it : Item),
    it ∈ itemsFrom caseTable texts i ↔
      ∃ (k : Nat) (t : List Nat), texts[k]? = some t ∧ it = ⟨i + k, normalize caseTable t⟩ ∧
        (normalize caseTable t).length ≠ 0 := by
  intro texts
  induction texts with
  | nil =>
    intro i it
    simp [itemsFrom]
  | cons text rest ih =>
    intro i it
    have hshift : (∃ (k : Nat) (t : List Nat), rest[k]? = some t ∧
          it = ⟨i + 1 + k, normalize caseTable t⟩ ∧ (normalize caseTable t).length ≠ 0) ↔
        ∃ (k : Nat) (t : List Nat), (text :: rest)[k + 1]? = some t ∧
          it = ⟨i + (k + 1), normalize caseTable t⟩ ∧ (normalize caseTable t).length ≠ 0 := by
      constructor
      · rintro ⟨k, t, h1, h2, h3⟩
        exact ⟨k, t, by simpa using h1, by rw [h2]; congr 1; omega, h3⟩
      · rintro ⟨k, t, h1, h2, h3⟩
        exact ⟨k, t, by simpa using h1, by rw [h2]; congr 1; omega, h3⟩
    simp only [itemsFrom]
    split_ifs with h0
    · rw [ih (i + 1) it, hshift]
      constructor
      · rintro ⟨k, t, h1, h2, h3⟩
        exact ⟨k + 1, t, h1, h2, h3⟩
      · rintro ⟨k, t, h1, h2, h3⟩
        rcases k with _ | k
        · simp only [List.getElem?_cons_zero, Option.some.injEq] at h1
          subst h1
          exact absurd h0 h3
        · exact ⟨k, t, h1, h2, h3⟩
    · rw [List.mem_cons, ih (i + 1) it, hshift]
      constructor
      · rintro (h | ⟨k, t, h1, h2, h3⟩)
        · exact ⟨0, text, by simp, by rw [h]; rfl, h0⟩
        · exact ⟨k + 1, t, h1, h2, h3⟩
      · rintro ⟨k, t, h1, h2, h3⟩
        rcases k with _ | k
        · simp only [List.getElem?_cons_zero, Option.some.injEq] at h1
          subst h1
          left
          rw [h2]
          rfl
        · exact Or.inr ⟨k, t, h1, h2, h3⟩

theorem Groups.push_mem_keys (g : Groups) (l : Nat) (it : Item) (l' : Nat) :
    l' ∈ (g.push l it).keys ↔ l' ∈ g.keys ∨ l' = l := by
  simp only [Groups.push]
  split_ifs with h
  · constructor
    · exact Or.inl
    · rintro (h' | rfl)
      · exact h'
      · exact h
  · simp

/-- The first loop of `SplitBatch`: the groups it builds, the keys of the
map, and the entries of `results` it sets. -/
theorem groupInputs_spec (caseTable : Nat → Nat) :
    ∀ (texts : List (List Nat)) (i : Nat) (st : Results × Groups),
      (∀ l, (groupInputs caseTable texts i st).2.get l =
        st.2.get l ++ (itemsFrom caseTable texts i).filter (fun it => decide (it.text.length = l))) ∧
      (∀ l, l ∈ (groupInputs caseTable texts i st).2.keys ↔
        l ∈ st.2.keys ∨ ∃ it ∈ itemsFrom caseTable texts i, it.text.length = l) ∧
      (groupInputs caseTable texts i st).1.length = st.1.length ∧
      (∀ j, j < i → (groupInputs caseTable texts i st).1[j]? = st.1[j]?) ∧
      (∀ (k : Nat) (t : List Nat), texts[k]? = some t → (normalize caseTable t).length = 0 →
        i + k < st.1.length → (groupInputs caseTable texts i st).1[i + k]? = some (some [])) := by
  intro texts
  induction texts with
  | nil =>
    intro i st
    refine ⟨fun l => by simp [groupInputs, itemsFrom], fun l => by simp [groupInputs, itemsFrom],
      rfl, fun j _ => rfl, fun k t h => by simp at h⟩
  | cons text rest ih =>
    intro i st
    by_cases h0 : (normalize caseTable text).length = 0
    · obtain ⟨a1, a2, a3, a4, a5⟩ := ih (i + 1) (st.1.set i (some []), st.2)
      simp only [groupInputs, itemsFrom, if_pos h0]
      refine ⟨a1, a2, by rw [a3, List.length_set], ?_, ?_⟩
      · intro j hj
        rw [a4 j (by omega), List.getElem?_set, if_neg (by omega)]
      · intro k t hk hz hlt
        rcases k with _ | k
        · simp only [Nat.add_zero] at hlt ⊢
          rw [a4 i (by omega)]
          simp [List.getElem?_set, hlt]
        · have := a5 k t (by simpa using hk) hz (by simp only [List.length_set]; omega)
          rw [← this]
          congr 1
          omega
    · obtain ⟨a1, a2, a3, a4, a5⟩ := ih (i + 1)
        (st.1, st.2.push (normalize caseTable text).length ⟨i, normalize caseTable text⟩)
      simp only [groupInputs, itemsFrom, if_neg h0]
      refine ⟨?_, ?_, a3, fun j hj => a4 j (by omega), ?_⟩
      · intro l
        rw [a1 l]
        simp only [Groups.push, List.filter_cons]
        by_cases hl : l = (normalize caseTable text).length
        · subst hl
          simp
        · have : ¬ (normalize caseTable text).length = l := fun h => hl h.symm
          simp [hl, this]
      · intro l
        rw [a2 l, Groups.push_mem_keys]
        constructor
        · rintro ((h | h) | ⟨it, h1, h2⟩)
          · exact Or.inl h
          · exact Or.inr ⟨_, List.mem_cons_self _ _, h.symm⟩
          · exact Or.inr ⟨it, List.mem_cons_of_mem _ h1, h2⟩
        · rintro (h | ⟨it, h1, h2⟩)
          · exact Or.inl (Or.inl h)
          · rcases List.mem_cons.mp h1 with rfl | h1
            · exact Or.inl (Or.inr h2.symm)
            · exact Or.inr ⟨it, h1, h2⟩
      · intro k t hk hz hlt
        rcases k with _ | k
        · simp only [List.getElem?_cons_zero, Option.some.injEq] at hk
          subst hk
          exact absurd hz h0
        · have := a5 k t (by simpa using hk) hz (by simp only at hlt ⊢; omega)
          rw [← this]
          congr 1
          omega

theorem maxSubBatch_pos (batchSize : Int) : 1 ≤ maxSubBatch batchSize := by
  unfold maxSubBatch
  split_ifs with h
  · omega
  · omega

theorem initialResults_length (caseTable : Nat → Nat) (texts : List (List Nat)) :
    (initialResults caseTable texts).length = texts.length := by
  have := (groupInputs_spec caseTable texts 0 (List.replicate texts.length none, Groups.empty)).2.2.1
  simpa [initialResults] using this

theorem initialResults_empty (caseTable : Nat → Nat) (texts : List (List Nat)) (k : Nat)
    (t : List Nat) (hk : texts[k]? = some t) (hz : (normalize caseTable t).length = 0) :
    (initialResults caseTable texts)[k]? = some (some []) := by
  have hlt : k < texts.length := by
    by_contra hc
    rw [List.getElem?_eq_none (by omega)] at hk
    exact Option.noConfusion hk
  have := (groupInputs_spec caseTable texts 0
    (List.replicate texts.length none, Groups.empty)).2.2.2.2 k t hk hz (by simpa using hlt)
  simpa [initialResults] using this

theorem itemsFrom_good (caseTable : Nat → Nat) (texts : List (List Nat)) (it : Item)
    (h : it ∈ itemsFrom caseTable texts 0) :
    GoodItem caseTable texts it ∧ it.index < texts.length ∧ 1 ≤ it.text.length ∧
      it.text.length ≤ maxLen := by
  obtain ⟨k, t, h1, h2, h3⟩ := (itemsFrom_mem caseTable texts 0 it).mp h
  have hlt : k < texts.length := by
    by_contra hc
    rw [List.getElem?_eq_none (by omega)] at h1
    exact Option.noConfusion h1
  subst h2
  simp only [Nat.zero_add]
  refine ⟨⟨t, h1, rfl, fun hc => h3 (by simp only at hc; rw [hc]; rfl)⟩, hlt, by omega,
    normalize_length_le caseTable t⟩

/-- Method `SplitBatch` on a list that is not empty handles the inputs that
are not empty after normalisation, from the results of the first loop. -/
theorem SplitBatch_handles {α : Type} (F : Float32Ops α) (caseTable : Nat → Nat)
    (s : Splitter α) (texts : List (List Nat)) (batchSize : Int)
    (Q : Item → List (List Nat) → Prop) (hQ : ChunkSound F s Q (GoodItem caseTable texts))
    (hne : texts ≠ []) :
    Handles s (maxSubBatch batchSize) Q (itemsFrom caseTable texts 0)
      ([], initialResults caseTable texts) (SplitBatch F caseTable s texts batchSize) := by
  have hlen : ¬ texts.length = 0 := fun hc => hne (List.length_eq_zero.mp hc)
  obtain ⟨g1', g2', -, -, -⟩ :=
    groupInputs_spec caseTable texts 0 (List.replicate texts.length none, Groups.empty)
  have g1 : ∀ l, (groupInputs caseTable texts 0
      (List.replicate texts.length none, Groups.empty)).2.get l =
      (itemsFrom caseTable texts 0).filter (fun it => decide (it.text.length = l)) := by
    intro l
    rw [g1' l]
    rfl
  have g2 : ∀ l, l ∈ (groupInputs caseTable texts 0
      (List.replicate texts.length none, Groups.empty)).2.keys ↔
      ∃ it ∈ itemsFrom caseTable texts 0, it.text.length = l := by
    intro l
    rw [g2' l]
    simp [Groups.empty]
  have hsort : ∀ l, l ∈ List.insertionSort (fun a b => a ≤ b)
      (groupInputs caseTable texts 0 (List.replicate texts.length none, Groups.empty)).2.keys ↔
      ∃ it ∈ itemsFrom caseTable texts 0, it.text.length = l := by
    intro l
    rw [(List.perm_insertionSort _ _).mem_iff]
    exact g2 l
  simp only [SplitBatch, if_neg hlen]
  apply Handles_of_mem_iff s _ Q _ _ _ _ _
    (groupLoop_handles F s (maxSubBatch batchSize) Q (GoodItem caseTable texts) hQ _
      (maxSubBatch_pos batchSize) _ _ ?_)
  · intro it
    simp only [List.mem_flatMap, hsort, g1, List.mem_filter, decide_eq_true_eq]
    constructor
    · rintro ⟨l, -, h, -⟩
      exact h
    · intro h
      exact ⟨it.text.length, ⟨it, h, rfl⟩, h, rfl⟩
  · intro l hl
    obtain ⟨it0, h1, h2⟩ := (hsort l).mp hl
    obtain ⟨-, -, h3, h4⟩ := itemsFrom_good caseTable texts it0 h1
    refine ⟨by omega, by omega, ?_⟩
    intro it hit
    rw [g1 l, List.mem_filter, decide_eq_true_eq] at hit
    obtain ⟨h5, h6, -, -⟩ := itemsFrom_good caseTable texts it hit.1
    refine ⟨⟨h5, hit.2⟩, ?_⟩
    show it.index < (initialResults caseTable texts).length
    rw [initialResults_length]
    exact h6
/-! ## What a chunk writes -/

theorem chunkSound_wordsOf {α : Type} (F : Float32Ops α) (s : Splitter α)
    (good : Item → Prop) (hgood : ∀ it, good it → it.text ≠ []) :
    ChunkSound F s WordsOf good := by
  intro batch L out k it path w hL hall hrun hk hpath hw
  have hmem : it ∈ batch := List.getElem?_mem hk
  have hlen := crfDecodeOne_length F s _ _ _ _ hpath
  obtain ⟨ws, h1, h2, h3, h4⟩ := decodeToWords_flatten it.text path
    (by rw [hlen, (hall it hmem).2])
  rw [hw] at h1
  cases Option.some.inj h1
  exact ⟨h2, h3, h4 (hgood it (hall it hmem).1)⟩

theorem chunkSound_trivial {α : Type} (F : Float32Ops α) (s : Splitter α)
    (good : Item → Prop) : ChunkSound F s (fun _ _ => True) good :=
  fun _ _ _ _ _ _ _ _ _ _ _ _ _ => trivial

/-- With a provider that scores rows independently and never fails, the
words a chunk writes for a member are those of its single-row decode. -/
theorem chunkSound_singleOf {α : Type} (F : Float32Ops α) (s : Splitter α)
    (hnf : s.NeverFails) (hrw : s.RowWise) (good : Item → Prop) :
    ChunkSound F s (SingleOf F s) good := by
  intro batch L out k it path w hL hall hrun hk hpath hw
  have hmem : it ∈ batch := List.getElem?_mem hk
  have hklt : k < batch.length := by
    by_contra hc
    rw [List.getElem?_eq_none (by omega)] at hk
    exact Option.noConfusion hk
  have hitL : it.text.length = L := (hall it hmem).2
  obtain ⟨out1, hout1⟩ := hnf (textToIds it.text) 1 it.text.length
  have hrows := hrw (batch.map (fun it => textToIds it.text)) L out out1 k (textToIds it.text)
    (by
      intro r hr
      obtain ⟨x, hx, rfl⟩ := List.mem_map.mp hr
      rw [textToIds_length]
      exact (hall x hx).2)
    (by rw [List.getElem?_map, hk]; rfl)
    (by rw [List.length_map]; exact hrun)
    (by rw [← hitL]; exact hout1)
  have hcongr : crfDecodeOne F s ((List.range (1 * it.text.length * numTags)).map out1) 0
      it.text.length =
      crfDecodeOne F s ((List.range (batch.length * L * numTags)).map out)
        (k * L * numTags) L := by
    rw [hitL]
    apply crfDecodeOne_congr
    intro j hj
    have h1 : j < 1 * L * numTags := by simp only [numTags]; omega
    have h2 : k * L * numTags + j < batch.length * L * numTags := by
      have : (k + 1) * L * numTags ≤ batch.length * L * numTags :=
        Nat.mul_le_mul_right _ (Nat.mul_le_mul_right _ hklt)
      have h3 : (k + 1) * L * numTags = k * L * numTags + L * numTags := by ring
      simp only [numTags] at *
      omega
    rw [Nat.zero_add, map_range_getElem? out1 _ _ h1, map_range_getElem? out _ _ h2,
      hrows j (by simp only [numTags]; omega)]
  simp only [SingleOf, decodeSingle, runInference_eq s _ 1 _ out1 hout1, hcongr, hpath, hw]

theorem fails_false_of_neverFails {α : Type} (s : Splitter α) (hnf : s.NeverFails)
    (e : Event α) : e.fails s = false := by
  cases e with
  | infer rows ids b l =>
    obtain ⟨out, h⟩ := hnf ids b l
    exact Event.fails_infer_some s rows ids b l out h
  | decode em b l => rfl

theorem normalize_eq_nil_iff (caseTable : Nat → Nat) (t : List Nat) :
    (normalize caseTable t).length = 0 ↔ t = [] := by
  constructor
  · intro h
    by_contra hc
    have := normalize_length_pos caseTable t hc
    omega
  · intro h
    rw [h]
    rfl

theorem not_mem_items_of_empty (caseTable : Nat → Nat) (texts : List (List Nat)) (i : Nat)
    (h : texts[i]? = some []) : i ∉ (itemsFrom caseTable texts 0).map Item.index := by
  intro hc
  obtain ⟨it, hit, hi⟩ := List.mem_map.mp hc
  obtain ⟨⟨t, h1, h2, h3⟩, -⟩ := itemsFrom_good caseTable texts it hit
  rw [hi, h] at h1
  cases Option.some.inj h1
  exact h3 h2

theorem mem_items_of_ne (caseTable : Nat → Nat) (texts : List (List Nat)) (i : Nat)
    (t : List Nat) (h : texts[i]? = some t) (ht : t ≠ []) :
    i ∈ (itemsFrom caseTable texts 0).map Item.index := by
  refine List.mem_map.mpr ⟨⟨i, normalize caseTable t⟩, ?_, rfl⟩
  rw [itemsFrom_mem]
  exact ⟨i, t, h, by rw [Nat.zero_add], by
    have := normalize_length_pos caseTable t ht
    omega⟩

/-- The entry of an input after `SplitBatch` has handled every item: the
empty word list for an empty input, and for any other input words that `Q`
accepts for the item of that input. -/
theorem entry_of_written (caseTable : Nat → Nat) (texts : List (List Nat))
    (Q : Item → List (List Nat) → Prop) (R : Results)
    (hW : Written Q (itemsFrom caseTable texts 0) (initialResults caseTable texts) R)
    (i : Nat) (t : List Nat) (h : texts[i]? = some t) :
    (t = [] ∧ R[i]? = some (some [])) ∨
    (t ≠ [] ∧ ∃ w, R[i]? = some (some w) ∧ Q ⟨i, normalize caseTable t⟩ w) := by
  by_cases ht : t = []
  · left
    subst ht
    refine ⟨rfl, ?_⟩
    rw [(hW.2 i).1 (not_mem_items_of_empty caseTable texts i h)]
    exact initialResults_empty caseTable texts i [] h rfl
  · right
    refine ⟨ht, ?_⟩
    obtain ⟨it, w, hit, hi, hR, hq⟩ := (hW.2 i).2 (mem_items_of_ne caseTable texts i t h ht)
    obtain ⟨⟨t', h1, h2, -⟩, -⟩ := itemsFrom_good caseTable texts it hit
    rw [hi, h] at h1
    cases Option.some.inj h1
    have : it = ⟨i, normalize caseTable t⟩ := by
      cases it
      simp only at hi h2
      rw [hi, h2]
    rw [this] at hq
    exact ⟨w, hR, hq⟩
/-! ## Batch and single decoding agree -/

theorem SplitBatch_nil {α : Type} (F : Float32Ops α) (caseTable : Nat → Nat) (s : Splitter α)
    (batchSize : Int) : SplitBatch F caseTable s [] batchSize = ([], .ok []) := rfl

/-- With well-sized tables and a provider that never fails and scores rows
independently, `SplitBatch` returns results, one entry per input, and the
entry of an input holds the words `Split` returns for it. -/
theorem SplitBatch_pointwise {α : Type} (F : Float32Ops α) (caseTable : Nat → Nat)
    (s : Splitter α) (hs : s.WellSized) (hnf : s.NeverFails) (hrw : s.RowWise)
    (xs : List (List Nat)) (batchSize : Int) :
    ∃ R, (SplitBatch F caseTable s xs batchSize).2 = .ok R ∧ R.length = xs.length ∧
      ∀ (i : Nat) (t : List Nat), xs[i]? = some t →
        ∃ w, (Split F caseTable s t).2 = .ok w ∧ R[i]? = some (some w) := by
  by_cases hne : xs = []
  · subst hne
    exact ⟨[], rfl, rfl, fun i t h => by simp at h⟩
  · obtain ⟨new, -, -, h3⟩ := SplitBatch_handles F caseTable s xs batchSize (SingleOf F s)
      (chunkSound_singleOf F s hnf hrw _) hne
    rcases h3 with ⟨R, h4, -, h6⟩ | ⟨-, e, -, hf⟩ | ⟨-, h5, -⟩
    · refine ⟨R, h4, by rw [h6.1]; exact initialResults_length caseTable xs, ?_⟩
      intro i t hi
      rcases entry_of_written caseTable xs _ R h6 i t hi with ⟨rfl, hR⟩ | ⟨ht, w, hR, hq⟩
      · exact ⟨[], rfl, hR⟩
      · obtain ⟨out, hout⟩ := hnf (textToIds (normalize caseTable t)) 1
          (normalize caseTable t).length
        obtain ⟨ws, h7, h8, -⟩ := Split_ok F caseTable s hs t ht out hout
        simp only [SingleOf] at hq
        rw [h8] at hq
        cases Option.some.inj hq
        exact ⟨_, by rw [h7], hR⟩
    · rw [fails_false_of_neverFails s hnf e] at hf
      exact Bool.noConfusion hf
    · exact absurd hs h5

/-- Claim C2.  Batch/single equivalence: with tables of the sizes of the data
model and an emission provider that does not fail and scores each row of a
batch exactly as it scores that row alone, `SplitBatch(xs, batchSize)`
returns, for every list `xs` and every `batchSize` (positive, or not
positive and then standing for 256), a list of `len(xs)` entries whose entry
`i`, for every index `i` of `xs`, is what `Split(xs[i])` returns; in
particular `SplitBatch(xs, 1)` and `SplitBatch(xs, 256)` return the same. -/
theorem SplitBatch_eq_Split {α : Type} (F : Float32Ops α) (caseTable : Nat → Nat)
    (s : Splitter α) (hs : s.WellSized) (hnf : s.NeverFails) (hrw : s.RowWise)
    (xs : List (List Nat)) (batchSize : Int) :
    (∃ R, (SplitBatch F caseTable s xs batchSize).2 = .ok R ∧ R.length = xs.length ∧
      ∀ (i : Nat) (t : List Nat), xs[i]? = some t →
        ∃ w, (Split F caseTable s t).2 = .ok w ∧ R[i]? = some (some w)) ∧
    (SplitBatch F caseTable s xs 1).2 = (SplitBatch F caseTable s xs 256).2 := by
  constructor
  · exact SplitBatch_pointwise F caseTable s hs hnf hrw xs batchSize
  · obtain ⟨R, h1, h2, h3⟩ := SplitBatch_pointwise F caseTable s hs hnf hrw xs 1
    obtain ⟨R', h1', h2', h3'⟩ := SplitBatch_pointwise F caseTable s hs hnf hrw xs 256
    rw [h1, h1']
    congr 1
    apply List.ext_getElem?
    intro i
    by_cases hi : i < xs.length
    · obtain ⟨w, ha, hb⟩ := h3 i xs[i] (List.getElem?_eq_getElem hi)
      obtain ⟨w', ha', hb'⟩ := h3' i xs[i] (List.getElem?_eq_getElem hi)
      rw [ha] at ha'
      cases Except.ok.inj ha'
      rw [hb, hb']
    · rw [List.getElem?_eq_none (by omega), List.getElem?_eq_none (by omega)]

theorem zeroSplitter_wellSized : zeroSplitter.WellSized := ⟨rfl, rfl, rfl⟩

theorem markSplitter_wellSized : markSplitter.WellSized := ⟨rfl, rfl, rfl⟩

theorem markSplitter_neverFails : markSplitter.NeverFails := fun _ _ _ => ⟨_, rfl⟩

theorem flatten_getElem? {β : Type} (L : Nat) : ∀ (rows : List (List β)) (b : Nat)
    (row : List β) (m : Nat), (∀ r ∈ rows, r.length = L) → rows[b]? = some row → m < L →
    rows.flatten[b * L + m]? = row[m]? := by
  intro rows
  induction rows with
  | nil =>
    intro b row m _ h
    simp at h
  | cons r rest ih =>
    intro b row m hall hb hm
    have hr : r.length = L := hall r (List.mem_cons_self _ _)
    rcases b with _ | b
    · simp only [List.getElem?_cons_zero, Option.some.injEq] at hb
      subst hb
      simp only [Nat.zero_mul, Nat.zero_add, List.flatten_cons]
      rw [List.getElem?_append_left (by omega)]
    · simp only [List.getElem?_cons_succ] at hb
      simp only [List.flatten_cons]
      rw [List.getElem?_append_right (by rw [hr, Nat.add_mul]; omega)]
      have : (b + 1) * L + m - r.length = b * L + m := by
        rw [hr, Nat.add_mul]; omega
      rw [this]
      exact ih b row m (fun x hx => hall x (List.mem_cons_of_mem _ hx)) hb hm

theorem markSplitter_rowWise : markSplitter.RowWise := by
  intro rows L out out1 b row hall hb hout hout1 k hk
  simp only [markSplitter, Option.some.injEq] at hout hout1
  subst hout
  subst hout1
  have hidx : (b * L * numTags + k) / 2 = b * L + k / 2 := by
    simp only [numTags]; omega
  have hpar : (b * L * numTags + k) % 2 = k % 2 := by
    simp only [numTags]; omega
  have hget := flatten_getElem? L rows b row (k / 2) hall hb (by simp only [numTags] at hk; omega)
  simp only [hidx, hpar, List.getD_eq_getElem?_getD, hget]

theorem SplitBatch_eq_Split_witness :
    (∃ R, (SplitBatch exact noCase markSplitter
        [[104, 101, 108, 108, 111, 119, 111, 114, 108, 100], [], [65, 119], [119, 119]] 1).2
          = .ok R ∧ R.length = 4 ∧
      ∀ (i : Nat) (t : List Nat),
        [[104, 101, 108, 108, 111, 119, 111, 114, 108, 100], [], [65, 119], [119, 119]][i]?
          = some t →
        ∃ w, (Split exact noCase markSplitter t).2 = .ok w ∧ R[i]? = some (some w)) ∧
    (SplitBatch exact noCase markSplitter
        [[104, 101, 108, 108, 111, 119, 111, 114, 108, 100], [], [65, 119], [119, 119]] 1).2 =
      (SplitBatch exact noCase markSplitter
        [[104, 101, 108, 108, 111, 119, 111, 114, 108, 100], [], [65, 119], [119, 119]] 256).2 :=
  SplitBatch_eq_Split exact noCase markSplitter markSplitter_wellSized markSplitter_neverFails
    markSplitter_rowWise _ 1

/-- The scenario `split("helloworld") = ["hello", "world"]` of the tests, with
a provider that marks the letter `w`, and the same through `SplitBatch`. -/
theorem Split_helloworld :
    (Split exact noCase markSplitter [104, 101, 108, 108, 111, 119, 111, 114, 108, 100]).2 =
      .ok [[104, 101, 108, 108, 111], [119, 111, 114, 108, 100]] ∧
    (SplitBatch exact noCase markSplitter
        [[72, 69, 76, 76, 79, 87, 79, 82, 76, 68], [], [119, 119]] 1).2 =
      .ok [some [[104, 101, 108, 108, 111], [119, 111, 114, 108, 100]], some [],
        some [[119], [119]]] := by
  constructor <;> rfl
/-! ## Errors and empty input -/

theorem Split_cases {α : Type} (F : Float32Ops α) (caseTable : Nat → Nat) (s : Splitter α)
    (hs : s.WellSized) (text : List Nat) :
    (text = [] ∧ Split F caseTable s text = ([], .ok [])) ∨
    (text ≠ [] ∧ ∃ c : Event α, c.isInfer = true ∧ c.fails s = true ∧
      c.seqLen = (normalize caseTable text).length ∧
      Split F caseTable s text = ([c], .error .inference)) ∨
    (text ≠ [] ∧ ∃ (c d : Event α) (w : List (List Nat)), c.isInfer = true ∧ c.fails s = false ∧
      d.isInfer = false ∧ d.fails s = false ∧
      c.seqLen = (normalize caseTable text).length ∧
      d.seqLen = (normalize caseTable text).length ∧
      w.flatten = reencode (normalize caseTable text) ∧ [] ∉ w ∧ w ≠ [] ∧
      Split F caseTable s text = ([c, d], .ok w)) := by
  by_cases ht : text = []
  · left
    subst ht
    exact ⟨rfl, rfl⟩
  · right
    cases hrun : s.session (textToIds (normalize caseTable text)) 1
        (normalize caseTable text).length with
    | none =>
      left
      exact ⟨ht, Event.infer [0] (textToIds (normalize caseTable text)) 1
        (normalize caseTable text).length, rfl, Event.fails_infer_none s _ _ _ _ hrun, rfl,
        Split_error F caseTable s text ht hrun⟩
    | some out =>
      right
      obtain ⟨ws, h1, -, h2, h3, h4⟩ := Split_ok F caseTable s hs text ht out hrun
      exact ⟨ht, Event.infer [0] (textToIds (normalize caseTable text)) 1
        (normalize caseTable text).length,
        Event.decode ((List.range (1 * (normalize caseTable text).length * numTags)).map out)
          1 (normalize caseTable text).length,
        ws, rfl, Event.fails_infer_some s _ _ _ _ out hrun, rfl, rfl, rfl, rfl,
        h2, h3, h4, h1⟩

/-- Claim C4.  For a splitter with tables of the sizes of the data model:
`Split` makes at most one provider call, returns the provider error (and no
words) exactly when that call fails, and returns words when no call fails;
`SplitBatch` returns the provider error, and with it no result list at all,
exactly when a provider call it makes fails, and returns a result list with
one entry per input when no call it makes fails. -/
theorem error_iff_provider_fails {α : Type} (F : Float32Ops α) (caseTable : Nat → Nat)
    (s : Splitter α) (hs : s.WellSized) (text : List Nat) (xs : List (List Nat))
    (batchSize : Int) :
    (((Split F caseTable s text).1.filter Event.isInfer).length ≤ 1) ∧
    ((Split F caseTable s text).2 = .error .inference ↔
      ∃ e ∈ (Split F caseTable s text).1, e.fails s = true) ∧
    ((∀ e ∈ (Split F caseTable s text).1, e.fails s = false) →
      ∃ w, (Split F caseTable s text).2 = .ok w) ∧
    ((SplitBatch F caseTable s xs batchSize).2 = .error .inference ↔
      ∃ e ∈ (SplitBatch F caseTable s xs batchSize).1, e.fails s = true) ∧
    ((SplitBatch F caseTable s xs batchSize).2 = .error .inference →
      ∀ R, (SplitBatch F caseTable s xs batchSize).2 ≠ .ok R) ∧
    ((∀ e ∈ (SplitBatch F caseTable s xs batchSize).1, e.fails s = false) →
      ∃ R, (SplitBatch F caseTable s xs batchSize).2 = .ok R ∧ R.length = xs.length) := by
  have hsplit := Split_cases F caseTable s hs text
  refine ⟨?_, ?_, ?_, ?_, ?_, ?_⟩
  · rcases hsplit with ⟨-, h⟩ | ⟨-, c, hc, -, -, h⟩ | ⟨-, c, d, w, hc, -, hd, -, -, -, -, -, -, h⟩
    · rw [h]; simp
    · rw [h]; simp [List.filter, hc]
    · rw [h]; simp [List.filter, hc, hd]
  · rcases hsplit with ⟨-, h⟩ | ⟨-, c, -, hc, -, h⟩ | ⟨-, c, d, w, -, hc, -, hd, -, -, -, -, -, h⟩
    · rw [h]; simp
    · rw [h]; simp [hc]
    · rw [h]; simp [hc, hd]
  · rcases hsplit with ⟨-, h⟩ | ⟨-, c, -, hc, -, h⟩ | ⟨-, c, d, w, -, hc, -, hd, -, -, -, -, -, h⟩
    · rw [h]; intro _; exact ⟨[], rfl⟩
    · rw [h]; intro hall
      have := hall c (List.mem_singleton.mpr rfl)
      rw [hc] at this
      exact Bool.noConfusion this
    · rw [h]; intro _; exact ⟨w, rfl⟩
  · by_cases hne : xs = []
    · subst hne
      rw [SplitBatch_nil]
      simp
    · obtain ⟨new, h1, -, h3⟩ := SplitBatch_handles F caseTable s xs batchSize
        (fun _ _ => True) (chunkSound_trivial F s _) hne
      simp only [List.nil_append] at h1
      rw [h1]
      rcases h3 with ⟨R, h4, h5, -⟩ | ⟨h4, e, he, hf⟩ | ⟨h4, -, h5⟩
      · rw [h4]
        constructor
        · intro h; exact Except.noConfusion h
        · rintro ⟨e, he, hf⟩
          rw [h5 e he] at hf
          exact Bool.noConfusion hf
      · rw [h4]
        exact ⟨fun _ => ⟨e, he, hf⟩, fun _ => rfl⟩
      · rw [h4]
        constructor
        · intro h
          simp at h
        · rintro ⟨e, he, hf⟩
          rw [h5 e he] at hf
          exact Bool.noConfusion hf
  · intro h R hR
    rw [h] at hR
    exact Except.noConfusion hR
  · by_cases hne : xs = []
    · subst hne
      intro _
      exact ⟨[], rfl, rfl⟩
    · obtain ⟨new, h1, -, h3⟩ := SplitBatch_handles F caseTable s xs batchSize
        (fun _ _ => True) (chunkSound_trivial F s _) hne
      simp only [List.nil_append] at h1
      rw [h1]
      intro hall
      rcases h3 with ⟨R, h4, -, h6⟩ | ⟨-, e, he, hf⟩ | ⟨-, h5, -⟩
      · exact ⟨R, h4, by rw [h6.1]; exact initialResults_length caseTable xs⟩
      · rw [hall e he] at hf
        exact Bool.noConfusion hf
      · exact absurd hs h5

theorem pickySplitter_wellSized : pickySplitter.WellSized := ⟨rfl, rfl, rfl⟩

theorem error_iff_provider_fails_witness :
    (∃ e ∈ (SplitBatch exact noCase pickySplitter [[97], [98, 99]] 256).1,
      e.fails pickySplitter = true) ∧
    (∀ R, (SplitBatch exact noCase pickySplitter [[97], [98, 99]] 256).2 ≠ .ok R) ∧
    (∃ w, (Split exact noCase pickySplitter [97]).2 = .ok w) :=
  have h := error_iff_provider_fails exact noCase pickySplitter pickySplitter_wellSized
    [97] [[97], [98, 99]] 256
  ⟨h.2.2.2.1.mp rfl, h.2.2.2.2.1 rfl, h.2.2.1 (by decide)⟩

theorem itemsFrom_eq_nil (caseTable : Nat → Nat) (xs : List (List Nat))
    (h : ∀ t ∈ xs, t = []) : itemsFrom caseTable xs 0 = [] := by
  apply List.eq_nil_iff_forall_not_mem.mpr
  intro it hit
  obtain ⟨⟨t, h1, h2, h3⟩, -⟩ := itemsFrom_good caseTable xs it hit
  have := h t (List.getElem?_mem h1)
  subst this
  exact h3 h2

/-- With no input that is not empty, `SplitBatch` makes no call. -/
theorem SplitBatch_all_empty {α : Type} (F : Float32Ops α) (caseTable : Nat → Nat)
    (s : Splitter α) (xs : List (List Nat)) (batchSize : Int) (h : ∀ t ∈ xs, t = []) :
    SplitBatch F caseTable s xs batchSize = ([], .ok (initialResults caseTable xs)) := by
  by_cases hne : xs = []
  · subst hne
    rfl
  · have hlen : ¬ xs.length = 0 := fun hc => hne (List.length_eq_zero.mp hc)
    have hkeys : (groupInputs caseTable xs 0
        (List.replicate xs.length none, Groups.empty)).2.keys = [] := by
      apply List.eq_nil_iff_forall_not_mem.mpr
      intro l hl
      rw [(groupInputs_spec caseTable xs 0 _).2.1 l, itemsFrom_eq_nil caseTable xs h] at hl
      simp [Groups.empty] at hl
    simp only [SplitBatch, if_neg hlen, hkeys, List.insertionSort, groupLoop, initialResults]

/-- Claim C5, as amended.  `Split` of the empty text returns the empty word
list without any call, whatever the provider would do, and so does
`SplitBatch` of the empty list.  In `SplitBatch(xs, b)` an input `xs[i]` that
is empty is a row of no provider call, and its entry is the empty word list
whenever `SplitBatch` returns a result list; when no input at all is
non-empty, `SplitBatch` makes no call and returns the empty word list for
every input. -/
theorem empty_input_short_circuits {α : Type} (F : Float32Ops α) (caseTable : Nat → Nat)
    (s : Splitter α) (xs : List (List Nat)) (batchSize : Int) (i : Nat)
    (hi : xs[i]? = some []) :
    Split F caseTable s [] = ([], .ok []) ∧
    SplitBatch F caseTable s [] batchSize = ([], .ok []) ∧
    (∀ e ∈ (SplitBatch F caseTable s xs batchSize).1, i ∉ e.rows) ∧
    (∀ R, (SplitBatch F caseTable s xs batchSize).2 = .ok R → R[i]? = some (some [])) ∧
    ((∀ t ∈ xs, t = []) → (SplitBatch F caseTable s xs batchSize).1 = [] ∧
      ∃ R, (SplitBatch F caseTable s xs batchSize).2 = .ok R ∧ R.length = xs.length ∧
        ∀ j, j < xs.length → R[j]? = some (some [])) := by
  have hne : xs ≠ [] := by
    intro hc
    rw [hc] at hi
    simp at hi
  obtain ⟨new, h1, h2, h3⟩ := SplitBatch_handles F caseTable s xs batchSize
    (fun _ _ => True) (chunkSound_trivial F s _) hne
  simp only [List.nil_append] at h1
  refine ⟨rfl, rfl, ?_, ?_, ?_⟩
  · intro e he hrow
    rw [h1] at he
    exact not_mem_items_of_empty caseTable xs i hi ((h2 e he).2.2.2.2 i hrow)
  · intro R hR
    rcases h3 with ⟨R', h4, -, h6⟩ | ⟨h4, -⟩ | ⟨h4, -⟩
    · rw [h4] at hR
      cases Except.ok.inj hR
      rw [(h6.2 i).1 (not_mem_items_of_empty caseTable xs i hi)]
      exact initialResults_empty caseTable xs i [] hi rfl
    · rw [h4] at hR; exact Except.noConfusion hR
    · rw [h4] at hR; exact Except.noConfusion hR
  · intro hall
    rw [SplitBatch_all_empty F caseTable s xs batchSize hall]
    refine ⟨rfl, _, rfl, initialResults_length caseTable xs, ?_⟩
    intro j hj
    have hj' : xs[j]? = some xs[j] := List.getElem?_eq_getElem hj
    have := hall xs[j] (List.getElem_mem _)
    rw [this] at hj'
    exact initialResults_empty caseTable xs j [] hj' rfl

theorem empty_input_short_circuits_witness :
    (∀ e ∈ (SplitBatch exact noCase markSplitter [[119, 119], [], [97]] 1).1, 1 ∉ e.rows) ∧
    (∀ R, (SplitBatch exact noCase markSplitter [[119, 119], [], [97]] 1).2 = .ok R →
      R[1]? = some (some [])) ∧
    (SplitBatch exact noCase failingSplitter [[], []] 1).1 = [] :=
  have h := empty_input_short_circuits exact noCase markSplitter [[119, 119], [], [97]] 1 1 rfl
  have h' := empty_input_short_circuits exact noCase failingSplitter [[], []] 1 0 rfl
  ⟨h.2.2.1, h.2.2.2.1, (h'.2.2.2.2 (by decide)).1⟩

/-- Claim C5 as stated fails: with a provider that fails on the call for the
input `"a"`, `SplitBatch(["", "a"], 256)` returns the error and no result
list, so the empty input at index 0 gets no word list. -/
theorem empty_entry_lost_on_failure :
    (SplitBatch exact noCase failingSplitter [[], [97]] 256).2 = .error .inference ∧
    ¬ ∃ R, (SplitBatch exact noCase failingSplitter [[], [97]] 256).2 = .ok R ∧
      R[0]? = some (some []) := by
  have h : (SplitBatch exact noCase failingSplitter [[], [97]] 256).2 = .error .inference := rfl
  refine ⟨h, ?_⟩
  rintro ⟨R, hR, -⟩
  rw [h] at hR
  exact Except.noConfusion hR
/-! ## Reconstruction, and where it breaks -/

/-- The calls `Split` makes are made with the length of the normalised text,
which is between 1 and `maxLen`. -/
theorem Split_calls_seqLen {α : Type} (F : Float32Ops α) (caseTable : Nat → Nat)
    (s : Splitter α) (text : List Nat) :
    ∀ e ∈ (Split F caseTable s text).1,
      e.seqLen = (normalize caseTable text).length ∧ 1 ≤ e.seqLen ∧ e.seqLen ≤ maxLen := by
  by_cases ht : text = []
  · subst ht
    intro e he
    simp [Split] at he
  · have hlen : ¬ text.length = 0 := fun hc => ht (List.length_eq_zero.mp hc)
    have hb : ∀ e : Event α, e.seqLen = (normalize caseTable text).length →
        e.seqLen = (normalize caseTable text).length ∧ 1 ≤ e.seqLen ∧ e.seqLen ≤ maxLen := by
      intro e he
      rw [he]
      exact ⟨rfl, normalize_length_pos caseTable text ht, normalize_length_le caseTable text⟩
    simp only [Split, if_neg hlen]
    intro e he
    apply hb
    repeat' split at he
    all_goals
      simp only [List.mem_cons, List.mem_singleton, List.not_mem_nil, or_false] at he
      rcases he with rfl | rfl <;> rfl

/-- The calls `SplitBatch` makes are made with a sequence length between 1
and `maxLen` and with between 1 and `maxSubBatch` rows. -/
theorem SplitBatch_calls_bounds {α : Type} (F : Float32Ops α) (caseTable : Nat → Nat)
    (s : Splitter α) (xs : List (List Nat)) (batchSize : Int) :
    ∀ e ∈ (SplitBatch F caseTable s xs batchSize).1,
      1 ≤ e.seqLen ∧ e.seqLen ≤ maxLen ∧ 1 ≤ e.batchSize ∧
        e.batchSize ≤ maxSubBatch batchSize := by
  by_cases hne : xs = []
  · subst hne
    intro e he
    simp [SplitBatch] at he
  · obtain ⟨new, h1, h2, -⟩ := SplitBatch_handles F caseTable s xs batchSize
      (fun _ _ => True) (chunkSound_trivial F s _) hne
    simp only [List.nil_append] at h1
    intro e he
    rw [h1] at he
    obtain ⟨a, b, c, d, -⟩ := h2 e he
    exact ⟨a, b, c, d⟩

/-- With well-sized tables, the words `Split` returns are not empty words and
their concatenation is the normalised text with every rune written back:
the normalised text itself when it is valid UTF-8, as every ASCII text is. -/
theorem Split_reconstruction {α : Type} (F : Float32Ops α) (caseTable : Nat → Nat)
    (s : Splitter α) (hs : s.WellSized) (text : List Nat) (w : List (List Nat))
    (h : (Split F caseTable s text).2 = .ok w) :
    w.flatten = reencode (normalize caseTable text) ∧ [] ∉ w ∧
      (validUTF8 (normalize caseTable text) = true → w.flatten = normalize caseTable text) := by
  have key : w.flatten = reencode (normalize caseTable text) ∧ [] ∉ w := by
    rcases Split_cases F caseTable s hs text with ⟨rfl, h'⟩ | ⟨-, c, -, -, -, h'⟩ |
      ⟨-, c, d, w', -, -, -, -, -, -, h1, h2, -, h'⟩
    · rw [h'] at h
      cases Except.ok.inj h
      exact ⟨rfl, by simp⟩
    · rw [h'] at h
      exact Except.noConfusion h
    · rw [h'] at h
      cases Except.ok.inj h
      exact ⟨h1, h2⟩
  exact ⟨key.1, key.2, fun hv => by rw [key.1, reencode_of_validUTF8 _ hv]⟩

/-- A result list of `SplitBatch` has one entry per input, every entry is
set, and the concatenation of the words of an entry is the normalised input
with every rune written back: the normalised input itself when that is valid
UTF-8. -/
theorem SplitBatch_reconstruction {α : Type} (F : Float32Ops α) (caseTable : Nat → Nat)
    (s : Splitter α) (xs : List (List Nat)) (batchSize : Int) (R : Results)
    (h : (SplitBatch F caseTable s xs batchSize).2 = .ok R) :
    R.length = xs.length ∧
    ∀ (i : Nat) (t : List Nat), xs[i]? = some t →
      ∃ w, R[i]? = some (some w) ∧ w.flatten = reencode (normalize caseTable t) ∧ [] ∉ w ∧
        (validUTF8 (normalize caseTable t) = true → w.flatten = normalize caseTable t) := by
  by_cases hne : xs = []
  · subst hne
    rw [SplitBatch_nil] at h
    cases Except.ok.inj h
    exact ⟨rfl, fun i t hi => by simp at hi⟩
  · obtain ⟨new, -, -, h3⟩ := SplitBatch_handles F caseTable s xs batchSize WordsOf
      (chunkSound_wordsOf F s _ (fun it hit => by
        obtain ⟨t, -, -, h3⟩ := hit
        exact h3)) hne
    rcases h3 with ⟨R', h4, -, h6⟩ | ⟨h4, -⟩ | ⟨h4, -⟩
    · rw [h4] at h
      cases Except.ok.inj h
      refine ⟨by rw [h6.1]; exact initialResults_length caseTable xs, ?_⟩
      intro i t hi
      rcases entry_of_written caseTable xs _ _ h6 i t hi with ⟨rfl, hR⟩ | ⟨-, w, hR, hq⟩
      · exact ⟨[], hR, rfl, by simp, fun _ => rfl⟩
      · obtain ⟨q1, q2, -⟩ := hq
        simp only at q1
        exact ⟨w, hR, q1, q2, fun hv => by rw [q1, reencode_of_validUTF8 _ hv]⟩
    · rw [h4] at h; exact Except.noConfusion h
    · rw [h4] at h; exact Except.noConfusion h

theorem normalize_cutRuneInput :
    normalize noCase cutRuneInput = List.replicate 63 97 ++ [0xC3] := by decide

theorem reencode_cutRune :
    reencode (List.replicate 63 97 ++ [0xC3]) = List.replicate 63 97 ++ [0xEF, 0xBF, 0xBD] := by
  decide

/-- Claim C1 fails on the code.  The input of 63 letters `a` followed by `é`
(65 bytes of valid UTF-8) is cut to 64 bytes in the middle of `é`; the
`range` loop of `decodeToWords` reads the cut byte C3 as U+FFFD and
`WriteRune` writes the three bytes EF BF BD.  So the words of `Split`
concatenate to 63 letters `a` followed by EF BF BD, not to the normalised
text.  At the assembler: `decodeToWords` of the one byte C3 with one tag
returns the word EF BF BD. -/
theorem reconstruction_fails_on_cut_rune :
    validUTF8 cutRuneInput = true ∧
    normalize noCase cutRuneInput = List.replicate 63 97 ++ [0xC3] ∧
    (∃ ws, (Split exact noCase zeroSplitter cutRuneInput).2 = .ok ws ∧
      ws.flatten = List.replicate 63 97 ++ [0xEF, 0xBF, 0xBD] ∧
      ws.flatten ≠ normalize noCase cutRuneInput) ∧
    decodeToWords [0xC3] [0] = some [[0xEF, 0xBF, 0xBD]] ∧
    ([[0xEF, 0xBF, 0xBD]] : List (List Nat)).flatten ≠ [0xC3] := by
  refine ⟨by decide, normalize_cutRuneInput, ?_, by decide, by decide⟩
  obtain ⟨ws, h1, -, h2, -⟩ := Split_ok exact noCase zeroSplitter zeroSplitter_wellSized
    cutRuneInput (by decide) (fun _ => 0) rfl
  refine ⟨ws, by rw [h1], ?_, ?_⟩
  · rw [h2, normalize_cutRuneInput, reencode_cutRune]
  · rw [h2, normalize_cutRuneInput, reencode_cutRune]
    decide

/-- Claim C6 fails on the code in one respect.  For the one input of 63
letters `a` followed by `é`, `SplitBatch` returns one entry, and it is set,
but the concatenation of its words is 63 letters `a` followed by EF BF BD,
which is not the normalisation of the input (63 letters `a` followed by
C3). -/
theorem SplitBatch_entry_not_normalization :
    ∃ R w, (SplitBatch exact noCase zeroSplitter [cutRuneInput] 256).2 = .ok R ∧
      R.length = 1 ∧ R[0]? = some (some w) ∧
      w.flatten = List.replicate 63 97 ++ [0xEF, 0xBF, 0xBD] ∧
      w.flatten ≠ normalize noCase cutRuneInput := by
  obtain ⟨R, h1, h2, h3⟩ := SplitBatch_pointwise exact noCase zeroSplitter zeroSplitter_wellSized
    (fun _ _ _ => ⟨_, rfl⟩) (fun _ _ _ _ _ _ _ _ h1 h2 _ _ => by
      simp only [zeroSplitter, Option.some.injEq] at h1 h2
      rw [← h1, ← h2]) [cutRuneInput] 256
  obtain ⟨w, h4, h5⟩ := h3 0 cutRuneInput rfl
  obtain ⟨h6, -⟩ := Split_reconstruction exact noCase zeroSplitter zeroSplitter_wellSized
    cutRuneInput w h4
  refine ⟨R, w, h1, h2, h5, ?_, ?_⟩
  · rw [h6, normalize_cutRuneInput, reencode_cutRune]
  · rw [h6, normalize_cutRuneInput, reencode_cutRune]
    decide

/-- Claim C10 fails on the code in one respect.  For the input of 63 letters
`a` followed by `é` the normalised text has 64 bytes and every call is made
with sequence length 64, but the words returned concatenate to 66 bytes,
more than the cap of 64. -/
theorem words_longer_than_cap :
    (normalize noCase cutRuneInput).length = 64 ∧
    (∀ e ∈ (Split exact noCase zeroSplitter cutRuneInput).1, e.seqLen = 64) ∧
    ∃ ws, (Split exact noCase zeroSplitter cutRuneInput).2 = .ok ws ∧
      ws.flatten.length = 66 ∧ ¬ ws.flatten.length ≤ maxLen := by
  have hn : (normalize noCase cutRuneInput).length = 64 := by
    rw [normalize_cutRuneInput]
    decide
  refine ⟨hn, ?_, ?_⟩
  · intro e he
    rw [(Split_calls_seqLen exact noCase zeroSplitter cutRuneInput e he).1, hn]
  · obtain ⟨ws, h1, -, h2, -⟩ := Split_ok exact noCase zeroSplitter zeroSplitter_wellSized
      cutRuneInput (by decide) (fun _ => 0) rfl
    have hl : ws.flatten.length = 66 := by
      rw [h2, normalize_cutRuneInput, reencode_cutRune]
      decide
    exact ⟨ws, by rw [h1], hl, by rw [hl]; decide⟩
/-! ## The Viterbi recursion in exact arithmetic -/

theorem getD_append_left_lt (q : List Nat) (j t : Nat) (h : t < q.length) :
    (q ++ [j]).getD t 0 = q.getD t 0 := by
  simp only [List.getD_eq_getElem?_getD]
  rw [List.getElem?_append_left h]

theorem getD_append_length (q : List Nat) (j : Nat) : (q ++ [j]).getD q.length 0 = j := by
  simp only [List.getD_eq_getElem?_getD]
  rw [List.getElem?_append_right (Nat.le_refl _)]
  simp

theorem prefixScore_singleton (s : Splitter Int) (emissions : List Int) (offset j : Nat) :
    prefixScore s emissions offset [j] = startScore s j + emit emissions offset 0 j := by
  simp [prefixScore, List.range_succ]

theorem map_range_congr {β : Type} (f g : Nat → β) (n : Nat) (h : ∀ t, t < n → f t = g t) :
    (List.range n).map f = (List.range n).map g :=
  List.map_congr_left (fun t ht => h t (List.mem_range.mp ht))

/-- Extending a path by one tag adds one transition and one emission. -/
theorem prefixScore_snoc (s : Splitter Int) (emissions : List Int) (offset : Nat)
    (q : List Nat) (j : Nat) (hq : q ≠ []) :
    prefixScore s emissions offset (q ++ [j]) =
      prefixScore s emissions offset q + pairwise s (q.getD (q.length - 1) 0) j +
        emit emissions offset q.length j := by
  have hpos : 0 < q.length := List.length_pos.mpr hq
  have hlen : (q ++ [j]).length = q.length + 1 := by simp
  have h1 : (q ++ [j]).length - 1 = (q.length - 1) + 1 := by rw [hlen]; omega
  have e1 : (List.range q.length).map (fun t => emit emissions offset t ((q ++ [j]).getD t 0)) =
      (List.range q.length).map (fun t => emit emissions offset t (q.getD t 0)) :=
    map_range_congr _ _ _ (fun t ht => by rw [getD_append_left_lt q j t ht])
  have e2 : (List.range (q.length - 1)).map
        (fun t => pairwise s ((q ++ [j]).getD t 0) ((q ++ [j]).getD (t + 1) 0)) =
      (List.range (q.length - 1)).map (fun t => pairwise s (q.getD t 0) (q.getD (t + 1) 0)) :=
    map_range_congr _ _ _ (fun t ht => by
      rw [getD_append_left_lt q j t (by omega), getD_append_left_lt q j (t + 1) (by omega)])
  have e3 : (q ++ [j]).getD (q.length - 1 + 1) 0 = j := by
    rw [Nat.sub_add_cancel hpos]; exact getD_append_length q j
  simp only [prefixScore]
  rw [h1, hlen, List.range_succ, List.range_succ (n := q.length - 1)]
  simp only [List.map_append, List.sum_append, List.map_cons, List.map_nil, List.sum_cons,
    List.sum_nil]
  rw [e1, e2, getD_append_left_lt q j 0 hpos, getD_append_left_lt q j (q.length - 1) (by omega),
    e3, getD_append_length q j]
  ring

theorem isPath_snoc (n : Nat) (q' : List Nat) (h : IsPath (n + 1) q') :
    ∃ q j, q' = q ++ [j] ∧ q.length = n ∧ (∀ x ∈ q, x < 2) ∧ j < 2 ∧ q'.getD n 0 = j := by
  have hne : q' ≠ [] := by
    intro hc
    have := h.1
    rw [hc] at this
    simp at this
  refine ⟨q'.dropLast, q'.getLast hne, (List.dropLast_append_getLast hne).symm, ?_, ?_, ?_, ?_⟩
  · rw [List.length_dropLast, h.1]; rfl
  · intro x hx
    exact h.2 x (List.mem_of_mem_dropLast hx)
  · exact h.2 _ (List.getLast_mem hne)
  · have h1 : q'.dropLast.length = n := by rw [List.length_dropLast, h.1]; rfl
    have h2 := getD_append_length q'.dropLast (q'.getLast hne)
    rw [List.dropLast_append_getLast hne, h1] at h2
    exact h2

/-- The update of the running maximum in exact arithmetic: when one of the
two candidates is above the starting value, the result is the larger
candidate with its index, the lower index on a tie. -/
theorem keepBest_exact (c0 c1 : Int)
    (h : exact.negMaxFloat32 < c0 ∨ exact.negMaxFloat32 < c1) :
    keepBest exact (keepBest exact (exact.negMaxFloat32, 0) c0 0) c1 1 =
      if c0 < c1 then (c1, 1) else (c0, 0) := by
  simp only [keepBest, exact, decide_eq_true_eq] at h ⊢
  split_ifs <;> first | rfl | (exfalso; omega)

theorem transitions_pairwise (s : Splitter Int) (hs : s.WellSized) (i j : Nat)
    (hi : i < 2) (hj : j < 2) : s.transitions[i * numTags + j]? = some (pairwise s i j) := by
  have hlen : i * numTags + j < s.transitions.length := by
    rw [hs.1]; simp only [numTags]; omega
  simp only [pairwise, List.getD_eq_getElem?_getD, List.getElem?_eq_getElem hlen,
    Option.getD_some]

theorem startTransitions_startScore (s : Splitter Int) (hs : s.WellSized) (i : Nat)
    (hi : i < 2) : s.startTransitions[i]? = some (startScore s i) := by
  have hlen : i < s.startTransitions.length := by rw [hs.2.1]; exact hi
  simp only [startScore, List.getD_eq_getElem?_getD, List.getElem?_eq_getElem hlen,
    Option.getD_some]

theorem endTransitions_endScore (s : Splitter Int) (hs : s.WellSized) (i : Nat)
    (hi : i < 2) : s.endTransitions[i]? = some (endScore s i) := by
  have hlen : i < s.endTransitions.length := by rw [hs.2.2]; exact hi
  simp only [endScore, List.getD_eq_getElem?_getD, List.getElem?_eq_getElem hlen,
    Option.getD_some]

theorem emissions_emit (emissions : List Int) (offset t j : Nat)
    (h : offset + t * numTags + j < emissions.length) :
    emissions[offset + t * numTags + j]? = some (emit emissions offset t j) := by
  simp only [emit, List.getD_eq_getElem?_getD, List.getElem?_eq_getElem h, Option.getD_some]

/-- Lines 250-253 in exact arithmetic. -/
theorem initScore_exact (s : Splitter Int) (hs : s.WellSized) (emissions : List Int)
    (offset : Nat) (he : offset + 2 ≤ emissions.length) :
    initScore exact s emissions offset =
      some [startScore s 0 + emit emissions offset 0 0, startScore s 1 + emit emissions offset 0 1] := by
  have e0 := emissions_emit emissions offset 0 0 (by simp only [numTags]; omega)
  have e1 := emissions_emit emissions offset 0 1 (by simp only [numTags]; omega)
  simp only [Nat.zero_mul, Nat.add_zero] at e0 e1
  simp only [initScore, range_numTags, collect, startTransitions_startScore s hs 0 (by omega),
    startTransitions_startScore s hs 1 (by omega), e0, e1, Nat.add_zero, exact]

/-- The candidate `score[i] + pairwise[i][j] + emissions[t][j]` of line 266. -/
theorem stepTag_exact (s : Splitter Int) (hs : s.WellSized) (emissions : List Int)
    (offset t j : Nat) (m0 m1 : Int) (hj : j < 2)
    (he : offset + t * numTags + 2 ≤ emissions.length)
    (h : exact.negMaxFloat32 < m0 + pairwise s 0 j + emit emissions offset t j ∨
      exact.negMaxFloat32 < m1 + pairwise s 1 j + emit emissions offset t j) :
    stepTag exact s [m0, m1] emissions (offset + t * numTags) j =
      some (if m0 + pairwise s 0 j + emit emissions offset t j <
            m1 + pairwise s 1 j + emit emissions offset t j
        then (m1 + pairwise s 1 j + emit emissions offset t j, 1)
        else (m0 + pairwise s 0 j + emit emissions offset t j, 0)) := by
  rw [stepTag_eq exact s m0 m1 _ _ _ emissions _ j (transitions_pairwise s hs 0 j (by omega) hj)
    (transitions_pairwise s hs 1 j (by omega) hj) (emissions_emit emissions offset t j (by omega))]
  rw [← keepBest_exact _ _ h]
  rfl

/-- Lines 278-286 in exact arithmetic. -/
theorem bestLast_exact (s : Splitter Int) (hs : s.WellSized) (m0 m1 : Int)
    (h : exact.negMaxFloat32 < m0 + endScore s 0 ∨ exact.negMaxFloat32 < m1 + endScore s 1) :
    bestLast exact s [m0, m1] =
      some (if m0 + endScore s 0 < m1 + endScore s 1 then 1 else 0) := by
  have hk := keepBest_exact (m0 + endScore s 0) (m1 + endScore s 1) h
  have : iterate (lastStep exact s [m0, m1]) (exact.negMaxFloat32, 0) (List.range numTags) =
      some (keepBest exact (keepBest exact (exact.negMaxFloat32, 0) (m0 + endScore s 0) 0)
        (m1 + endScore s 1) 1) := by
    simp only [range_numTags, iterate, lastStep, endTransitions_endScore s hs 0 (by omega),
      endTransitions_endScore s hs 1 (by omega), List.getElem?_cons_zero,
      List.getElem?_cons_succ]
    rfl
  simp only [bestLast, this, hk]
  split_ifs <;> rfl

theorem getD_mem_of_lt (q : List Nat) (n : Nat) (h : n < q.length) : q.getD n 0 ∈ q := by
  simp only [List.getD_eq_getElem?_getD, List.getElem?_eq_getElem h, Option.getD_some]
  exact List.getElem_mem _

theorem pair_getD (m0 m1 : Int) (i : Nat) (hi : i < 2) :
    [m0, m1].getD i 0 = if i = 0 then m0 else m1 := by
  interval_cases i <;> rfl

/-- One tag of one position keeps the invariant: the new score of tag `j`
bounds every path that ends in `j`, and the recorded backpointer leads back
along a path that attains it. -/
theorem viterbi_tag_step (s : Splitter Int) (emissions : List Int) (offset n : Nat)
    (m0 m1 : Int) (hist : List (List Nat)) (row : List Nat)
    (hinv : ViterbiInv s emissions offset n ([m0, m1], hist)) (j : Nat) (hj : j < 2)
    (hrow : row[j]? = some (if m0 + pairwise s 0 j + emit emissions offset (n + 1) j <
      m1 + pairwise s 1 j + emit emissions offset (n + 1) j then 1 else 0)) :
    (∀ q, IsPath (n + 1 + 1) q → q.getD (n + 1) 0 = j →
      prefixScore s emissions offset q ≤
        (if m0 + pairwise s 0 j + emit emissions offset (n + 1) j <
            m1 + pairwise s 1 j + emit emissions offset (n + 1) j
          then m1 + pairwise s 1 j + emit emissions offset (n + 1) j
          else m0 + pairwise s 0 j + emit emissions offset (n + 1) j)) ∧
    (∃ q, backtraceRev (hist ++ [row]).reverse j = some q ∧ IsPath (n + 1 + 1) q ∧
      q.getD (n + 1) 0 = j ∧
      prefixScore s emissions offset q =
        (if m0 + pairwise s 0 j + emit emissions offset (n + 1) j <
            m1 + pairwise s 1 j + emit emissions offset (n + 1) j
          then m1 + pairwise s 1 j + emit emissions offset (n + 1) j
          else m0 + pairwise s 0 j + emit emissions offset (n + 1) j)) := by
  obtain ⟨a0, a1, hsc, hall⟩ := hinv
  simp only [List.cons.injEq, and_true] at hsc
  obtain ⟨rfl, rfl⟩ := hsc
  constructor
  · intro q' hq' hlast
    obtain ⟨q, j', rfl, hlen, hq2, -, hj'⟩ := isPath_snoc (n + 1) q' hq'
    rw [hlast] at hj'
    subst hj'
    have hne : q ≠ [] := by
      intro hc; rw [hc] at hlen; simp at hlen
    have hi : q.getD n 0 < 2 := hq2 _ (getD_mem_of_lt q n (by omega))
    have hb := (hall (q.getD n 0) hi).1 q ⟨hlen, hq2⟩ rfl
    rw [prefixScore_snoc s emissions offset q j hne, hlen, Nat.add_sub_cancel]
    rw [pair_getD _ _ _ hi] at hb
    have hcase : q.getD n 0 = 0 ∨ q.getD n 0 = 1 := by omega
    rcases hcase with h0 | h1
    · rw [h0] at hb ⊢
      simp only [if_true] at hb
      split_ifs <;> omega
    · rw [h1] at hb ⊢
      simp only [if_neg (by decide : ¬ (1 : Nat) = 0)] at hb
      split_ifs <;> omega
  · have hrev : (hist ++ [row]).reverse = row :: hist.reverse := by simp
    rw [hrev]
    by_cases hlt : m0 + pairwise s 0 j + emit emissions offset (n + 1) j <
        m1 + pairwise s 1 j + emit emissions offset (n + 1) j
    · rw [if_pos hlt] at hrow ⊢
      obtain ⟨q, h1, h2, h3, h4⟩ := (hall 1 (by omega)).2
      have hne : q ≠ [] := by
        intro hc; have := h2.1; rw [hc] at this; simp at this
      refine ⟨q ++ [j], by simp only [backtraceRev, hrow, h1], ?_, ?_, ?_⟩
      · refine ⟨by rw [List.length_append, h2.1]; rfl, ?_⟩
        intro x hx
        rcases List.mem_append.mp hx with hx | hx
        · exact h2.2 x hx
        · rw [List.mem_singleton.mp hx]; exact hj
      · have := getD_append_length q j
        rw [h2.1] at this
        exact this
      · rw [prefixScore_snoc s emissions offset q j hne, h2.1, Nat.add_sub_cancel, h3, h4]
        rfl
    · rw [if_neg hlt] at hrow ⊢
      obtain ⟨q, h1, h2, h3, h4⟩ := (hall 0 (by omega)).2
      have hne : q ≠ [] := by
        intro hc; have := h2.1; rw [hc] at this; simp at this
      refine ⟨q ++ [j], by simp only [backtraceRev, hrow, h1], ?_, ?_, ?_⟩
      · refine ⟨by rw [List.length_append, h2.1]; rfl, ?_⟩
        intro x hx
        rcases List.mem_append.mp hx with hx | hx
        · exact h2.2 x hx
        · rw [List.mem_singleton.mp hx]; exact hj
      · have := getD_append_length q j
        rw [h2.1] at this
        exact this
      · rw [prefixScore_snoc s emissions offset q j hne, h2.1, Nat.add_sub_cancel, h3, h4]
        rfl

/-- Some candidate of tag `j` at position `n + 1` is above the starting value
of the running maximum. -/
theorem candidate_above (s : Splitter Int) (emissions : List Int) (offset L n : Nat)
    (hW : AboveSentinel s emissions offset L) (hn : n + 1 < L) (m0 m1 : Int)
    (hist : List (List Nat)) (hinv : ViterbiInv s emissions offset n ([m0, m1], hist))
    (j : Nat) (hj : j < 2) :
    exact.negMaxFloat32 < m0 + pairwise s 0 j + emit emissions offset (n + 1) j ∨
      exact.negMaxFloat32 < m1 + pairwise s 1 j + emit emissions offset (n + 1) j := by
  obtain ⟨q', hq', hlast, habove⟩ := hW.1 (n + 1) j (by omega) hn hj
  obtain ⟨a0, a1, hsc, hall⟩ := hinv
  simp only [List.cons.injEq, and_true] at hsc
  obtain ⟨rfl, rfl⟩ := hsc
  obtain ⟨q, j', rfl, hlen, hq2, -, hj'⟩ := isPath_snoc (n + 1) q' hq'
  rw [hlast] at hj'
  subst hj'
  have hne : q ≠ [] := by
    intro hc; rw [hc] at hlen; simp at hlen
  have hi : q.getD n 0 < 2 := hq2 _ (getD_mem_of_lt q n (by omega))
  have hb := (hall (q.getD n 0) hi).1 q ⟨hlen, hq2⟩ rfl
  rw [prefixScore_snoc s emissions offset q j hne, hlen, Nat.add_sub_cancel] at habove
  rw [pair_getD _ _ _ hi] at hb
  have hcase : q.getD n 0 = 0 ∨ q.getD n 0 = 1 := by omega
  rcases hcase with h0 | h1
  · rw [h0] at hb habove
    simp only [if_true] at hb
    left; omega
  · rw [h1] at hb habove
    simp only [if_neg (by decide : ¬ (1 : Nat) = 0)] at hb
    right; omega

/-- The loop over the positions, in exact arithmetic and with every maximum
taken above the starting value, keeps `ViterbiInv`. -/
theorem forward_inv (s : Splitter Int) (hs : s.WellSized) (emissions : List Int)
    (offset L : Nat) (he : offset + L * 2 ≤ emissions.length)
    (hW : AboveSentinel s emissions offset L) :
    ∀ n, n < L → ∃ st, forward exact s emissions offset n = some st ∧
      ViterbiInv s emissions offset n st := by
  intro n
  induction n with
  | zero =>
    intro hn
    refine ⟨([startScore s 0 + emit emissions offset 0 0,
        startScore s 1 + emit emissions offset 0 1], []),
      by simp only [forward, initScore_exact s hs emissions offset (by omega)],
      _, _, rfl, ?_⟩
    intro j hj
    constructor
    · intro q hq hlast
      obtain ⟨q0, j', rfl, hlen, -, -, hj'⟩ := isPath_snoc 0 q hq
      have : q0 = [] := List.length_eq_zero.mp hlen
      subst this
      rw [hlast] at hj'
      subst hj'
      rw [List.nil_append, prefixScore_singleton, pair_getD _ _ _ hj]
      have hcase : j = 0 ∨ j = 1 := by omega
      rcases hcase with rfl | rfl <;> simp
    · refine ⟨[j], rfl, ⟨rfl, by simp [hj]⟩, rfl, ?_⟩
      rw [prefixScore_singleton, pair_getD _ _ _ hj]
      have hcase : j = 0 ∨ j = 1 := by omega
      rcases hcase with rfl | rfl <;> simp
  | succ n ih =>
    intro hn
    obtain ⟨⟨score, hist⟩, hf, hinv⟩ := ih (by omega)
    obtain ⟨m0, m1, hsc, -⟩ := id hinv
    simp only at hsc
    subst hsc
    have hem : offset + (n + 1) * numTags + 2 ≤ emissions.length := by
      simp only [numTags]; omega
    have h0 := stepTag_exact s hs emissions offset (n + 1) 0 m0 m1 (by omega) hem
      (candidate_above s emissions offset L n hW hn m0 m1 hist hinv 0 (by omega))
    have h1 := stepTag_exact s hs emissions offset (n + 1) 1 m0 m1 (by omega) hem
      (candidate_above s emissions offset L n hW hn m0 m1 hist hinv 1 (by omega))
    have hpos : stepPos exact s [m0, m1] emissions (offset + (n + 1) * numTags) =
        some ([(if m0 + pairwise s 0 0 + emit emissions offset (n + 1) 0 <
                m1 + pairwise s 1 0 + emit emissions offset (n + 1) 0
              then m1 + pairwise s 1 0 + emit emissions offset (n + 1) 0
              else m0 + pairwise s 0 0 + emit emissions offset (n + 1) 0),
            (if m0 + pairwise s 0 1 + emit emissions offset (n + 1) 1 <
                m1 + pairwise s 1 1 + emit emissions offset (n + 1) 1
              then m1 + pairwise s 1 1 + emit emissions offset (n + 1) 1
              else m0 + pairwise s 0 1 + emit emissions offset (n + 1) 1)],
          [(if m0 + pairwise s 0 0 + emit emissions offset (n + 1) 0 <
                m1 + pairwise s 1 0 + emit emissions offset (n + 1) 0 then 1 else 0),
            (if m0 + pairwise s 0 1 + emit emissions offset (n + 1) 1 <
                m1 + pairwise s 1 1 + emit emissions offset (n + 1) 1 then 1 else 0)]) := by
      simp only [stepPos, range_numTags, collect, h0, h1, List.map_cons, List.map_nil]
      congr 2
      · congr 1
        · split_ifs <;> rfl
        · congr 1
          split_ifs <;> rfl
      · congr 1
        · split_ifs <;> rfl
        · congr 1
          split_ifs <;> rfl
    refine ⟨(_, hist ++ [_]), by simp only [forward, hf, hpos]; rfl, _, _, rfl, ?_⟩
    intro j hj
    have hcase : j = 0 ∨ j = 1 := by omega
    rcases hcase with rfl | rfl
    · exact viterbi_tag_step s emissions offset n m0 m1 hist _ hinv 0 (by omega) rfl
    · exact viterbi_tag_step s emissions offset n m0 m1 hist _ hinv 1 (by omega) rfl

theorem pathScore_le_of_inv (s : Splitter Int) (emissions : List Int) (offset L : Nat)
    (hL : 1 ≤ L) (m0 m1 : Int) (hist : List (List Nat))
    (hinv : ViterbiInv s emissions offset (L - 1) ([m0, m1], hist)) (q : List Nat)
    (hq : IsPath L q) :
    pathScore s emissions offset q ≤
      if q.getD (L - 1) 0 = 0 then m0 + endScore s 0 else m1 + endScore s 1 := by
  obtain ⟨a0, a1, hsc, hall⟩ := hinv
  simp only [List.cons.injEq, and_true] at hsc
  obtain ⟨rfl, rfl⟩ := hsc
  have hi : q.getD (L - 1) 0 < 2 := hq.2 _ (getD_mem_of_lt q (L - 1) (by rw [hq.1]; omega))
  have hb := (hall (q.getD (L - 1) 0) hi).1 q (by rw [Nat.sub_add_cancel hL]; exact hq) rfl
  rw [pair_getD _ _ _ hi] at hb
  simp only [pathScore, hq.1]
  have hcase : q.getD (L - 1) 0 = 0 ∨ q.getD (L - 1) 0 = 1 := by omega
  rcases hcase with h0 | h1
  · rw [h0] at hb ⊢
    simp only [if_true] at hb ⊢
    omega
  · rw [h1] at hb ⊢
    simp only [if_neg (by decide : ¬ (1 : Nat) = 0)] at hb ⊢
    omega

/-- The path of one sequence is optimal, in exact arithmetic, when every
maximum is taken above the starting value of the running maximum. -/
theorem crfDecodeOne_optimal (s : Splitter Int) (hs : s.WellSized) (emissions : List Int)
    (offset L : Nat) (hL : 1 ≤ L) (he : offset + L * 2 ≤ emissions.length)
    (hW : AboveSentinel s emissions offset L) :
    ∃ p, crfDecodeOne exact s emissions offset L = some p ∧ IsPath L p ∧
      ∀ q, IsPath L q → pathScore s emissions offset q ≤ pathScore s emissions offset p := by
  obtain ⟨⟨score, hist⟩, hf, hinv⟩ := forward_inv s hs emissions offset L he hW (L - 1) (by omega)
  obtain ⟨m0, m1, hsc, hall⟩ := id hinv
  simp only at hsc
  subst hsc
  obtain ⟨q0, hq0, habove⟩ := hW.2
  have hq0le := pathScore_le_of_inv s emissions offset L hL m0 m1 hist hinv q0 hq0
  have hlast := bestLast_exact s hs m0 m1 (by
    split_ifs at hq0le
    · left; omega
    · right; omega)
  by_cases hlt : m0 + endScore s 0 < m1 + endScore s 1
  · rw [if_pos hlt] at hlast
    obtain ⟨p, h1, h2, h3, h4⟩ := (hall 1 (by omega)).2
    rw [Nat.sub_add_cancel hL] at h2
    refine ⟨p, ?_, h2, ?_⟩
    · simp only [crfDecodeOne, if_neg (by omega : ¬ L = 0), hf, hlast, backtrace, h1]
    · intro q hq
      have hb := pathScore_le_of_inv s emissions offset L hL m0 m1 hist hinv q hq
      have hp : pathScore s emissions offset p = m1 + endScore s 1 := by
        simp only [pathScore, h2.1, h3, h4]
        rfl
      rw [hp]
      split_ifs at hb <;> omega
  · rw [if_neg hlt] at hlast
    obtain ⟨p, h1, h2, h3, h4⟩ := (hall 0 (by omega)).2
    rw [Nat.sub_add_cancel hL] at h2
    refine ⟨p, ?_, h2, ?_⟩
    · simp only [crfDecodeOne, if_neg (by omega : ¬ L = 0), hf, hlast, backtrace, h1]
    · intro q hq
      have hb := pathScore_le_of_inv s emissions offset L hL m0 m1 hist hinv q hq
      have hp : pathScore s emissions offset p = m0 + endScore s 0 := by
        simp only [pathScore, h2.1, h3, h4]
        rfl
      rw [hp]
      split_ifs at hb <;> omega

/-- Claim C3, as amended.  Path optimality in exact arithmetic: for a batch
of `B` sequences of length `L ≥ 1`, tables of sizes 2, 2 and 4 and an
emissions array of `B*L*2` scores, the path `crfDecodeBatch` returns for
sequence `b` has a total score
`start[p0] + sum of emissions[t][pt] + sum of pairwise[p(t-1)][pt] + end[p(L-1)]`
greater than or equal to that of every one of the `2^L` tag paths, provided
every maximum the decoder takes is over scores one of which is above
`-math.MaxFloat32`, the value its running maximum starts from. -/
theorem crfDecode_optimal_above_sentinel (s : Splitter Int) (hs : s.WellSized)
    (emissions : List Int) (B L b : Nat) (hL : 1 ≤ L) (hb : b < B)
    (hem : emissions.length = B * L * numTags)
    (hW : AboveSentinel s emissions (b * L * numTags) L) :
    ∃ preds p, crfDecodeBatch exact s emissions B L = some preds ∧ preds[b]? = some p ∧
      IsPath L p ∧
      ∀ q, IsPath L q →
        pathScore s emissions (b * L * numTags) q ≤ pathScore s emissions (b * L * numTags) p := by
  obtain ⟨preds, h1, -, h3⟩ := crfDecodeBatch_some exact s hs emissions B L hL
    (by rw [hem]; simp only [numTags]; omega)
  obtain ⟨p, h4, h5, -⟩ := h3 b hb
  have hfit : b * L * numTags + L * 2 ≤ emissions.length := by
    have h1 : (b + 1) * L * 2 ≤ B * L * 2 := Nat.mul_le_mul_right 2 (Nat.mul_le_mul_right L hb)
    have h2 : (b + 1) * L * 2 = b * L * 2 + L * 2 := by ring
    rw [hem]
    simp only [numTags]
    omega
  obtain ⟨p', h6, h7, h8⟩ := crfDecodeOne_optimal s hs emissions (b * L * numTags) L hL hfit hW
  rw [h5] at h6
  cases Option.some.inj h6
  exact ⟨preds, p, h1, h4, h7, h8⟩

theorem sampleSplitter_wellSized : sampleSplitter.WellSized := ⟨rfl, rfl, rfl⟩

theorem crfDecode_optimal_above_sentinel_witness :
    ∃ preds p, crfDecodeBatch exact sampleSplitter [0, 0, 0, 0, 0, 0, 1, 4, -3, 0, 2, 2] 2 3
        = some preds ∧ preds[1]? = some p ∧ IsPath 3 p ∧
      ∀ q, IsPath 3 q →
        pathScore sampleSplitter [0, 0, 0, 0, 0, 0, 1, 4, -3, 0, 2, 2] (1 * 3 * numTags) q ≤
          pathScore sampleSplitter [0, 0, 0, 0, 0, 0, 1, 4, -3, 0, 2, 2] (1 * 3 * numTags) p :=
  crfDecode_optimal_above_sentinel sampleSplitter sampleSplitter_wellSized
    [0, 0, 0, 0, 0, 0, 1, 4, -3, 0, 2, 2] 2 3 1 (by decide) (by decide) (by decide)
    ⟨fun t j h1 h2 h3 => ⟨List.replicate (t + 1) j,
        ⟨by simp, fun x hx => by rw [List.eq_of_mem_replicate hx]; exact h3⟩,
        by
          have ht : t = 1 ∨ t = 2 := by omega
          have hj : j = 0 ∨ j = 1 := by omega
          rcases ht with rfl | rfl <;> rcases hj with rfl | rfl <;> decide,
        by
          have ht : t = 1 ∨ t = 2 := by omega
          have hj : j = 0 ∨ j = 1 := by omega
          rcases ht with rfl | rfl <;> rcases hj with rfl | rfl <;> decide⟩,
      ⟨[0, 0, 0], ⟨rfl, by decide⟩, by decide⟩⟩

/-- Claim C3 as stated fails: with both start scores `-math.MaxFloat32` and
the emissions `-math.MaxFloat32` for tag 0 and 0 for tag 1 at the one
position, the total of the path `[0]` is twice `-math.MaxFloat32` (in
`float32` the sum overflows to minus infinity) and the total of the path
`[1]` is `-math.MaxFloat32`; neither is greater than the starting value of
the running maximum, so the decoder returns the path `[0]`, and the path
`[1]` scores more. -/
theorem crfDecode_not_optimal_below_sentinel :
    crfDecodeBatch exact lowStartSplitter [-maxFloat32Units, 0] 1 1 = some [[0]] ∧
    IsPath 1 [1] ∧
    pathScore lowStartSplitter [-maxFloat32Units, 0] 0 [0] <
      pathScore lowStartSplitter [-maxFloat32Units, 0] 0 [1] := by
  refine ⟨by decide, ⟨rfl, by decide⟩, by decide⟩
/-! ## The tie-break of the decoder -/

theorem stepPos_rows {α : Type} (F : Float32Ops α) (s : Splitter α) (score emissions : List α)
    (emitOffset : Nat) (newScore : List α) (row : List Nat)
    (h : stepPos F s score emissions emitOffset = some (newScore, row)) (j : Nat) (hj : j < 2) :
    ∃ r, stepTag F s score emissions emitOffset j = some r ∧ row[j]? = some r.2 ∧
      newScore[j]? = some r.1 := by
  simp only [stepPos, range_numTags, collect] at h
  cases h0 : stepTag F s score emissions emitOffset 0 with
  | none => rw [h0] at h; exact Option.noConfusion h
  | some r0 =>
    cases h1 : stepTag F s score emissions emitOffset 1 with
    | none => rw [h0, h1] at h; exact Option.noConfusion h
    | some r1 =>
      rw [h0, h1] at h
      simp only [List.map_cons, List.map_nil, Option.some.injEq, Prod.mk.injEq] at h
      obtain ⟨rfl, rfl⟩ := h
      have hcase : j = 0 ∨ j = 1 := by omega
      rcases hcase with rfl | rfl
      · exact ⟨r0, h0, rfl, rfl⟩
      · exact ⟨r1, h1, rfl, rfl⟩

theorem lowestArgmax_of_lt (f : Nat → Int) : LowestArgmax f (if f 0 < f 1 then 1 else 0) := by
  have hcases : ∀ i, i < 2 → i = 0 ∨ i = 1 := fun i hi => by omega
  by_cases h : f 0 < f 1
  · rw [if_pos h]
    refine ⟨by omega, ?_, ?_⟩
    · intro i hi
      rcases hcases i hi with rfl | rfl <;> omega
    · intro i hi he
      rcases hcases i hi with rfl | rfl <;> omega
  · rw [if_neg h]
    refine ⟨by omega, ?_, ?_⟩
    · intro i hi
      rcases hcases i hi with rfl | rfl <;> omega
    · intro i _ _
      omega

/-- One position of the loop in exact arithmetic, every maximum taken above
the starting value: the new scores and the row of backpointers. -/
theorem forward_succ_exact (s : Splitter Int) (hs : s.WellSized) (emissions : List Int)
    (offset n : Nat) (m0 m1 : Int) (hist : List (List Nat))
    (hf : forward exact s emissions offset n = some ([m0, m1], hist))
    (hem : offset + (n + 1) * numTags + 2 ≤ emissions.length)
    (h0 : exact.negMaxFloat32 < m0 + pairwise s 0 0 + emit emissions offset (n + 1) 0 ∨
      exact.negMaxFloat32 < m1 + pairwise s 1 0 + emit emissions offset (n + 1) 0)
    (h1 : exact.negMaxFloat32 < m0 + pairwise s 0 1 + emit emissions offset (n + 1) 1 ∨
      exact.negMaxFloat32 < m1 + pairwise s 1 1 + emit emissions offset (n + 1) 1) :
    forward exact s emissions offset (n + 1) =
      some ([(if m0 + pairwise s 0 0 + emit emissions offset (n + 1) 0 <
                m1 + pairwise s 1 0 + emit emissions offset (n + 1) 0
              then m1 + pairwise s 1 0 + emit emissions offset (n + 1) 0
              else m0 + pairwise s 0 0 + emit emissions offset (n + 1) 0),
            (if m0 + pairwise s 0 1 + emit emissions offset (n + 1) 1 <
                m1 + pairwise s 1 1 + emit emissions offset (n + 1) 1
              then m1 + pairwise s 1 1 + emit emissions offset (n + 1) 1
              else m0 + pairwise s 0 1 + emit emissions offset (n + 1) 1)],
          hist ++ [[(if m0 + pairwise s 0 0 + emit emissions offset (n + 1) 0 <
                m1 + pairwise s 1 0 + emit emissions offset (n + 1) 0 then 1 else 0),
            (if m0 + pairwise s 0 1 + emit emissions offset (n + 1) 1 <
                m1 + pairwise s 1 1 + emit emissions offset (n + 1) 1 then 1 else 0)]]) := by
  have e0 := stepTag_exact s hs emissions offset (n + 1) 0 m0 m1 (by omega) hem h0
  have e1 := stepTag_exact s hs emissions offset (n + 1) 1 m0 m1 (by omega) hem h1
  simp only [forward, hf, stepPos, range_numTags, collect, e0, e1, List.map_cons, List.map_nil]
  congr 2
  · congr 1
    · split_ifs <;> rfl
    · congr 1
      split_ifs <;> rfl
  · congr 2
    congr 1
    · split_ifs <;> rfl
    · congr 1
      split_ifs <;> rfl

/-- The total score of a path splits into the score of a prefix and the
score of the rest. -/
theorem pathScore_append (s : Splitter Int) (emissions : List Int) (offset : Nat) :
    ∀ (rest q : List Nat), q ≠ [] →
      pathScore s emissions offset (q ++ rest) =
        prefixScore s emissions offset q +
          tailScore s emissions offset (q.getD (q.length - 1) 0) q.length rest := by
  intro rest
  induction rest with
  | nil =>
    intro q _
    simp only [List.append_nil, tailScore, pathScore]
  | cons j rest ih =>
    intro q hq
    have h := ih (q ++ [j]) (by simp)
    rw [List.append_assoc, List.singleton_append] at h
    rw [h, prefixScore_snoc s emissions offset q j hq]
    have hl : (q ++ [j]).length - 1 = q.length := by simp
    have hlen : (q ++ [j]).length = q.length + 1 := by simp
    rw [hl, getD_append_length, hlen]
    simp only [tailScore]
    ring

theorem backtraceRev_zero (n : Nat) :
    backtraceRev (List.replicate n [0, 0]) 0 = some (List.replicate (n + 1) 0) := by
  induction n with
  | zero => rfl
  | succ n ih =>
    simp only [List.replicate_succ, backtraceRev, List.getElem?_cons_zero, ih]
    congr 1
    rw [List.cons_append, ← List.replicate_succ', List.replicate_succ]

/-- When all paths have the same total score, the two candidates of every
maximum over the source tag are equal. -/
theorem tie_of_equal_totals (s : Splitter Int) (emissions : List Int) (offset L n : Nat)
    (hn : n + 1 < L) (m0 m1 : Int) (hist : List (List Nat))
    (hinv : ViterbiInv s emissions offset n ([m0, m1], hist))
    (hEq : ∀ q q', IsPath L q → IsPath L q' →
      pathScore s emissions offset q = pathScore s emissions offset q')
    (j : Nat) (hj : j < 2) :
    m0 + pairwise s 0 j + emit emissions offset (n + 1) j =
      m1 + pairwise s 1 j + emit emissions offset (n + 1) j := by
  obtain ⟨a0, a1, hsc, hall⟩ := hinv
  simp only [List.cons.injEq, and_true] at hsc
  obtain ⟨rfl, rfl⟩ := hsc
  have key : ∀ i, i < 2 → ∃ q, IsPath (n + 1) q ∧
      pathScore s emissions offset ((q ++ [j]) ++ List.replicate (L - (n + 2)) 0) =
        [m0, m1].getD i 0 + pairwise s i j + emit emissions offset (n + 1) j +
          tailScore s emissions offset j (n + 2) (List.replicate (L - (n + 2)) 0) := by
    intro i hi
    obtain ⟨q, -, h2, h3, h4⟩ := (hall i hi).2
    have hne : q ≠ [] := by
      intro hc; have := h2.1; rw [hc] at this; simp at this
    refine ⟨q, h2, ?_⟩
    have hlen : (q ++ [j]).length = n + 2 := by rw [List.length_append, h2.1]; rfl
    have hlast : (q ++ [j]).getD (n + 2 - 1) 0 = j := by
      have := getD_append_length q j
      rw [h2.1] at this
      exact this
    rw [pathScore_append s emissions offset _ (q ++ [j]) (by simp), hlen, hlast,
      prefixScore_snoc s emissions offset q j hne, h2.1, Nat.add_sub_cancel, h3, h4]
  have hpath : ∀ q, IsPath (n + 1) q →
      IsPath L ((q ++ [j]) ++ List.replicate (L - (n + 2)) 0) := by
    intro q hq
    refine ⟨by simp only [List.length_append, List.length_replicate, hq.1,
      List.length_singleton]; omega, ?_⟩
    intro x hx
    simp only [List.mem_append, List.mem_singleton] at hx
    rcases hx with (hx | rfl) | hx
    · exact hq.2 x hx
    · exact hj
    · rw [List.eq_of_mem_replicate hx]; omega
  obtain ⟨q0, hq0, e0⟩ := key 0 (by omega)
  obtain ⟨q1, hq1, e1⟩ := key 1 (by omega)
  have := hEq _ _ (hpath q0 hq0) (hpath q1 hq1)
  rw [e0, e1] at this
  simp only [List.getD_cons_zero, List.getD_cons_succ] at this
  omega

/-- When all paths have the same total score, the two candidates of the last
maximum are equal. -/
theorem final_tie_of_equal_totals (s : Splitter Int) (emissions : List Int) (offset L : Nat)
    (hL : 1 ≤ L) (m0 m1 : Int) (hist : List (List Nat))
    (hinv : ViterbiInv s emissions offset (L - 1) ([m0, m1], hist))
    (hEq : ∀ q q', IsPath L q → IsPath L q' →
      pathScore s emissions offset q = pathScore s emissions offset q') :
    m0 + endScore s 0 = m1 + endScore s 1 := by
  obtain ⟨a0, a1, hsc, hall⟩ := hinv
  simp only [List.cons.injEq, and_true] at hsc
  obtain ⟨rfl, rfl⟩ := hsc
  obtain ⟨q0, -, h2, h3, h4⟩ := (hall 0 (by omega)).2
  obtain ⟨q1, -, k2, k3, k4⟩ := (hall 1 (by omega)).2
  rw [Nat.sub_add_cancel hL] at h2 k2
  have := hEq q0 q1 h2 k2
  simp only [pathScore, h2.1, k2.1, h3, k3, h4, k4, List.getD_cons_zero,
    List.getD_cons_succ] at this
  exact this

/-- When all paths have the same total score and every maximum is taken above
the starting value, every backpointer recorded is 0. -/
theorem forward_all_ties (s : Splitter Int) (hs : s.WellSized) (emissions : List Int)
    (offset L : Nat) (he : offset + L * 2 ≤ emissions.length)
    (hW : AboveSentinel s emissions offset L)
    (hEq : ∀ q q', IsPath L q → IsPath L q' →
      pathScore s emissions offset q = pathScore s emissions offset q') :
    ∀ n, n < L → ∃ m0 m1,
      forward exact s emissions offset n = some ([m0, m1], List.replicate n [0, 0]) ∧
      ViterbiInv s emissions offset n ([m0, m1], List.replicate n [0, 0]) := by
  intro n
  induction n with
  | zero =>
    intro hn
    obtain ⟨st, hf, hinv⟩ := forward_inv s hs emissions offset L he hW 0 hn
    have hf' : forward exact s emissions offset 0 =
        some ([startScore s 0 + emit emissions offset 0 0,
          startScore s 1 + emit emissions offset 0 1], []) := by
      simp only [forward, initScore_exact s hs emissions offset (by omega)]
    rw [hf'] at hf
    cases Option.some.inj hf
    exact ⟨_, _, hf', hinv⟩
  | succ n ih =>
    intro hn
    obtain ⟨m0, m1, hf, hinv⟩ := ih (by omega)
    have hem : offset + (n + 1) * numTags + 2 ≤ emissions.length := by
      simp only [numTags]; omega
    have hstep := forward_succ_exact s hs emissions offset n m0 m1 _ hf hem
      (candidate_above s emissions offset L n hW hn m0 m1 _ hinv 0 (by omega))
      (candidate_above s emissions offset L n hW hn m0 m1 _ hinv 1 (by omega))
    have t0 := tie_of_equal_totals s emissions offset L n hn m0 m1 _ hinv hEq 0 (by omega)
    have t1 := tie_of_equal_totals s emissions offset L n hn m0 m1 _ hinv hEq 1 (by omega)
    rw [if_neg (by omega), if_neg (by omega), if_neg (by omega), if_neg (by omega),
      ← List.replicate_succ'] at hstep
    obtain ⟨st, hf2, hinv2⟩ := forward_inv s hs emissions offset L he hW (n + 1) hn
    rw [hstep] at hf2
    cases Option.some.inj hf2
    exact ⟨_, _, hstep, hinv2⟩

/-- In exact arithmetic, for tables of sizes 2, 2 and 4 and a sequence of
length `L ≥ 1` whose emissions are in the buffer: for every position `t ≥ 1`
and tag `j` the backpointer recorded in `history[t-1][j]` is a tag, and it
is the lowest tag `i` among those that maximise
`score[t-1][i] + pairwise[i][j]` provided one of the two candidates
`score[t-1][i] + pairwise[i][j] + emissions[t][j]` is above
`-math.MaxFloat32`; the final tag `bestLast` is the lowest `i` among those
that maximise `score[L-1][i] + end[i]` provided one of these two sums is
above `-math.MaxFloat32`; and when all paths have the same total score and
every maximum is taken above `-math.MaxFloat32`, the path returned is all 0
tags. -/
theorem lowest_argmax_exact (s : Splitter Int) (hs : s.WellSized)
    (emissions : List Int) (offset L : Nat) (hL : 1 ≤ L)
    (he : offset + L * numTags ≤ emissions.length) :
    (∀ t j, 1 ≤ t → t < L → j < 2 →
      ∃ m0 m1 hist score' row a,
        forward exact s emissions offset (t - 1) = some ([m0, m1], hist) ∧
        forward exact s emissions offset t = some (score', hist ++ [row]) ∧
        row[j]? = some a ∧ a < 2 ∧
        ((exact.negMaxFloat32 < m0 + pairwise s 0 j + emit emissions offset t j ∨
          exact.negMaxFloat32 < m1 + pairwise s 1 j + emit emissions offset t j) →
          LowestArgmax (fun i => [m0, m1].getD i 0 + pairwise s i j) a)) ∧
    (∃ m0 m1 hist last,
      forward exact s emissions offset (L - 1) = some ([m0, m1], hist) ∧
      bestLast exact s [m0, m1] = some last ∧ last < 2 ∧
      ((exact.negMaxFloat32 < m0 + endScore s 0 ∨ exact.negMaxFloat32 < m1 + endScore s 1) →
        LowestArgmax (fun i => [m0, m1].getD i 0 + endScore s i) last)) ∧
    (AboveSentinel s emissions offset L →
      (∀ q q', IsPath L q → IsPath L q' →
        pathScore s emissions offset q = pathScore s emissions offset q') →
      crfDecodeOne exact s emissions offset L = some (List.replicate L 0)) := by
  simp only [numTags] at he
  refine ⟨?_, ?_, ?_⟩
  · intro t j ht1 htL hj
    obtain ⟨n, rfl⟩ : ∃ n, t = n + 1 := ⟨t - 1, by omega⟩
    obtain ⟨⟨score, hist⟩, hf, hg1, -, -⟩ := forward_some exact s hs emissions offset n (by omega)
    obtain ⟨m0, m1, hsc⟩ := List.length_eq_two.mp hg1
    simp only at hsc
    subst hsc
    obtain ⟨ns, row, hp, -, -, hrow⟩ := stepPos_some exact s hs [m0, m1] emissions
      (offset + (n + 1) * numTags) rfl (by simp only [numTags]; omega)
    obtain ⟨r, hr1, hr2, -⟩ := stepPos_rows exact s _ _ _ ns row hp j hj
    refine ⟨m0, m1, hist, ns, row, r.2, by rw [Nat.add_sub_cancel]; exact hf,
      by simp only [forward, hf, hp], hr2, hrow _ (List.getElem?_mem hr2), ?_⟩
    intro habove
    rw [stepTag_exact s hs emissions offset (n + 1) j m0 m1 hj
      (by simp only [numTags]; omega) habove] at hr1
    have hr : r.2 = if (fun i => [m0, m1].getD i 0 + pairwise s i j) 0 <
        (fun i => [m0, m1].getD i 0 + pairwise s i j) 1 then 1 else 0 := by
      rw [← Option.some.inj hr1]
      simp only [List.getD_cons_zero, List.getD_cons_succ]
      split_ifs <;> first | rfl | (exfalso; omega)
    rw [hr]
    exact lowestArgmax_of_lt _
  · obtain ⟨⟨score, hist⟩, hf, hg1, -, -⟩ :=
      forward_some exact s hs emissions offset (L - 1) (by rw [Nat.sub_add_cancel hL]; exact he)
    obtain ⟨m0, m1, hsc⟩ := List.length_eq_two.mp hg1
    simp only at hsc
    subst hsc
    obtain ⟨last, hl1, hl2⟩ := bestLast_some exact s hs [m0, m1] rfl
    refine ⟨m0, m1, hist, last, hf, hl1, hl2, ?_⟩
    intro habove
    rw [bestLast_exact s hs m0 m1 habove] at hl1
    rw [← Option.some.inj hl1]
    exact lowestArgmax_of_lt (fun i => [m0, m1].getD i 0 + endScore s i)
  · intro hW hEq
    obtain ⟨m0, m1, hf, hinv⟩ := forward_all_ties s hs emissions offset L he hW hEq (L - 1)
      (by omega)
    have htie := final_tie_of_equal_totals s emissions offset L hL m0 m1 _ hinv hEq
    obtain ⟨q0, hq0, habove⟩ := hW.2
    have hq0le := pathScore_le_of_inv s emissions offset L hL m0 m1 _ hinv q0 hq0
    have hlast := bestLast_exact s hs m0 m1 (by
      split_ifs at hq0le
      · left; omega
      · right; omega)
    rw [if_neg (by omega)] at hlast
    simp only [crfDecodeOne, if_neg (by omega : ¬ L = 0), hf, hlast, backtrace,
      List.reverse_replicate, backtraceRev_zero, Nat.sub_add_cancel hL]

theorem zero_table_getD (k : Nat) : ([0, 0, 0, 0] : List Int).getD k 0 = 0 := by
  rcases k with _ | _ | _ | _ | _ <;> rfl

theorem pathScore_zero (k offset : Nat) (q : List Nat) :
    prefixScore zeroSplitter (List.replicate k 0) offset q = 0 ∧
      pathScore zeroSplitter (List.replicate k 0) offset q = 0 := by
  have hem : ∀ t j, emit (List.replicate k 0) offset t j = 0 := by
    intro t j
    simp only [emit, List.getD_eq_getElem?_getD, List.getElem?_replicate]
    split_ifs <;> rfl
  have hpw : ∀ i j, pairwise zeroSplitter i j = 0 := fun i j => zero_table_getD _
  have hst : ∀ i, startScore zeroSplitter i = 0 := by
    intro i
    rcases i with _ | _ | _ <;> rfl
  have hen : ∀ i, endScore zeroSplitter i = 0 := by
    intro i
    rcases i with _ | _ | _ <;> rfl
  have hp : prefixScore zeroSplitter (List.replicate k 0) offset q = 0 := by
    simp [prefixScore, hem, hpw, hst]
  exact ⟨hp, by simp [pathScore, hp, hen]⟩
/-! ## Construction -/

theorem loadFloat32Bin_eq_none {α : Type} (W : World α) (dir : List Nat) (f : ModelFile) :
    loadFloat32Bin W dir f = none ↔ W.readFile dir f = none := by
  simp only [loadFloat32Bin]
  cases W.readFile dir f <;> simp

theorem loadFloat32Bin_length {α : Type} (W : World α) (dir : List Nat) (f : ModelFile)
    (xs : List α) (h : loadFloat32Bin W dir f = some xs) :
    ∃ data, W.readFile dir f = some data ∧ xs.length = data.length / 4 := by
  simp only [loadFloat32Bin] at h
  cases hd : W.readFile dir f with
  | none => rw [hd] at h; exact Option.noConfusion h
  | some data =>
    rw [hd] at h
    simp only [Option.some.injEq] at h
    exact ⟨data, rfl, by rw [← h]; simp⟩

/-- Claim C8, as amended.  `New` returns an error exactly when the runtime
does not initialise, the session cannot be created, or one of
`transitions.bin`, `start_transitions.bin`, `end_transitions.bin` cannot be
read.  It checks no size: the splitter it returns holds, for each file,
`len(data)/4` values (rounded down), whatever that number is; the tables have
the sizes 4, 2 and 2 exactly when the files hold 16..19, 8..11 and 8..11
bytes. -/
theorem New_fails_iff_unreadable {α : Type} (W : World α) (modelDir : List Nat) :
    ((∃ e, New W modelDir = .error e) ↔
      (W.initORT = false ∨ W.newSession modelDir = none ∨
        W.readFile modelDir .transitions = none ∨
        W.readFile modelDir .startTransitions = none ∨
        W.readFile modelDir .endTransitions = none)) ∧
    (∀ s, New W modelDir = .ok s →
      ∃ d1 d2 d3, W.readFile modelDir .transitions = some d1 ∧
        W.readFile modelDir .startTransitions = some d2 ∧
        W.readFile modelDir .endTransitions = some d3 ∧
        s.transitions.length = d1.length / 4 ∧
        s.startTransitions.length = d2.length / 4 ∧
        s.endTransitions.length = d3.length / 4 ∧
        (s.WellSized ↔ (16 ≤ d1.length ∧ d1.length < 20) ∧ (8 ≤ d2.length ∧ d2.length < 12) ∧
          (8 ≤ d3.length ∧ d3.length < 12))) := by
  unfold New
  by_cases hi : W.initORT = false
  · simp [hi]
  · simp only [if_neg hi]
    cases hs : W.newSession modelDir with
    | none => simp [hi]
    | some session =>
      cases h1 : loadFloat32Bin W modelDir .transitions with
      | none =>
        have := (loadFloat32Bin_eq_none W modelDir .transitions).mp h1
        simp [hi, this]
      | some t1 =>
        cases h2 : loadFloat32Bin W modelDir .startTransitions with
        | none =>
          have := (loadFloat32Bin_eq_none W modelDir .startTransitions).mp h2
          simp [hi, this]
        | some t2 =>
          cases h3 : loadFloat32Bin W modelDir .endTransitions with
          | none =>
            have := (loadFloat32Bin_eq_none W modelDir .endTransitions).mp h3
            simp [hi, this]
          | some t3 =>
            obtain ⟨d1, e1, l1⟩ := loadFloat32Bin_length W modelDir _ t1 h1
            obtain ⟨d2, e2, l2⟩ := loadFloat32Bin_length W modelDir _ t2 h2
            obtain ⟨d3, e3, l3⟩ := loadFloat32Bin_length W modelDir _ t3 h3
            constructor
            · simp [hi, e1, e2, e3]
            · intro s hs'
              simp only [Except.ok.injEq] at hs'
              subst hs'
              refine ⟨d1, d2, d3, e1, e2, e3, l1, l2, l3, ?_⟩
              simp only [Splitter.WellSized, l1, l2, l3, numTags]
              omega

/-- Claim C8 as stated fails: with a `transitions.bin` of 8 bytes, which
holds two values and not four, `New` returns a splitter, and its pairwise
table has two entries. -/
theorem New_accepts_missized_table :
    ∃ s, New shortTableWorld [] = .ok s ∧ s.transitions.length = 2 ∧ ¬ s.WellSized := by
  refine ⟨_, rfl, rfl, ?_⟩
  intro h
  have := h.1
  revert this
  decide
/-! ## The word assembler: position 0, and where words are cut -/

theorem wordsLoop_congr (preds preds' : List Nat) (fuel : Nat) :
    ∀ (rest : List Nat) (i : Nat) (st : List (List Nat) × List Nat),
      (∀ k, i ≤ k → preds[k]? = preds'[k]?) →
      wordsLoop preds fuel rest i st = wordsLoop preds' fuel rest i st := by
  induction fuel with
  | zero =>
    intro rest i st _
    rcases rest with _ | ⟨b, rest⟩ <;> rfl
  | succ fuel ih =>
    intro rest i st h
    rcases rest with _ | ⟨b, rest⟩
    · rfl
    · simp only [wordsLoop, h i (Nat.le_refl _)]
      cases preds'[i]? with
      | none => rfl
      | some p => exact ih _ _ _ (fun k hk => h k (by omega))

/-- The first step of the loop of `decodeToWords`: the buffer is empty, so
nothing is flushed whatever the tag is. -/
theorem wordsLoop_first (preds : List Nat) (fuel : Nat) (b : Nat) (rest : List Nat) (p : Nat)
    (h : preds[0]? = some p) :
    wordsLoop preds (fuel + 1) (b :: rest) 0 ([], []) =
      wordsLoop preds fuel ((b :: rest).drop (decodeRune (b :: rest)).2)
        (decodeRune (b :: rest)).2 ([], encodeRune (decodeRune (b :: rest)).1) := by
  simp only [wordsLoop, h, List.length_nil, gt_iff_lt, Nat.lt_irrefl, and_false, if_false,
    List.nil_append, Nat.zero_add]

/-- The first word, or the buffer while there is no word yet, keeps the
bytes it starts with. -/
theorem wordsLoop_head (preds : List Nat) (enc : List Nat) (fuel : Nat) :
    ∀ (rest : List Nat) (i : Nat) (st st' : List (List Nat) × List Nat),
      wordsLoop preds fuel rest i st = some st' →
      (∃ h tail, st.1 ++ [st.2] = h :: tail ∧ enc <+: h) →
      ∃ h tail, st'.1 ++ [st'.2] = h :: tail ∧ enc <+: h := by
  induction fuel with
  | zero =>
    intro rest i st st' hrun hst
    rcases rest with _ | ⟨b, rest⟩
    · simp only [wordsLoop, Option.some.injEq] at hrun
      rw [← hrun]; exact hst
    · simp [wordsLoop] at hrun
  | succ fuel ih =>
    intro rest i st st' hrun hst
    rcases rest with _ | ⟨b, rest⟩
    · simp only [wordsLoop, Option.some.injEq] at hrun
      rw [← hrun]; exact hst
    · simp only [wordsLoop] at hrun
      cases hp : preds[i]? with
      | none => rw [hp] at hrun; exact Option.noConfusion hrun
      | some p =>
        rw [hp] at hrun
        refine ih _ _ _ st' hrun ?_
        obtain ⟨h, tail, h1, h2⟩ := hst
        split_ifs
        · exact ⟨h, tail ++ [[] ++ encodeRune (decodeRune (b :: rest)).1],
            by simp only [h1, List.cons_append], h2⟩
        · rcases hw : st.1 with _ | ⟨w, ws⟩
          · rw [hw] at h1
            simp only [List.nil_append, List.cons.injEq] at h1
            refine ⟨st.2 ++ encodeRune (decodeRune (b :: rest)).1, [], by simp, ?_⟩
            rw [h1.1]
            exact List.IsPrefix.trans h2 (List.prefix_append _ _)
          · rw [hw] at h1
            simp only [List.cons_append, List.cons.injEq] at h1
            exact ⟨h, ws ++ [st.2 ++ encodeRune (decodeRune (b :: rest)).1],
              by simp [h1.1], h2⟩

/-- Claim C11.  The tag at position 0 never triggers a flush.  For a text
that is not empty and two tag sequences of the same length that agree at
every position except position 0, `decodeToWords` returns the same for both.
With a tag for every byte offset it returns at least one word, and the first
word starts with the first character of the text as the `range` loop reads it
(written back by `WriteRune`); that is with the first bytes of the text
whenever these are a valid encoding, in particular with the first byte when
it is ASCII. -/
theorem position_zero_never_flushes (text preds preds' : List Nat) (hne : text ≠ [])
    (hlen : preds.length = preds'.length)
    (hagree : ∀ i, 1 ≤ i → preds[i]? = preds'[i]?) :
    decodeToWords text preds = decodeToWords text preds' ∧
    (text.length ≤ preds.length →
      ∃ first rest, decodeToWords text preds = some (first :: rest) ∧
        encodeRune (decodeRune text).1 <+: first ∧
        (¬ ((decodeRune text).1 = runeError ∧ (decodeRune text).2 = 1) →
          text.take (decodeRune text).2 <+: first) ∧
        (∀ c, text.head? = some c → c < 128 → first.head? = some c)) := by
  obtain ⟨b, rest, rfl⟩ := List.exists_cons_of_ne_nil hne
  have hw := decodeRune_width b rest
  constructor
  · simp only [decodeToWords, List.length_cons]
    rcases preds with _ | ⟨p, ps⟩
    · have : preds' = [] := List.length_eq_zero.mp hlen.symm
      rw [this]
    · rcases preds' with _ | ⟨p', ps'⟩
      · simp at hlen
      · rw [wordsLoop_first (p :: ps) _ b rest p (by simp),
          wordsLoop_first (p' :: ps') _ b rest p' (by simp),
          wordsLoop_congr (p :: ps) (p' :: ps') _ _ _ _ (fun k hk => hagree k (by omega))]
  · intro hle
    simp only [List.length_cons] at hle
    obtain ⟨p, hp⟩ : ∃ p, preds[0]? = some p := ⟨preds[0], List.getElem?_eq_getElem (by omega)⟩
    obtain ⟨ws, h1, -, -, -⟩ := decodeToWords_flatten (b :: rest) preds hle
    have h1' := h1
    simp only [decodeToWords, List.length_cons, wordsLoop_first preds _ b rest p hp] at h1
    cases hrun : wordsLoop preds rest.length ((b :: rest).drop (decodeRune (b :: rest)).2)
        (decodeRune (b :: rest)).2 ([], encodeRune (decodeRune (b :: rest)).1) with
    | none => rw [hrun] at h1; exact Option.noConfusion h1
    | some st' =>
      rw [hrun] at h1
      simp only [Option.some.injEq] at h1
      obtain ⟨h, tail, h2, h3⟩ := wordsLoop_head preds (encodeRune (decodeRune (b :: rest)).1) _
        _ _ _ st' hrun ⟨_, [], rfl, List.prefix_refl _⟩
      obtain ⟨st2, h4, -, -, h5⟩ := wordsLoop_flatten preds rest.length
        ((b :: rest).drop (decodeRune (b :: rest)).2) (decodeRune (b :: rest)).2
        ([], encodeRune (decodeRune (b :: rest)).1)
        (by simp only [List.length_drop, List.length_cons]; omega)
        (by simp only [List.length_drop, List.length_cons]; omega)
      rw [hrun] at h4
      cases Option.some.inj h4
      have hcur : st'.2 ≠ [] := h5 (Or.inl (encodeRune_ne_nil _))
      have hpos : st'.2.length > 0 := List.length_pos.mpr hcur
      rw [if_pos hpos, h2] at h1
      refine ⟨h, tail, by rw [h1', ← h1], h3, ?_, ?_⟩
      · intro hv
        rw [← encodeRune_decodeRune b rest hv]
        exact h3
      · intro c hc hlt
        simp only [List.head?_cons, Option.some.injEq] at hc
        subst hc
        have hd : decodeRune (b :: rest) = (b, 1) := by
          simp only [decodeRune]
          rw [if_pos hlt]
        have he : encodeRune b = [b] := by
          simp only [encodeRune]
          rw [if_pos (by omega)]
        rw [hd, he] at h3
        obtain ⟨t, ht⟩ := h3
        rw [← ht]
        rfl

theorem position_zero_never_flushes_witness :
    decodeToWords [104, 105, 119] [0, 0, 1] = decodeToWords [104, 105, 119] [1, 0, 1] ∧
    ∃ first rest, decodeToWords [104, 105, 119] [0, 0, 1] = some (first :: rest) ∧
      first.head? = some 104 :=
  have h := position_zero_never_flushes [104, 105, 119] [0, 0, 1] [1, 0, 1] (by decide) rfl
    (fun i hi => by
      rcases i with _ | _ | _ | i
      · omega
      · rfl
      · rfl
      · rfl)
  ⟨h.1, by
    obtain ⟨first, rest, h1, -, -, h4⟩ := h.2 (by decide)
    exact ⟨first, rest, h1, h4 104 rfl (by decide)⟩⟩
/-! ## Words are cut exactly at the boundary tags -/

theorem prefixLens_snoc (ws : List (List Nat)) (w : List Nat) :
    prefixLens (ws ++ [w]) = prefixLens ws ++ [(ws ++ [w]).flatten.length] := by
  simp only [prefixLens, List.length_append, List.length_singleton, List.range_succ,
    List.map_append, List.map_cons, List.map_nil]
  congr 1
  · apply List.map_congr_left
    intro k hk
    rw [List.take_append_of_le_length (by have := List.mem_range.mp hk; omega)]
  · rw [List.take_of_length_le (by simp)]

theorem cutPoints_snoc (ws : List (List Nat)) (w : List Nat) :
    cutPoints (ws ++ [w]) = prefixLens ws := by
  simp only [cutPoints, prefixLens, List.length_append, List.length_singleton,
    Nat.add_sub_cancel]
  apply List.map_congr_left
  intro k hk
  rw [List.take_append_of_le_length (by have := List.mem_range.mp hk; omega)]

theorem boundaries_succ (preds : List Nat) (i : Nat) :
    boundaries preds (i + 1) =
      boundaries preds i ++ (if 1 ≤ i ∧ preds[i]? = some 1 then [i] else []) := by
  simp only [boundaries, List.range_succ, List.filter_append, List.filter_cons, List.filter_nil,
    Bool.and_eq_true, decide_eq_true_eq]

/-- The loop of `decodeToWords` on ASCII text: the words flushed so far end
exactly at the boundary positions passed so far. -/
theorem wordsLoop_cuts (preds : List Nat) (fuel : Nat) :
    ∀ (rest : List Nat) (i : Nat) (st st' : List (List Nat) × List Nat),
      (∀ c ∈ rest, c < 128) →
      (1 ≤ i → st.2 ≠ []) → (i = 0 → st.2 = []) →
      (st.1.flatten ++ st.2).length = i →
      prefixLens st.1 = boundaries preds i →
      wordsLoop preds fuel rest i st = some st' →
      prefixLens st'.1 = boundaries preds (i + rest.length) := by
  induction fuel with
  | zero =>
    intro rest i st st' _ _ _ _ hpl hrun
    rcases rest with _ | ⟨b, rest⟩
    · simp only [wordsLoop, Option.some.injEq] at hrun
      rw [← hrun]; exact hpl
    · simp [wordsLoop] at hrun
  | succ fuel ih =>
    intro rest i st st' hascii hcur hzero hlen hpl hrun
    rcases rest with _ | ⟨c, cs⟩
    · simp only [wordsLoop, Option.some.injEq] at hrun
      rw [← hrun]; exact hpl
    · have hc : c < 128 := hascii c (List.mem_cons_self _ _)
      have hd : decodeRune (c :: cs) = (c, 1) := by
        simp only [decodeRune]
        rw [if_pos hc]
      simp only [wordsLoop, hd, List.drop_succ_cons, List.drop_zero] at hrun
      cases hp : preds[i]? with
      | none => rw [hp] at hrun; exact Option.noConfusion hrun
      | some p =>
        rw [hp] at hrun
        simp only at hrun
        have hgoal : i + (c :: cs).length = (i + 1) + cs.length := by
          simp only [List.length_cons]; omega
        rw [hgoal]
        refine ih cs (i + 1) _ st' (fun x hx => hascii x (List.mem_cons_of_mem _ hx))
          (fun _ => by simp [encodeRune_ne_nil]) (fun h => by omega) ?_ ?_ hrun
        · split_ifs
          · simp only [List.flatten_append, List.flatten_cons, List.flatten_nil,
              List.append_nil, List.nil_append, List.length_append] at hlen ⊢
            simp only [encodeRune, if_pos (by omega : c ≤ 0x7F), List.length_singleton]
            omega
          · simp only [List.length_append] at hlen ⊢
            simp only [encodeRune, if_pos (by omega : c ≤ 0x7F), List.length_singleton]
            omega
        · rw [boundaries_succ]
          by_cases hflush : p = 1 ∧ st.2.length > 0
          · rw [if_pos hflush]
            have hi : 1 ≤ i := by
              by_contra hc0
              have := hzero (by omega)
              rw [this] at hflush
              simp at hflush
            rw [prefixLens_snoc, hpl, if_pos ⟨hi, by rw [hp, hflush.1]⟩]
            congr 2
            simp only [List.flatten_append, List.flatten_cons, List.flatten_nil,
              List.append_nil]
            exact hlen
          · rw [if_neg hflush, hpl]
            have : ¬ (1 ≤ i ∧ preds[i]? = some 1) := by
              rintro ⟨hi, hpi⟩
              apply hflush
              rw [hp] at hpi
              exact ⟨Option.some.inj hpi, List.length_pos.mpr (hcur hi)⟩
            rw [if_neg this, List.append_nil]

theorem flatten_take_drop (ws : List (List Nat)) (k : Nat) (w : List Nat)
    (h : ws[k]? = some w) :
    w = (ws.flatten.drop (ws.take k).flatten.length).take w.length := by
  have hk : k < ws.length := by
    by_contra hc
    rw [List.getElem?_eq_none (by omega)] at h
    exact Option.noConfusion h
  have hsplit : ws = ws.take k ++ w :: ws.drop (k + 1) := by
    have h1 : ws.drop k = w :: ws.drop (k + 1) := by
      rw [List.drop_eq_getElem_cons hk]
      congr 1
      rw [List.getElem?_eq_getElem hk] at h
      exact Option.some.inj h
    rw [← h1, List.take_append_drop]
  have : ws.flatten = (ws.take k).flatten ++ (w ++ (ws.drop (k + 1)).flatten) := by
    conv_lhs => rw [hsplit]
    simp only [List.flatten_append, List.flatten_cons]
  rw [this, List.drop_left, List.take_left]

/-- Claim C13.  For a text of lower-case letters and digits that is not
empty and a tag sequence with one tag per position, `decodeToWords` returns
words whose concatenation is the text, cut exactly at the positions `i ≥ 1`
with tag 1, in order, and nowhere else: word `k` is the substring of the
text from the end of word `k - 1` on.  Every word is non-empty, and the
number of words is 1 plus the number of positions `i ≥ 1` with tag 1. -/
theorem words_cut_at_boundary_tags (text preds : List Nat) (hne : text ≠ [])
    (hvocab : ∀ c ∈ text, isVocab c) (hlen : preds.length = text.length) :
    ∃ ws, decodeToWords text preds = some ws ∧ ws.flatten = text ∧ [] ∉ ws ∧
      cutPoints ws = boundaries preds text.length ∧
      ws.length = 1 + (boundaries preds text.length).length ∧
      ∀ (k : Nat) (w : List Nat), ws[k]? = some w →
        w = (text.drop (ws.take k).flatten.length).take w.length := by
  have hascii : ∀ c ∈ text, c < 128 := by
    intro c hc
    rcases hvocab c hc with h | h <;> omega
  obtain ⟨ws, h1, h2, h3, -⟩ := decodeToWords_flatten text preds (by omega)
  rw [reencode_of_validUTF8 text (validUTF8_ascii text hascii)] at h2
  have h1' := h1
  simp only [decodeToWords] at h1
  cases hrun : wordsLoop preds text.length text 0 ([], []) with
  | none => rw [hrun] at h1; exact Option.noConfusion h1
  | some st' =>
    rw [hrun] at h1
    simp only [Option.some.injEq] at h1
    have hcuts := wordsLoop_cuts preds text.length text 0 ([], []) st' hascii
      (fun h => by omega) (fun _ => rfl) rfl rfl hrun
    rw [Nat.zero_add] at hcuts
    obtain ⟨st2, h4, -, -, h5⟩ := wordsLoop_flatten preds text.length text 0 ([], [])
      (Nat.le_refl _) (by omega)
    rw [hrun] at h4
    cases Option.some.inj h4
    have hpos : st'.2.length > 0 := List.length_pos.mpr (h5 (Or.inr hne))
    rw [if_pos hpos] at h1
    have hc : cutPoints ws = boundaries preds text.length := by
      rw [← h1, cutPoints_snoc, hcuts]
    refine ⟨ws, h1', h2, h3, hc, ?_, ?_⟩
    · rw [← hc, ← h1]
      simp only [cutPoints, List.length_append, List.length_singleton, List.length_map,
        List.length_range]
      omega
    · intro k w hk
      have := flatten_take_drop ws k w hk
      rw [h2] at this
      exact this

theorem words_cut_at_boundary_tags_witness :
    ∃ ws, decodeToWords [104, 101, 108, 108, 111, 119, 111, 114, 108, 100]
        [0, 0, 0, 0, 0, 1, 0, 0, 0, 0] = some ws ∧
      ws = [[104, 101, 108, 108, 111], [119, 111, 114, 108, 100]] ∧
      cutPoints ws = [5] ∧ ws.length = 1 + 1 := by
  obtain ⟨ws, h1, -, -, h4, h5, -⟩ := words_cut_at_boundary_tags
    [104, 101, 108, 108, 111, 119, 111, 114, 108, 100] [0, 0, 0, 0, 0, 1, 0, 0, 0, 0]
    (by decide) (by decide) rfl
  have hv : decodeToWords [104, 101, 108, 108, 111, 119, 111, 114, 108, 100]
      [0, 0, 0, 0, 0, 1, 0, 0, 0, 0] =
      some [[104, 101, 108, 108, 111], [119, 111, 114, 108, 100]] := by decide
  have hb : boundaries [0, 0, 0, 0, 0, 1, 0, 0, 0, 0]
      ([104, 101, 108, 108, 111, 119, 111, 114, 108, 100] : List Nat).length = [5] := by decide
  rw [hb] at h4 h5
  rw [hv] at h1
  exact ⟨ws, hv.trans h1, (Option.some.inj h1).symm, h4, h5⟩
/-! ## Sequences of one position -/

/-- For a sequence of one position the decoder does not read the pairwise
table, whatever the arithmetic. -/
theorem crfDecodeOne_single_table {α : Type} (F : Float32Ops α) (s : Splitter α)
    (table : List α) (emissions : List α) (offset : Nat) :
    crfDecodeOne F ⟨s.session, table, s.startTransitions, s.endTransitions⟩ emissions offset 1 =
      crfDecodeOne F s emissions offset 1 := rfl

/-- The body of the decoder on a sequence of one position, in exact
arithmetic. -/
theorem crfDecodeOne_single (s : Splitter Int) (hs : s.WellSized) (emissions : List Int)
    (offset : Nat) (he : offset + 2 ≤ emissions.length) :
    ∃ a, crfDecodeOne exact s emissions offset 1 = some [a] ∧ a < 2 ∧
      ((exact.negMaxFloat32 < singleScore s emissions offset 0 ∨
          exact.negMaxFloat32 < singleScore s emissions offset 1) →
        LowestArgmax (singleScore s emissions offset) a) ∧
      (¬ (exact.negMaxFloat32 < singleScore s emissions offset 0 ∨
          exact.negMaxFloat32 < singleScore s emissions offset 1) → a = 0) := by
  have hinit := initScore_exact s hs emissions offset he
  obtain ⟨last, hl1, hl2⟩ := bestLast_some exact s hs
    [startScore s 0 + emit emissions offset 0 0, startScore s 1 + emit emissions offset 0 1] rfl
  refine ⟨last, ?_, hl2, ?_, ?_⟩
  · simp only [crfDecodeOne, if_neg (by omega : ¬ 1 = 0), Nat.sub_self, forward, hinit, hl1,
      backtrace, List.reverse_nil, backtraceRev]
  · intro habove
    rw [bestLast_exact s hs _ _ (by simp only [singleScore] at habove; omega)] at hl1
    have := lowestArgmax_of_lt (singleScore s emissions offset)
    rw [← Option.some.inj hl1]
    have hiff : (startScore s 0 + emit emissions offset 0 0 + endScore s 0 <
        startScore s 1 + emit emissions offset 0 1 + endScore s 1) ↔
        (singleScore s emissions offset 0 < singleScore s emissions offset 1) := by
      simp only [singleScore]; omega
    simp only [hiff]
    exact this
  · intro hbelow
    have e0 := endTransitions_endScore s hs 0 (by omega)
    have e1 := endTransitions_endScore s hs 1 (by omega)
    simp only [bestLast, range_numTags, iterate, lastStep, e0, e1, List.getElem?_cons_zero,
      List.getElem?_cons_succ, keepBest, exact, decide_eq_true_eq] at hl1
    simp only [singleScore, exact, not_or, not_lt] at hbelow
    split_ifs at hl1 <;> first | exact (Option.some.inj hl1).symm | (exfalso; omega)

/-- Claim C12, as amended.  Single-position decode in exact arithmetic: for
a batch of `B` sequences of length 1, tables of sizes 2, 2 and 4 and an
emissions array of `B*1*2` scores, `crfDecodeBatch` returns for sequence `b`
a path of exactly one tag; that tag is the lowest tag `i` maximising
`start[i] + end[i] + emissions[0][i]` provided one of these two sums is
greater than `-math.MaxFloat32`, and tag 0 otherwise; and the result is the
same whatever the pairwise table is. -/
theorem single_position_decode (s : Splitter Int) (hs : s.WellSized) (emissions : List Int)
    (B b : Nat) (hb : b < B) (hem : emissions.length = B * 1 * numTags) :
    ∃ preds a, crfDecodeBatch exact s emissions B 1 = some preds ∧ preds.length = B ∧
      preds[b]? = some [a] ∧ a < 2 ∧
      ((exact.negMaxFloat32 < singleScore s emissions (b * 1 * numTags) 0 ∨
          exact.negMaxFloat32 < singleScore s emissions (b * 1 * numTags) 1) →
        LowestArgmax (singleScore s emissions (b * 1 * numTags)) a) ∧
      (¬ (exact.negMaxFloat32 < singleScore s emissions (b * 1 * numTags) 0 ∨
          exact.negMaxFloat32 < singleScore s emissions (b * 1 * numTags) 1) → a = 0) ∧
      ∀ table, crfDecodeBatch exact ⟨s.session, table, s.startTransitions, s.endTransitions⟩
        emissions B 1 = some preds := by
  obtain ⟨preds, h1, h2, h3⟩ := crfDecodeBatch_some exact s hs emissions B 1 (Nat.le_refl 1)
    (by rw [hem]; simp only [numTags]; omega)
  obtain ⟨p, h4, h5, -⟩ := h3 b hb
  have hfit : b * 1 * numTags + 2 ≤ emissions.length := by
    rw [hem]; simp only [numTags]; omega
  obtain ⟨a, h6, h7, h8, h9⟩ := crfDecodeOne_single s hs emissions (b * 1 * numTags) hfit
  rw [h5] at h6
  cases Option.some.inj h6
  refine ⟨preds, a, h1, h2, h4, h7, h8, h9, ?_⟩
  intro table
  rw [← h1]
  exact collect_congr _ _ _ (fun k _ => crfDecodeOne_single_table exact s table emissions _)

theorem single_position_decode_witness :
    ∃ preds a, crfDecodeBatch exact sampleSplitter [0, 0, 1, 4] 2 1 = some preds ∧
      preds[1]? = some [a] ∧ LowestArgmax (singleScore sampleSplitter [0, 0, 1, 4] 2) a ∧
      ∀ table, crfDecodeBatch exact
        ⟨sampleSplitter.session, table, sampleSplitter.startTransitions,
          sampleSplitter.endTransitions⟩ [0, 0, 1, 4] 2 1 = some preds := by
  obtain ⟨preds, a, h1, -, h3, -, h5, -, h7⟩ :=
    single_position_decode sampleSplitter ⟨rfl, rfl, rfl⟩ [0, 0, 1, 4] 2 1 (by decide) rfl
  exact ⟨preds, a, h1, h3, h5 (by decide), h7⟩

/-- Claim C12 as stated fails: with both end scores `-math.MaxFloat32`, start
scores 0 and the emissions `-math.MaxFloat32` for tag 0 and 0 for tag 1, the
sum `start[i] + end[i] + emissions[0][i]` is twice `-math.MaxFloat32` for
tag 0 (in `float32` the sum overflows to minus infinity) and
`-math.MaxFloat32` for tag 1; neither is greater than the starting value of
the running maximum, so the decoder returns tag 0, while tag 1 alone
maximises the sum. -/
theorem single_position_not_argmax :
    crfDecodeBatch exact lowEndSplitter [-maxFloat32Units, 0] 1 1 = some [[0]] ∧
    singleScore lowEndSplitter [-maxFloat32Units, 0] 0 0 <
      singleScore lowEndSplitter [-maxFloat32Units, 0] 0 1 ∧
    ¬ LowestArgmax (singleScore lowEndSplitter [-maxFloat32Units, 0] 0) 0 := by
  refine ⟨by decide, by decide, ?_⟩
  intro h
  have := h.2.1 1 (by decide)
  revert this
  decide
/-! ## The path returned is the canonical optimal path -/

theorem getD_snoc (q : List Nat) (j u : Nat) :
    (q ++ [j]).getD u 0 = if u < q.length then q.getD u 0 else if u = q.length then j else 0 := by
  split_ifs with h1 h2
  · exact getD_append_left_lt q j u h1
  · rw [h2]; exact getD_append_length q j
  · simp only [List.getD_eq_getElem?_getD]
    rw [List.getElem?_eq_none (by simp; omega)]
    rfl

theorem getD_beyond (q : List Nat) (u : Nat) (h : q.length ≤ u) : q.getD u 0 = 0 := by
  simp only [List.getD_eq_getElem?_getD]
  rw [List.getElem?_eq_none h]
  rfl

theorem revLexLE_snoc (p q : List Nat) (j : Nat) (hlen : p.length = q.length)
    (h : RevLexLE p q) : RevLexLE (p ++ [j]) (q ++ [j]) := by
  rcases h with rfl | ⟨t, h1, h2⟩
  · exact Or.inl rfl
  · right
    have ht : t < q.length := by
      by_contra hc
      rw [getD_beyond q t (by omega)] at h1
      omega
    refine ⟨t, ?_, ?_⟩
    · rw [getD_snoc, getD_snoc, if_pos (by omega), if_pos ht]
      exact h1
    · intro u hu
      rw [getD_snoc, getD_snoc, hlen]
      split_ifs
      · exact h2 u hu
      · rfl
      · rfl

theorem revLexLE_antisymm (p q : List Nat) (h1 : RevLexLE p q) (h2 : RevLexLE q p) : p = q := by
  rcases h1 with h | ⟨t1, a1, b1⟩
  · exact h
  rcases h2 with h | ⟨t2, a2, b2⟩
  · exact h.symm
  exfalso
  rcases Nat.lt_trichotomy t1 t2 with h | h | h
  · have := b1 t2 h; omega
  · subst h; omega
  · have := b2 t1 h; omega

/-- A path that ends in tag 0 is below, in the order `RevLexLE`, every path
of its length that ends in tag 1. -/
theorem revLexLE_of_last (p q : List Nat) (n : Nat) (hp : p.length = n + 1)
    (hq : q.length = n + 1) (h0 : p.getD n 0 = 0) (h1 : q.getD n 0 = 1) : RevLexLE p q := by
  right
  refine ⟨n, by omega, ?_⟩
  intro u hu
  rw [getD_beyond p u (by omega), getD_beyond q u (by omega)]

/-- One tag of one position keeps `CanonInv`. -/
theorem canon_tag_step (s : Splitter Int) (emissions : List Int) (offset n : Nat)
    (m0 m1 : Int) (hist : List (List Nat)) (row : List Nat)
    (hinv : ViterbiInv s emissions offset n ([m0, m1], hist))
    (hcan : CanonInv s emissions offset n ([m0, m1], hist)) (j : Nat)
    (hrow : row[j]? = some (if m0 + pairwise s 0 j + emit emissions offset (n + 1) j <
      m1 + pairwise s 1 j + emit emissions offset (n + 1) j then 1 else 0))
    (p' : List Nat) (hp' : backtraceRev (hist ++ [row]).reverse j = some p')
    (q' : List Nat) (hq' : IsPath (n + 1 + 1) q') (hlast : q'.getD (n + 1) 0 = j)
    (heq : prefixScore s emissions offset q' = prefixScore s emissions offset p') :
    RevLexLE p' q' := by
  obtain ⟨a0, a1, hsc, hall⟩ := id hinv
  simp only [List.cons.injEq, and_true] at hsc
  obtain ⟨rfl, rfl⟩ := hsc
  have hrev : (hist ++ [row]).reverse = row :: hist.reverse := by simp
  rw [hrev] at hp'
  obtain ⟨q, j', rfl, hlen, hq2, -, hj'⟩ := isPath_snoc (n + 1) q' hq'
  rw [hlast] at hj'
  subst hj'
  have hne : q ≠ [] := by
    intro hc; rw [hc] at hlen; simp at hlen
  have hi : q.getD n 0 < 2 := hq2 _ (getD_mem_of_lt q n (by omega))
  have hb := (hall (q.getD n 0) hi).1 q ⟨hlen, hq2⟩ rfl
  rw [prefixScore_snoc s emissions offset q j hne, hlen, Nat.add_sub_cancel] at heq
  rw [pair_getD _ _ _ hi] at hb
  by_cases hlt : m0 + pairwise s 0 j + emit emissions offset (n + 1) j <
      m1 + pairwise s 1 j + emit emissions offset (n + 1) j
  · rw [if_pos hlt] at hrow
    obtain ⟨p0, h1, h2, h3, h4⟩ := (hall 1 (by omega)).2
    have hp0 : p0 ≠ [] := by
      intro hc; have := h2.1; rw [hc] at this; simp at this
    simp only [backtraceRev, hrow, h1, Option.some.injEq] at hp'
    subst hp'
    rw [prefixScore_snoc s emissions offset p0 j hp0, h2.1, Nat.add_sub_cancel, h3, h4] at heq
    simp only [List.getD_cons_succ, List.getD_cons_zero] at heq
    have hcase : q.getD n 0 = 0 ∨ q.getD n 0 = 1 := by omega
    rcases hcase with hq0 | hq1
    · rw [hq0] at hb heq
      simp only [if_true] at hb
      exfalso; omega
    · rw [hq1] at hb heq
      simp only [if_neg (by decide : ¬ (1 : Nat) = 0)] at hb
      refine revLexLE_snoc p0 q j (by rw [h2.1, hlen]) ?_
      refine hcan 1 (by omega) p0 h1 q ⟨hlen, hq2⟩ hq1 ?_
      rw [h4]
      simp only [List.getD_cons_succ, List.getD_cons_zero]
      omega
  · rw [if_neg hlt] at hrow
    obtain ⟨p0, h1, h2, h3, h4⟩ := (hall 0 (by omega)).2
    have hp0 : p0 ≠ [] := by
      intro hc; have := h2.1; rw [hc] at this; simp at this
    simp only [backtraceRev, hrow, h1, Option.some.injEq] at hp'
    subst hp'
    rw [prefixScore_snoc s emissions offset p0 j hp0, h2.1, Nat.add_sub_cancel, h3, h4] at heq
    simp only [List.getD_cons_zero] at heq
    have hcase : q.getD n 0 = 0 ∨ q.getD n 0 = 1 := by omega
    rcases hcase with hq0 | hq1
    · rw [hq0] at hb heq
      simp only [if_true] at hb
      refine revLexLE_snoc p0 q j (by rw [h2.1, hlen]) ?_
      refine hcan 0 (by omega) p0 h1 q ⟨hlen, hq2⟩ hq0 ?_
      rw [h4]
      simp only [List.getD_cons_zero]
      omega
    · right
      refine ⟨n, ?_, ?_⟩
      · rw [getD_snoc, getD_snoc, h2.1, hlen, if_pos (Nat.lt_succ_self n),
          if_pos (Nat.lt_succ_self n), h3, hq1]
        omega
      · intro u hu
        rw [getD_snoc, getD_snoc, h2.1, hlen, if_neg (by omega : ¬ u < n + 1),
          if_neg (by omega : ¬ u < n + 1)]

/-- The loop over the positions, in exact arithmetic and with every maximum
taken above the starting value, keeps `ViterbiInv` and `CanonInv`. -/
theorem forward_canon (s : Splitter Int) (hs : s.WellSized) (emissions : List Int)
    (offset L : Nat) (he : offset + L * 2 ≤ emissions.length)
    (hW : AboveSentinel s emissions offset L) :
    ∀ n, n < L → ∃ st, forward exact s emissions offset n = some st ∧
      ViterbiInv s emissions offset n st ∧ CanonInv s emissions offset n st := by
  intro n
  induction n with
  | zero =>
    intro hn
    obtain ⟨st, hf, hinv⟩ := forward_inv s hs emissions offset L he hW 0 hn
    refine ⟨st, hf, hinv, ?_⟩
    have hst : st.2 = [] := by
      simp only [forward, initScore_exact s hs emissions offset (by omega),
        Option.some.injEq] at hf
      rw [← hf]
    intro j hj p hp q hq hlast _
    rw [hst] at hp
    simp only [List.reverse_nil, backtraceRev, Option.some.injEq] at hp
    subst hp
    obtain ⟨q0, j', rfl, hlen, -, -, hj'⟩ := isPath_snoc 0 q hq
    have : q0 = [] := List.length_eq_zero.mp hlen
    subst this
    rw [hlast] at hj'
    subst hj'
    exact Or.inl rfl
  | succ n ih =>
    intro hn
    obtain ⟨⟨score, hist⟩, hf, hinv, hcan⟩ := ih (by omega)
    obtain ⟨m0, m1, hsc, -⟩ := id hinv
    simp only at hsc
    subst hsc
    obtain ⟨st', hf', hinv'⟩ := forward_inv s hs emissions offset L he hW (n + 1) hn
    have hem : offset + (n + 1) * numTags + 2 ≤ emissions.length := by
      simp only [numTags]; omega
    have hstep := forward_succ_exact s hs emissions offset n m0 m1 hist hf hem
      (candidate_above s emissions offset L n hW hn m0 m1 hist hinv 0 (by omega))
      (candidate_above s emissions offset L n hW hn m0 m1 hist hinv 1 (by omega))
    rw [hf'] at hstep
    refine ⟨st', hf', hinv', ?_⟩
    rw [Option.some.inj hstep]
    intro j hj p hp q hq hlast heq
    have hcase : j = 0 ∨ j = 1 := by omega
    rcases hcase with rfl | rfl
    · exact canon_tag_step s emissions offset n m0 m1 hist _ hinv hcan 0 rfl
        p hp q hq hlast heq
    · exact canon_tag_step s emissions offset n m0 m1 hist _ hinv hcan 1 rfl
        p hp q hq hlast heq

/-- The path of one sequence is optimal and is the smallest optimal path in
the order `RevLexLE`, in exact arithmetic, when every maximum is taken above
the starting value of the running maximum. -/
theorem crfDecodeOne_canonical (s : Splitter Int) (hs : s.WellSized) (emissions : List Int)
    (offset L : Nat) (hL : 1 ≤ L) (he : offset + L * 2 ≤ emissions.length)
    (hW : AboveSentinel s emissions offset L) :
    ∃ p, crfDecodeOne exact s emissions offset L = some p ∧ IsPath L p ∧
      (∀ q, IsPath L q → pathScore s emissions offset q ≤ pathScore s emissions offset p) ∧
      (∀ q, IsPath L q → pathScore s emissions offset q = pathScore s emissions offset p →
        RevLexLE p q) := by
  obtain ⟨⟨score, hist⟩, hf, hinv, hcan⟩ :=
    forward_canon s hs emissions offset L he hW (L - 1) (by omega)
  obtain ⟨p, hp1, hp2, hp3⟩ := crfDecodeOne_optimal s hs emissions offset L hL he hW
  refine ⟨p, hp1, hp2, hp3, ?_⟩
  obtain ⟨m0, m1, hsc, hall⟩ := id hinv
  simp only at hsc
  subst hsc
  obtain ⟨q0, hq0, habove⟩ := hW.2
  have hq0le := pathScore_le_of_inv s emissions offset L hL m0 m1 hist hinv q0 hq0
  have hlast := bestLast_exact s hs m0 m1 (by
    split_ifs at hq0le
    · left; omega
    · right; omega)
  intro q hq heq
  have hb := pathScore_le_of_inv s emissions offset L hL m0 m1 hist hinv q hq
  have hi : q.getD (L - 1) 0 < 2 := hq.2 _ (getD_mem_of_lt q (L - 1) (by rw [hq.1]; omega))
  have hqs : pathScore s emissions offset q =
      prefixScore s emissions offset q + endScore s (q.getD (L - 1) 0) := by
    simp only [pathScore, hq.1]
  have hq' : IsPath (L - 1 + 1) q := by rw [Nat.sub_add_cancel hL]; exact hq
  by_cases hlt : m0 + endScore s 0 < m1 + endScore s 1
  · rw [if_pos hlt] at hlast
    obtain ⟨p1, h1, h2, h3, h4⟩ := (hall 1 (by omega)).2
    simp only [crfDecodeOne, if_neg (by omega : ¬ L = 0), hf, hlast, backtrace, h1,
      Option.some.injEq] at hp1
    subst hp1
    have hps : pathScore s emissions offset p1 = m1 + endScore s 1 := by
      simp only [pathScore, hp2.1, h3, h4]
      rfl
    rw [hps] at heq
    have hcase : q.getD (L - 1) 0 = 0 ∨ q.getD (L - 1) 0 = 1 := by omega
    rcases hcase with hq0 | hq1
    · rw [hq0] at hb
      simp only [if_true] at hb
      exfalso; omega
    · rw [hq1] at hb hqs
      refine hcan 1 (by omega) p1 h1 q hq' hq1 ?_
      rw [h4]
      simp only [List.getD_cons_succ, List.getD_cons_zero]
      omega
  · rw [if_neg hlt] at hlast
    obtain ⟨p1, h1, h2, h3, h4⟩ := (hall 0 (by omega)).2
    simp only [crfDecodeOne, if_neg (by omega : ¬ L = 0), hf, hlast, backtrace, h1,
      Option.some.injEq] at hp1
    subst hp1
    have hps : pathScore s emissions offset p1 = m0 + endScore s 0 := by
      simp only [pathScore, hp2.1, h3, h4]
      rfl
    rw [hps] at heq
    have hcase : q.getD (L - 1) 0 = 0 ∨ q.getD (L - 1) 0 = 1 := by omega
    rcases hcase with hq0 | hq1
    · rw [hq0] at hb hqs
      simp only [if_true] at hb
      refine hcan 0 (by omega) p1 h1 q hq' hq0 ?_
      rw [h4]
      simp only [List.getD_cons_zero]
      omega
    · exact revLexLE_of_last p1 q (L - 1) (by rw [hp2.1]; omega) (by rw [hq.1]; omega) h3 hq1

/-- Claim C18, as amended.  Canonical optimal path in exact arithmetic: for a
batch of `B` sequences of length `L ≥ 1`, tables of sizes 2, 2 and 4 and an
emissions array of `B*L*2` scores, provided every maximum the decoder takes
is over scores one of which is above `-math.MaxFloat32`, the path
`crfDecodeBatch` returns for sequence `b` has maximal total score and is,
among the paths of maximal total score, the smallest one when paths are
compared from the last position backwards; it is the only path with these
two properties, so the output is determined by the scores. -/
theorem crfDecode_canonical_above_sentinel (s : Splitter Int) (hs : s.WellSized)
    (emissions : List Int) (B L b : Nat) (hL : 1 ≤ L) (hb : b < B)
    (hem : emissions.length = B * L * numTags)
    (hW : AboveSentinel s emissions (b * L * numTags) L) :
    ∃ preds p, crfDecodeBatch exact s emissions B L = some preds ∧ preds[b]? = some p ∧
      IsPath L p ∧
      (∀ q, IsPath L q →
        pathScore s emissions (b * L * numTags) q ≤ pathScore s emissions (b * L * numTags) p) ∧
      (∀ q, IsPath L q →
        pathScore s emissions (b * L * numTags) q = pathScore s emissions (b * L * numTags) p →
        RevLexLE p q) ∧
      (∀ p2, IsPath L p2 →
        (∀ q, IsPath L q →
          pathScore s emissions (b * L * numTags) q ≤
            pathScore s emissions (b * L * numTags) p2) →
        (∀ q, IsPath L q →
          pathScore s emissions (b * L * numTags) q =
            pathScore s emissions (b * L * numTags) p2 → RevLexLE p2 q) →
        p2 = p) := by
  obtain ⟨preds, h1, -, h3⟩ := crfDecodeBatch_some exact s hs emissions B L hL
    (by rw [hem]; simp only [numTags]; omega)
  obtain ⟨p, h4, h5, -⟩ := h3 b hb
  have hfit : b * L * numTags + L * 2 ≤ emissions.length := by
    have h1 : (b + 1) * L * 2 ≤ B * L * 2 := Nat.mul_le_mul_right 2 (Nat.mul_le_mul_right L hb)
    have h2 : (b + 1) * L * 2 = b * L * 2 + L * 2 := by ring
    rw [hem]
    simp only [numTags]
    omega
  obtain ⟨p', h6, h7, h8, h9⟩ :=
    crfDecodeOne_canonical s hs emissions (b * L * numTags) L hL hfit hW
  rw [h5] at h6
  cases Option.some.inj h6
  refine ⟨preds, p, h1, h4, h7, h8, h9, ?_⟩
  intro p2 hp2 hopt hmin
  have e : pathScore s emissions (b * L * numTags) p2 =
      pathScore s emissions (b * L * numTags) p :=
    Int.le_antisymm (h8 p2 hp2) (hopt p h7)
  exact revLexLE_antisymm p2 p (hmin p h7 e.symm) (h9 p2 hp2 e)

theorem crfDecode_canonical_above_sentinel_witness :
    ∃ preds p, crfDecodeBatch exact zeroSplitter (List.replicate 6 0) 1 3 = some preds ∧
      preds[0]? = some p ∧ IsPath 3 p ∧
      (∀ q, IsPath 3 q →
        pathScore zeroSplitter (List.replicate 6 0) (0 * 3 * numTags) q =
          pathScore zeroSplitter (List.replicate 6 0) (0 * 3 * numTags) p →
        RevLexLE p q) := by
  obtain ⟨preds, p, h1, h2, h3, -, h5, -⟩ :=
    crfDecode_canonical_above_sentinel zeroSplitter zeroSplitter_wellSized
      (List.replicate 6 0) 1 3 0 (by decide) (by decide) (by decide)
      ⟨fun t j _ _ hj => ⟨List.replicate (t + 1) j,
          ⟨by simp, fun x hx => by rw [List.eq_of_mem_replicate hx]; exact hj⟩,
          by simp [List.getD_eq_getElem?_getD, List.getElem?_replicate],
          by rw [(pathScore_zero 6 _ _).1]; decide⟩,
        ⟨[0, 0, 0], ⟨rfl, by decide⟩, by decide⟩⟩
  exact ⟨preds, p, h1, h2, h3, h5⟩

theorem isPath_two (q : List Nat) (h : IsPath 2 q) :
    q = [0, 0] ∨ q = [0, 1] ∨ q = [1, 0] ∨ q = [1, 1] := by
  obtain ⟨a, b, rfl⟩ := List.length_eq_two.mp h.1
  have ha := h.2 a (by simp)
  have hb := h.2 b (by simp)
  have ha' : a = 0 ∨ a = 1 := by omega
  have hb' : b = 0 ∨ b = 1 := by omega
  rcases ha' with rfl | rfl <;> rcases hb' with rfl | rfl <;> simp

/-- Claim C18 as stated fails: with both start scores `-math.MaxFloat32`, the
emissions `-math.MaxFloat32` for tag 0 and 0 for tag 1 at position 0 and 0
at position 1, the paths of maximal total score are `[1, 0]` and `[1, 1]`
(total `-math.MaxFloat32`) and the smallest of them from the last position
backwards is `[1, 0]`; no candidate is greater than the starting value of
the running maximum, so the decoder returns `[0, 0]`, whose total is twice
`-math.MaxFloat32` (minus infinity in `float32`). -/
theorem crfDecode_not_canonical_below_sentinel :
    crfDecodeBatch exact lowStartSplitter [-maxFloat32Units, 0, 0, 0] 1 2 = some [[0, 0]] ∧
    IsPath 2 [1, 0] ∧
    (∀ q, IsPath 2 q →
      pathScore lowStartSplitter [-maxFloat32Units, 0, 0, 0] 0 q ≤
        pathScore lowStartSplitter [-maxFloat32Units, 0, 0, 0] 0 [1, 0]) ∧
    (∀ q, IsPath 2 q →
      pathScore lowStartSplitter [-maxFloat32Units, 0, 0, 0] 0 q =
        pathScore lowStartSplitter [-maxFloat32Units, 0, 0, 0] 0 [1, 0] →
      RevLexLE [1, 0] q) ∧
    pathScore lowStartSplitter [-maxFloat32Units, 0, 0, 0] 0 [0, 0] <
      pathScore lowStartSplitter [-maxFloat32Units, 0, 0, 0] 0 [1, 0] := by
  refine ⟨by decide, ⟨rfl, by decide⟩, ?_, ?_, by decide⟩
  · intro q hq
    rcases isPath_two q hq with rfl | rfl | rfl | rfl <;> decide
  · intro q hq he
    rcases isPath_two q hq with rfl | rfl | rfl | rfl
    · exact absurd he (by decide)
    · exact absurd he (by decide)
    · exact Or.inl rfl
    · exact Or.inr ⟨1, by decide, fun u hu => by
        rw [getD_beyond _ u (by simp; omega), getD_beyond _ u (by simp; omega)]⟩
/-! ## The sequences of a batch are decoded independently -/

/-- The slice `emissions[b*L*2 : (b+1)*L*2]`. -/
theorem slice_getElem? {α : Type} (emissions : List α) (o n k : Nat) (hk : k < n) :
    ((emissions.drop o).take n)[0 + k]? = emissions[o + k]? := by
  rw [Nat.zero_add, List.getElem?_take_of_lt hk, List.getElem?_drop]

/-- The body of the decoder gives, on the slice of one sequence, the path it
gives for that sequence inside the whole array. -/
theorem crfDecodeOne_slice {α : Type} (F : Float32Ops α) (s : Splitter α) (emissions : List α)
    (o L : Nat) :
    crfDecodeOne F s ((emissions.drop o).take (L * 2)) 0 L = crfDecodeOne F s emissions o L :=
  crfDecodeOne_congr F s _ _ 0 o L (fun k hk => slice_getElem? emissions o (L * 2) k hk)

theorem crfDecodeBatch_one {α : Type} (F : Float32Ops α) (s : Splitter α) (emissions : List α)
    (L : Nat) (p : List Nat) (h : crfDecodeOne F s emissions 0 L = some p) :
    crfDecodeBatch F s emissions 1 L = some [p] := by
  simp only [crfDecodeBatch, List.range_succ, List.range_zero, List.nil_append, collect,
    Nat.zero_mul, h]

/-- Claim C17.  Per-sequence independence of batched decoding, for any
`float32` arithmetic: for tables of sizes 2, 2 and 4, `B ≥ 1`, `L ≥ 1`, an
emissions array of `B*L*2` scores and `b < B`, the decoder returns a list of
`B` paths whose entry `b` is the one path it returns for the batch of one
sequence made of the slice `emissions[b*L*2 : (b+1)*L*2]`; and a sequence
with the same emissions at any position of any other batch gets the same
path. -/
theorem crfDecodeBatch_per_sequence {α : Type} (F : Float32Ops α) (s : Splitter α)
    (hs : s.WellSized) (emissions : List α) (B L b : Nat) (hL : 1 ≤ L) (hb : b < B)
    (hem : emissions.length = B * L * 2) :
    ∃ preds p, crfDecodeBatch F s emissions B L = some preds ∧ preds.length = B ∧
      preds[b]? = some p ∧
      crfDecodeBatch F s ((emissions.drop (b * L * 2)).take (L * 2)) 1 L = some [p] ∧
      ∀ (emissions' : List α) (B' b' : Nat), b' < B' → emissions'.length = B' * L * 2 →
        (emissions'.drop (b' * L * 2)).take (L * 2) =
          (emissions.drop (b * L * 2)).take (L * 2) →
        ∃ preds', crfDecodeBatch F s emissions' B' L = some preds' ∧ preds'[b']? = some p := by
  obtain ⟨preds, h1, h2, h3⟩ := crfDecodeBatch_some F s hs emissions B L hL (by omega)
  obtain ⟨p, h4, h5, -⟩ := h3 b hb
  simp only [numTags] at h5
  have hslice := crfDecodeOne_slice F s emissions (b * L * 2) L
  rw [h5] at hslice
  refine ⟨preds, p, h1, h2, h4, crfDecodeBatch_one F s _ L p hslice, ?_⟩
  intro emissions' B' b' hb' hem' hsame
  obtain ⟨preds', g1, -, g3⟩ := crfDecodeBatch_some F s hs emissions' B' L hL (by omega)
  obtain ⟨p', g4, g5, -⟩ := g3 b' hb'
  simp only [numTags] at g5
  have hslice' := crfDecodeOne_slice F s emissions' (b' * L * 2) L
  rw [hsame, hslice, g5] at hslice'
  cases Option.some.inj hslice'
  exact ⟨preds', g1, g4⟩

theorem crfDecodeBatch_per_sequence_witness :
    ∃ preds p, crfDecodeBatch exact sampleSplitter [0, 0, 0, 0, 0, 0, 1, 4, -3, 0, 2, 2] 2 3
        = some preds ∧ preds[1]? = some p ∧
      crfDecodeBatch exact sampleSplitter [1, 4, -3, 0, 2, 2] 1 3 = some [p] := by
  obtain ⟨preds, p, h1, -, h3, h4, -⟩ := crfDecodeBatch_per_sequence exact sampleSplitter
    ⟨rfl, rfl, rfl⟩ [0, 0, 0, 0, 0, 0, 1, 4, -3, 0, 2, 2] 2 3 1 (by decide) (by decide) rfl
  exact ⟨preds, p, h1, h3, h4⟩
/-! ## Normalisation of ASCII text -/

theorem ToLower_ascii (caseTable : Nat → Nat) (t : List Nat) (ht : ∀ c ∈ t, c < 128) :
    ToLower caseTable t = t.map asciiLower := by
  have : t.all (fun c => decide (c < 0x80)) = true := by
    simp only [List.all_eq_true, decide_eq_true_eq]
    exact ht
  simp only [ToLower, this, if_true]

theorem normalize_ascii (caseTable : Nat → Nat) (t : List Nat) (ht : ∀ c ∈ t, c < 128) :
    normalize caseTable t = (t.map asciiLower).take maxLen := by
  simp only [normalize, ToLower_ascii caseTable t ht]
  split_ifs with hc
  · rfl
  · rw [List.take_of_length_le (by omega)]

theorem asciiLower_lt (c : Nat) (h : c < 128) : asciiLower c < 128 := by
  unfold asciiLower
  split_ifs <;> omega

theorem asciiLower_idem (c : Nat) : asciiLower (asciiLower c) = asciiLower c := by
  unfold asciiLower
  split_ifs <;> omega

theorem asciiLower_not_upper (c : Nat) : ¬ (65 ≤ asciiLower c ∧ asciiLower c ≤ 90) := by
  unfold asciiLower
  split_ifs <;> omega

theorem asciiLower_upperASCII (c : Nat) : asciiLower (upperASCII c) = asciiLower c := by
  unfold asciiLower upperASCII
  split_ifs <;> omega

theorem upperASCII_lt (c : Nat) (h : c < 128) : upperASCII c < 128 := by
  unfold upperASCII
  split_ifs <;> omega

theorem normalize_ascii_lt (caseTable : Nat → Nat) (t : List Nat) (ht : ∀ c ∈ t, c < 128) :
    ∀ c ∈ normalize caseTable t, c < 128 ∧ ¬ (65 ≤ c ∧ c ≤ 90) := by
  rw [normalize_ascii caseTable t ht]
  intro c hc
  obtain ⟨x, hx, rfl⟩ := List.mem_map.mp (List.mem_of_mem_take hc)
  exact ⟨asciiLower_lt x (ht x hx), asciiLower_not_upper x⟩

theorem normalize_idem_ascii (caseTable : Nat → Nat) (t : List Nat) (ht : ∀ c ∈ t, c < 128) :
    normalize caseTable (normalize caseTable t) = normalize caseTable t := by
  rw [normalize_ascii caseTable (normalize caseTable t)
    (fun c hc => (normalize_ascii_lt caseTable t ht c hc).1), normalize_ascii caseTable t ht]
  rw [← List.map_take, List.take_take, Nat.min_self, ← List.map_take, List.map_map]
  apply List.map_congr_left
  intro c _
  exact asciiLower_idem c

/-- Method `Split` reads its argument only through the test for the empty
string and through the normalised text. -/
theorem Split_congr {α : Type} (F : Float32Ops α) (caseTable : Nat → Nat) (s : Splitter α)
    (t t' : List Nat) (hnil : t = [] ↔ t' = [])
    (hnorm : normalize caseTable t = normalize caseTable t') :
    Split F caseTable s t = Split F caseTable s t' := by
  by_cases ht : t = []
  · rw [ht, hnil.mp ht]
  · have h1 : ¬ t.length = 0 := fun hc => ht (List.length_eq_zero.mp hc)
    have h2 : ¬ t'.length = 0 := fun hc => ht (hnil.mpr (List.length_eq_zero.mp hc))
    simp only [Split, if_neg h1, if_neg h2, hnorm]

/-- When the loop of `decodeToWords` ends without a panic, the words and the
buffer it leaves hold what they held before followed by the runes of the
text written back. -/
theorem wordsLoop_flatten_of_some (preds : List Nat) (fuel : Nat) :
    ∀ (rest : List Nat) (i : Nat) (st st' : List (List Nat) × List Nat),
      wordsLoop preds fuel rest i st = some st' →
      st'.1.flatten ++ st'.2 = st.1.flatten ++ st.2 ++ reencode rest := by
  induction fuel with
  | zero =>
    intro rest i st st' h
    rcases rest with _ | ⟨b, rest⟩
    · simp only [wordsLoop, Option.some.injEq] at h
      rw [← h]
      simp [reencode_nil]
    · simp [wordsLoop] at h
  | succ fuel ih =>
    intro rest i st st' h
    rcases rest with _ | ⟨b, rest⟩
    · simp only [wordsLoop, Option.some.injEq] at h
      rw [← h]
      simp [reencode_nil]
    · simp only [wordsLoop] at h
      cases hp : preds[i]? with
      | none => rw [hp] at h; exact Option.noConfusion h
      | some p =>
        rw [hp] at h
        simp only at h
        rw [ih _ _ _ _ h, reencode_cons]
        split_ifs <;> simp [List.flatten_append]

theorem decodeToWords_flatten_of_some (text preds : List Nat) (ws : List (List Nat))
    (h : decodeToWords text preds = some ws) : ws.flatten = reencode text := by
  simp only [decodeToWords] at h
  cases hrun : wordsLoop preds text.length text 0 ([], []) with
  | none => rw [hrun] at h; exact Option.noConfusion h
  | some st =>
    rw [hrun] at h
    have h2 := wordsLoop_flatten_of_some preds _ _ _ _ _ hrun
    simp only [List.flatten_nil, List.append_nil, List.nil_append] at h2
    simp only [Option.some.injEq] at h
    rw [← h]
    split_ifs with hc
    · simp only [List.flatten_append, List.flatten_cons, List.flatten_nil, List.append_nil]
      exact h2
    · have : st.2 = [] := by
        rcases hs : st.2 with _ | ⟨x, xs⟩
        · rfl
        · rw [hs] at hc; simp at hc
      rw [this, List.append_nil] at h2
      exact h2

/-- The words `Split` returns concatenate to the normalised text with every
rune written back, whatever the sizes of the tables. -/
theorem Split_flatten_of_ok {α : Type} (F : Float32Ops α) (caseTable : Nat → Nat)
    (s : Splitter α) (text : List Nat) (ws : List (List Nat))
    (h : (Split F caseTable s text).2 = .ok ws) :
    ws.flatten = reencode (normalize caseTable text) := by
  by_cases ht : text = []
  · subst ht
    simp only [Split_nil, Except.ok.injEq] at h
    rw [← h]
    rfl
  · have hlen : ¬ text.length = 0 := fun hc => ht (List.length_eq_zero.mp hc)
    simp only [Split, if_neg hlen] at h
    repeat' split at h
    all_goals first
      | exact Except.noConfusion h
      | (cases Except.ok.inj h
         exact decodeToWords_flatten_of_some _ _ _ (by assumption))

/-- Claim C19.  Normalization invariance for ASCII text, for any provider,
tables and arithmetic: `Split(t)` makes the calls and returns the result of
`Split(normalize(t))`, where `normalize(t)` is `t` lower-cased byte by byte
and cut to its first 64 bytes; `Split` gives the same on two ASCII texts
that differ only in letter case, in particular on `t` upper-cased, and on
two ASCII texts with the same first 64 bytes; `normalize` is idempotent;
and the words returned concatenate to `normalize(t)` and contain no
upper-case letter. -/
theorem Split_normalization_invariant {α : Type} (F : Float32Ops α) (caseTable : Nat → Nat)
    (s : Splitter α) (t : List Nat) (ht : ∀ c ∈ t, c < 128) :
    Split F caseTable s t = Split F caseTable s (normalize caseTable t) ∧
    normalize caseTable t = (t.map asciiLower).take maxLen ∧
    Split F caseTable s (t.map upperASCII) = Split F caseTable s t ∧
    (∀ t', (∀ c ∈ t', c < 128) → t'.map asciiLower = t.map asciiLower →
      Split F caseTable s t' = Split F caseTable s t) ∧
    (∀ t', (∀ c ∈ t', c < 128) → t'.take maxLen = t.take maxLen →
      Split F caseTable s t' = Split F caseTable s t) ∧
    normalize caseTable (normalize caseTable t) = normalize caseTable t ∧
    ∀ ws, (Split F caseTable s t).2 = .ok ws →
      ws.flatten = normalize caseTable t ∧ ∀ w ∈ ws, ∀ c ∈ w, ¬ (65 ≤ c ∧ c ≤ 90) := by
  have hn := normalize_ascii caseTable t ht
  have hidem := normalize_idem_ascii caseTable t ht
  have hcase : ∀ t', (∀ c ∈ t', c < 128) → t'.map asciiLower = t.map asciiLower →
      Split F caseTable s t' = Split F caseTable s t := by
    intro t' ht' hmap
    apply Split_congr
    · constructor
      · intro h
        have := congrArg List.length hmap
        rw [h] at this
        simp only [List.map_nil, List.length_nil, List.length_map] at this
        exact List.length_eq_zero.mp this.symm
      · intro h
        have := congrArg List.length hmap
        rw [h] at this
        simp only [List.map_nil, List.length_nil, List.length_map] at this
        exact List.length_eq_zero.mp this
    · rw [normalize_ascii caseTable t' ht', hn, hmap]
  refine ⟨?_, hn, ?_, hcase, ?_, hidem, ?_⟩
  · apply Split_congr
    · constructor
      · intro h; rw [h]; rfl
      · intro h
        by_contra hc
        exact normalize_ne_nil caseTable t hc h
    · exact hidem.symm
  · apply hcase
    · intro c hc
      obtain ⟨x, hx, rfl⟩ := List.mem_map.mp hc
      exact upperASCII_lt x (ht x hx)
    · rw [List.map_map]
      apply List.map_congr_left
      intro c _
      exact asciiLower_upperASCII c
  · intro t' ht' htake
    apply Split_congr
    · constructor
      · intro h
        rw [h] at htake
        have := congrArg List.length htake
        simp only [List.take_nil, List.length_nil, List.length_take, maxLen] at this
        exact List.length_eq_zero.mp (by omega)
      · intro h
        rw [h] at htake
        have := congrArg List.length htake
        simp only [List.take_nil, List.length_nil, List.length_take, maxLen] at this
        exact List.length_eq_zero.mp (by omega)
    · rw [normalize_ascii caseTable t' ht', hn, ← List.map_take, ← List.map_take, htake]
  · intro ws hws
    have hflat := Split_flatten_of_ok F caseTable s t ws hws
    rw [reencode_of_validUTF8 _ (validUTF8_ascii _
      (fun c hc => (normalize_ascii_lt caseTable t ht c hc).1))] at hflat
    refine ⟨hflat, ?_⟩
    intro w hw c hc
    have : c ∈ ws.flatten := List.mem_flatten.mpr ⟨w, hw, hc⟩
    rw [hflat] at this
    exact (normalize_ascii_lt caseTable t ht c this).2

theorem Split_normalization_invariant_witness :
    Split exact noCase markSplitter [72, 101, 108, 108, 111, 87, 111, 114, 108, 100] =
      Split exact noCase markSplitter
        (normalize noCase [72, 101, 108, 108, 111, 87, 111, 114, 108, 100]) ∧
    normalize noCase [72, 101, 108, 108, 111, 87, 111, 114, 108, 100] =
      [104, 101, 108, 108, 111, 119, 111, 114, 108, 100] ∧
    Split exact noCase markSplitter
        (([72, 101, 108, 108, 111, 87, 111, 114, 108, 100] : List Nat).map upperASCII) =
      Split exact noCase markSplitter [72, 101, 108, 108, 111, 87, 111, 114, 108, 100] := by
  obtain ⟨h1, h2, h3, -⟩ := Split_normalization_invariant exact noCase markSplitter
    [72, 101, 108, 108, 111, 87, 111, 114, 108, 100] (by decide)
  exact ⟨h1, h2.trans (by decide), h3⟩
/-! ## Parsing of the parameter files -/

theorem getD_drop (data : List Nat) (n k : Nat) : (data.drop n).getD k 0 = data.getD (n + k) 0 := by
  simp only [List.getD_eq_getElem?_getD, List.getElem?_drop]

theorem uint32LE_drop (data : List Nat) (i : Nat) :
    uint32LE (data.drop (i * 4)) =
      data.getD (4 * i) 0 + 2 ^ 8 * data.getD (4 * i + 1) 0 + 2 ^ 16 * data.getD (4 * i + 2) 0 +
        2 ^ 24 * data.getD (4 * i + 3) 0 := by
  simp only [uint32LE, getD_drop, Nat.add_zero, Nat.mul_comm i 4]

/-- The bytes from the last multiple of four on are not read. -/
theorem uint32LE_drop_take (data : List Nat) (i : Nat) (h : i < data.length / 4) :
    uint32LE ((data.take (4 * (data.length / 4))).drop (i * 4)) = uint32LE (data.drop (i * 4)) := by
  have hk : ∀ k, k < 4 → (data.take (4 * (data.length / 4))).getD (4 * i + k) 0 =
      data.getD (4 * i + k) 0 := by
    intro k hk
    simp only [List.getD_eq_getElem?_getD]
    rw [List.getElem?_take_of_lt (by omega)]
  rw [uint32LE_drop, uint32LE_drop]
  have h0 := hk 0 (by omega)
  rw [Nat.add_zero] at h0
  rw [h0, hk 1 (by omega), hk 2 (by omega), hk 3 (by omega)]

theorem New_tables {α : Type} (W : World α) (modelDir : List Nat) (s : Splitter α)
    (h : New W modelDir = .ok s) :
    loadFloat32Bin W modelDir .transitions = some s.transitions ∧
      loadFloat32Bin W modelDir .startTransitions = some s.startTransitions ∧
      loadFloat32Bin W modelDir .endTransitions = some s.endTransitions := by
  unfold New at h
  by_cases hi : W.initORT = false
  · rw [if_pos hi] at h; exact Except.noConfusion h
  · rw [if_neg hi] at h
    cases hs : W.newSession modelDir with
    | none => rw [hs] at h; exact Except.noConfusion h
    | some session =>
      rw [hs] at h
      cases h1 : loadFloat32Bin W modelDir .transitions with
      | none => rw [h1] at h; exact Except.noConfusion h
      | some t1 =>
        cases h2 : loadFloat32Bin W modelDir .startTransitions with
        | none => rw [h1, h2] at h; exact Except.noConfusion h
        | some t2 =>
          cases h3 : loadFloat32Bin W modelDir .endTransitions with
          | none => rw [h1, h2, h3] at h; exact Except.noConfusion h
          | some t3 =>
            rw [h1, h2, h3] at h
            simp only [Except.ok.injEq] at h
            subst h
            exact ⟨rfl, rfl, rfl⟩

/-- Claim C20.  Parameter file parsing: for a file read successfully as the
bytes `data`, `loadFloat32Bin` returns exactly `len(data)/4` values (rounded
down); value `i` is the `float32` with the bit pattern
`data[4i] + 2^8*data[4i+1] + 2^16*data[4i+2] + 2^24*data[4i+3]`; the bytes
after the last multiple of four, at most 3, are ignored without error (the
file cut there gives the same values); the table `New` stores is the one
loaded from `transitions.bin`, and the decoder reads the score of the
transition from tag `i` to tag `j` at element `i*2+j` of it. -/
theorem loadFloat32Bin_parses {α : Type} (W : World α) (modelDir : List Nat) (f : ModelFile)
    (data : List Nat) (hread : W.readFile modelDir f = some data) :
    ∃ xs, loadFloat32Bin W modelDir f = some xs ∧ xs.length = data.length / 4 ∧
      (∀ i, i < data.length / 4 →
        xs[i]? = some (W.float32frombits
          (data.getD (4 * i) 0 + 2 ^ 8 * data.getD (4 * i + 1) 0 +
            2 ^ 16 * data.getD (4 * i + 2) 0 + 2 ^ 24 * data.getD (4 * i + 3) 0))) ∧
      data.length - 4 * (data.length / 4) ≤ 3 ∧
      (∀ W' : World α, W'.float32frombits = W.float32frombits →
        W'.readFile modelDir f = some (data.take (4 * (data.length / 4))) →
        loadFloat32Bin W' modelDir f = some xs) ∧
      (∀ s, New W modelDir = .ok s →
        loadFloat32Bin W modelDir .transitions = some s.transitions) ∧
      (∀ (F : Float32Ops α) (s : Splitter α) (score emissions : List α) (emitOffset i j : Nat)
        (st : α × Nat) (a p e : α),
        score[i]? = some a → s.transitions[i * 2 + j]? = some p →
        emissions[emitOffset + j]? = some e →
        tagStep F s score emissions emitOffset j st i =
          some (keepBest F st (F.add (F.add a p) e) i)) := by
  refine ⟨(List.range (data.length / 4)).map
      (fun i => W.float32frombits (uint32LE (data.drop (i * 4)))),
    by simp only [loadFloat32Bin, hread], by simp, ?_, by omega, ?_, ?_, ?_⟩
  · intro i hi
    rw [List.getElem?_map, List.getElem?_range hi, Option.map_some', uint32LE_drop]
  · intro W' hbits hread'
    simp only [loadFloat32Bin, hread', hbits, List.length_take, Option.some.injEq]
    have hlen : min (4 * (data.length / 4)) data.length / 4 = data.length / 4 := by
      rw [Nat.min_eq_left (by omega)]
      omega
    rw [hlen]
    apply List.map_congr_left
    intro i hi
    rw [uint32LE_drop_take data i (List.mem_range.mp hi)]
  · intro s hs
    exact (New_tables W modelDir s hs).1
  · intro F s score emissions emitOffset i j st a p e h1 h2 h3
    simp only [tagStep, numTags, h1, h2, h3]

theorem loadFloat32Bin_parses_witness :
    ∃ xs, loadFloat32Bin trailingBytesWorld [] .transitions = some xs ∧ xs.length = 1 ∧
      xs[0]? = some (0 + 2 ^ 8 * 0 + 2 ^ 16 * 128 + 2 ^ 24 * 63) := by
  obtain ⟨xs, h1, h2, h3, -⟩ := loadFloat32Bin_parses trailingBytesWorld [] .transitions
    [0, 0, 128, 63, 7, 7] rfl
  exact ⟨xs, h1, h2, h3 0 (by decide)⟩
/-! ## SplitBatch as a schedule of chunks -/

theorem runSchedule_append {α : Type} (F : Float32Ops α) (s : Splitter α) :
    ∀ (a b : List (Nat × List Item)) (st : List (Event α) × Results),
      runSchedule F s (a ++ b) st =
        match runSchedule F s a st with
        | (trace, .error e) => (trace, .error e)
        | (trace, .ok results) => runSchedule F s b (trace, results) := by
  intro a
  induction a with
  | nil => intro b st; rfl
  | cons c rest ih =>
    intro b st
    simp only [List.cons_append, runSchedule]
    rcases hproc : processChunk F s c.1 c.2 st with ⟨tr, e | R1⟩
    · rfl
    · exact ih b (tr, R1)

/-- The loop over the chunks of one group runs the chunks `chunksFrom` lists. -/
theorem chunkLoop_eq_run {α : Type} (F : Float32Ops α) (s : Splitter α) (l : Nat)
    (group : List Item) (bs : Nat) (hbs : 1 ≤ bs) :
    ∀ (fuel batchStart : Nat) (st : List (Event α) × Results),
      group.length ≤ fuel + batchStart →
      chunkLoop F s l group bs fuel batchStart st =
        runSchedule F s ((chunksFrom group bs fuel batchStart).map (fun c => (l, c))) st := by
  intro fuel
  induction fuel with
  | zero =>
    intro batchStart st hf
    have hn : ¬ batchStart < group.length := by omega
    simp only [chunkLoop, if_neg hn, chunksFrom, List.map_nil, runSchedule]
  | succ fuel ih =>
    intro batchStart st hf
    by_cases hlt : batchStart < group.length
    · simp only [chunkLoop, if_pos hlt, chunksFrom, List.map_cons, runSchedule]
      rcases hproc : processChunk F s l ((group.take (if batchStart + bs > group.length
          then group.length else batchStart + bs)).drop batchStart) st with ⟨tr, e | R1⟩
      · rfl
      · exact ih (batchStart + bs) (tr, R1) (by omega)
    · simp only [chunkLoop, if_neg hlt, chunksFrom, List.map_nil, runSchedule]

/-- The loop over the lengths runs the chunks `schedule` lists. -/
theorem groupLoop_eq_run {α : Type} (F : Float32Ops α) (s : Splitter α) (groups : Groups)
    (bs : Nat) (hbs : 1 ≤ bs) :
    ∀ (lengths : List Nat) (st : List (Event α) × Results),
      groupLoop F s groups bs lengths st = runSchedule F s (schedule groups bs lengths) st := by
  intro lengths
  induction lengths with
  | nil => intro st; rfl
  | cons l rest ih =>
    intro st
    simp only [groupLoop, schedule, List.flatMap_cons]
    rw [runSchedule_append, ← chunkLoop_eq_run F s l (groups.get l) bs hbs _ 0 st (by omega)]
    rcases hproc : chunkLoop F s l (groups.get l) bs (groups.get l).length 0 st with ⟨tr, e | R1⟩
    · rfl
    · exact ih (tr, R1)

/-- Method `SplitBatch` runs the chunks of `chunkPlan`, in order, from the
results of its first loop. -/
theorem SplitBatch_eq_run {α : Type} (F : Float32Ops α) (caseTable : Nat → Nat)
    (s : Splitter α) (texts : List (List Nat)) (batchSize : Int) :
    SplitBatch F caseTable s texts batchSize =
      runSchedule F s (chunkPlan caseTable texts batchSize)
        ([], initialResults caseTable texts) := by
  by_cases hne : texts = []
  · subst hne
    rfl
  · have hlen : ¬ texts.length = 0 := fun hc => hne (List.length_eq_zero.mp hc)
    simp only [SplitBatch, if_neg hlen, chunkPlan, initialResults]
    exact groupLoop_eq_run F s _ _ (maxSubBatch_pos batchSize) _ _

theorem chunksFrom_flatten (group : List Item) (bs : Nat) (hbs : 1 ≤ bs) :
    ∀ (fuel batchStart : Nat), group.length ≤ fuel + batchStart →
      (chunksFrom group bs fuel batchStart).flatten = group.drop batchStart := by
  intro fuel
  induction fuel with
  | zero =>
    intro batchStart hf
    simp only [chunksFrom, List.flatten_nil]
    rw [List.drop_of_length_le (by omega)]
  | succ fuel ih =>
    intro batchStart hf
    by_cases hlt : batchStart < group.length
    · simp only [chunksFrom, if_pos hlt, List.flatten_cons]
      rw [take_drop_chunk group batchStart bs hlt, ih (batchStart + bs) (by omega),
        ← List.drop_drop, List.take_append_drop]
    · simp only [chunksFrom, if_neg hlt, List.flatten_nil]
      rw [List.drop_of_length_le (by omega)]

theorem chunksFrom_bounds (group : List Item) (bs : Nat) (hbs : 1 ≤ bs) :
    ∀ (fuel batchStart : Nat), ∀ c ∈ chunksFrom group bs fuel batchStart,
      1 ≤ c.length ∧ c.length ≤ bs := by
  intro fuel
  induction fuel with
  | zero =>
    intro batchStart c hc
    simp [chunksFrom] at hc
  | succ fuel ih =>
    intro batchStart c hc
    by_cases hlt : batchStart < group.length
    · simp only [chunksFrom, if_pos hlt, List.mem_cons] at hc
      rcases hc with rfl | hc
      · rw [take_drop_chunk group batchStart bs hlt]
        simp only [List.length_take, List.length_drop]
        omega
      · exact ih _ c hc
    · simp [chunksFrom, if_neg hlt] at hc

theorem mem_schedule (groups : Groups) (bs : Nat) (lengths : List Nat) (c : Nat × List Item) :
    c ∈ schedule groups bs lengths ↔
      c.1 ∈ lengths ∧ c.2 ∈ chunksFrom (groups.get c.1) bs (groups.get c.1).length 0 := by
  simp only [schedule, List.mem_flatMap, List.mem_map]
  constructor
  · rintro ⟨l, hl, c', hc', rfl⟩
    exact ⟨hl, hc'⟩
  · rintro ⟨h1, h2⟩
    exact ⟨c.1, h1, c.2, h2, rfl⟩

/-- The chunks of the schedule that belong to the group of one length. -/
theorem schedule_filter (groups : Groups) (bs : Nat) (l : Nat) :
    ∀ (lengths : List Nat), lengths.Nodup →
      (schedule groups bs lengths).filter (fun c => decide (c.1 = l)) =
        if l ∈ lengths then
          (chunksFrom (groups.get l) bs (groups.get l).length 0).map (fun c => (l, c))
        else [] := by
  intro lengths
  induction lengths with
  | nil => intro _; rfl
  | cons l' rest ih =>
    intro hnd
    have hnd' := List.nodup_cons.mp hnd
    have hsched : schedule groups bs (l' :: rest) =
        (chunksFrom (groups.get l') bs (groups.get l').length 0).map (fun c => (l', c)) ++
          schedule groups bs rest := by
      simp only [schedule, List.flatMap_cons]
    rw [hsched, List.filter_append, ih hnd'.2]
    by_cases hl : l' = l
    · subst hl
      rw [if_neg hnd'.1, if_pos (List.mem_cons_self _ _), List.append_nil]
      apply List.filter_eq_self.mpr
      intro c hc
      obtain ⟨c', -, rfl⟩ := List.mem_map.mp hc
      simp
    · have hnone : ((chunksFrom (groups.get l') bs (groups.get l').length 0).map
          (fun c => (l', c))).filter (fun c => decide (c.1 = l)) = [] := by
        apply List.filter_eq_nil_iff.mpr
        intro c hc
        obtain ⟨c', -, rfl⟩ := List.mem_map.mp hc
        simp [hl]
      rw [hnone, List.nil_append]
      by_cases hmem : l ∈ rest
      · rw [if_pos hmem, if_pos (List.mem_cons_of_mem _ hmem)]
      · rw [if_neg hmem, if_neg (by
          intro hc
          rcases List.mem_cons.mp hc with h | h
          · exact hl h.symm
          · exact hmem h)]

theorem Groups.push_keys_nodup (g : Groups) (l : Nat) (it : Item) (h : g.keys.Nodup) :
    (g.push l it).keys.Nodup := by
  simp only [Groups.push]
  split_ifs with hc
  · exact h
  · rw [List.nodup_append]
    refine ⟨h, List.nodup_singleton l, ?_⟩
    intro a ha hb
    rw [List.mem_singleton.mp hb] at ha
    exact hc ha

theorem groupInputs_keys_nodup (caseTable : Nat → Nat) :
    ∀ (texts : List (List Nat)) (i : Nat) (st : Results × Groups), st.2.keys.Nodup →
      (groupInputs caseTable texts i st).2.keys.Nodup := by
  intro texts
  induction texts with
  | nil => intro i st h; exact h
  | cons text rest ih =>
    intro i st h
    simp only [groupInputs]
    split_ifs
    · exact ih (i + 1) _ h
    · exact ih (i + 1) _ (Groups.push_keys_nodup st.2 _ _ h)

theorem itemsFrom_index_ge (caseTable : Nat → Nat) (texts : List (List Nat)) (i : Nat)
    (it : Item) (h : it ∈ itemsFrom caseTable texts i) : i ≤ it.index := by
  obtain ⟨k, t, -, rfl, -⟩ := (itemsFrom_mem caseTable texts i it).mp h
  exact Nat.le_add_right i k

/-- No two items have the same index. -/
theorem itemsFrom_index_nodup (caseTable : Nat → Nat) :
    ∀ (texts : List (List Nat)) (i : Nat), ((itemsFrom caseTable texts i).map Item.index).Nodup := by
  intro texts
  induction texts with
  | nil => intro i; exact List.nodup_nil
  | cons text rest ih =>
    intro i
    simp only [itemsFrom]
    split_ifs
    · exact ih (i + 1)
    · rw [List.map_cons, List.nodup_cons]
      refine ⟨?_, ih (i + 1)⟩
      intro hc
      obtain ⟨it, hit, hi⟩ := List.mem_map.mp hc
      have := itemsFrom_index_ge caseTable rest (i + 1) it hit
      simp only at hi
      omega

/-- Among lists whose concatenation has no duplicate, exactly one holds a
given element of the concatenation. -/
theorem filter_mem_length_one (i : Nat) : ∀ (rows : List (List Nat)), rows.flatten.Nodup →
    i ∈ rows.flatten → (rows.filter (fun r => decide (i ∈ r))).length = 1 := by
  intro rows
  induction rows with
  | nil => intro _ h; simp at h
  | cons r rest ih =>
    intro hnd hmem
    rw [List.flatten_cons, List.nodup_append] at hnd
    obtain ⟨-, h2, h3⟩ := hnd
    rw [List.flatten_cons, List.mem_append] at hmem
    by_cases hr : i ∈ r
    · have hrest : rest.filter (fun r => decide (i ∈ r)) = [] := by
        apply List.filter_eq_nil_iff.mpr
        intro r' hr'
        simp only [decide_eq_true_eq]
        intro hc
        exact h3 hr (List.mem_flatten.mpr ⟨r', hr', hc⟩)
      simp [List.filter_cons, hr, hrest]
    · have := ih h2 (hmem.resolve_left hr)
      simp [List.filter_cons, hr, this]
/-! ## The shape of the chunks of SplitBatch -/

/-- The groups the first loop builds: the group of a length holds the items
of that length in input order, and the sorted lengths are each listed once. -/
theorem chunkPlan_groups (caseTable : Nat → Nat) (texts : List (List Nat)) :
    (∀ l, (groupInputs caseTable texts 0 (List.replicate texts.length none, Groups.empty)).2.get l =
      (itemsFrom caseTable texts 0).filter (fun it => decide (it.text.length = l))) ∧
    (∀ l, l ∈ List.insertionSort (fun a b => a ≤ b)
        (groupInputs caseTable texts 0 (List.replicate texts.length none, Groups.empty)).2.keys ↔
      ∃ it ∈ itemsFrom caseTable texts 0, it.text.length = l) ∧
    (List.insertionSort (fun a b => a ≤ b)
      (groupInputs caseTable texts 0 (List.replicate texts.length none, Groups.empty)).2.keys).Nodup := by
  obtain ⟨g1, g2, -, -, -⟩ :=
    groupInputs_spec caseTable texts 0 (List.replicate texts.length none, Groups.empty)
  refine ⟨?_, ?_, ?_⟩
  · intro l
    rw [g1 l]
    rfl
  · intro l
    rw [(List.perm_insertionSort _ _).mem_iff, g2 l]
    simp [Groups.empty]
  · rw [(List.perm_insertionSort _ _).nodup_iff]
    exact groupInputs_keys_nodup caseTable texts 0 _ List.nodup_nil

/-- The chunks of the plan that belong to one length are the chunks of the
items of that length. -/
theorem chunkPlan_filter (caseTable : Nat → Nat) (texts : List (List Nat)) (batchSize : Int)
    (l : Nat) :
    ((chunkPlan caseTable texts batchSize).filter (fun c => decide (c.1 = l))).map Prod.snd =
      chunksFrom ((itemsFrom caseTable texts 0).filter (fun it => decide (it.text.length = l)))
        (maxSubBatch batchSize)
        ((itemsFrom caseTable texts 0).filter (fun it => decide (it.text.length = l))).length 0 := by
  obtain ⟨g1, g2, g3⟩ := chunkPlan_groups caseTable texts
  simp only [chunkPlan]
  rw [schedule_filter _ _ l _ g3, g1 l]
  split_ifs with hl
  · rw [List.map_map]
    exact List.map_id _
  · have hnil : (itemsFrom caseTable texts 0).filter (fun it => decide (it.text.length = l)) = [] := by
      apply List.filter_eq_nil_iff.mpr
      intro it hit
      simp only [decide_eq_true_eq]
      intro hc
      exact hl ((g2 l).mpr ⟨it, hit, hc⟩)
    rw [hnil]
    rfl

/-- A chunk of the plan: between 1 and `maxSubBatch` members, all items of
the length of its group. -/
theorem mem_chunkPlan (caseTable : Nat → Nat) (texts : List (List Nat)) (batchSize : Int)
    (c : Nat × List Item) (hc : c ∈ chunkPlan caseTable texts batchSize) :
    1 ≤ c.2.length ∧ c.2.length ≤ maxSubBatch batchSize ∧ 1 ≤ c.1 ∧ c.1 ≤ maxLen ∧
      ∀ it ∈ c.2, it ∈ itemsFrom caseTable texts 0 ∧ it.text.length = c.1 := by
  obtain ⟨g1, -, -⟩ := chunkPlan_groups caseTable texts
  have hbs := maxSubBatch_pos batchSize
  simp only [chunkPlan] at hc
  obtain ⟨-, h2⟩ := (mem_schedule _ _ _ c).mp hc
  rw [g1 c.1] at h2
  obtain ⟨b1, b2⟩ := chunksFrom_bounds _ _ hbs _ _ c.2 h2
  have hmem : ∀ it ∈ c.2, it ∈ itemsFrom caseTable texts 0 ∧ it.text.length = c.1 := by
    intro it hit
    have : it ∈ (chunksFrom _ (maxSubBatch batchSize) _ 0).flatten :=
      List.mem_flatten.mpr ⟨c.2, h2, hit⟩
    rw [chunksFrom_flatten _ _ hbs _ 0 (by omega), List.drop_zero, List.mem_filter,
      decide_eq_true_eq] at this
    exact this
  obtain ⟨it0, hit0⟩ := List.exists_mem_of_length_pos (by omega : 0 < c.2.length)
  obtain ⟨h3, h4⟩ := hmem it0 hit0
  obtain ⟨-, -, h5, h6⟩ := itemsFrom_good caseTable texts it0 h3
  exact ⟨b1, b2, by omega, by omega, hmem⟩

/-- Every input that is not empty after normalisation is a member of
exactly one chunk of the plan. -/
theorem chunkPlan_exactly_one (caseTable : Nat → Nat) (texts : List (List Nat))
    (batchSize : Int) (i : Nat) (t : List Nat) (hi : texts[i]? = some t)
    (ht : normalize caseTable t ≠ []) :
    ((chunkPlan caseTable texts batchSize).filter
      (fun c => decide (i ∈ c.2.map Item.index))).length = 1 := by
  have hbs := maxSubBatch_pos batchSize
  have hitem : (⟨i, normalize caseTable t⟩ : Item) ∈ itemsFrom caseTable texts 0 := by
    rw [itemsFrom_mem]
    exact ⟨i, t, hi, by rw [Nat.zero_add], fun hc => ht (List.length_eq_zero.mp hc)⟩
  have hlen : ∀ it' ∈ itemsFrom caseTable texts 0, it'.index = i →
      it'.text.length = (normalize caseTable t).length := by
    intro it' hit' hidx
    obtain ⟨k, t', h1, h2, -⟩ := (itemsFrom_mem caseTable texts 0 it').mp hit'
    subst h2
    simp only [Nat.zero_add] at hidx
    subst hidx
    rw [hi] at h1
    cases Option.some.inj h1
    rfl
  have hsame : (chunkPlan caseTable texts batchSize).filter
      (fun c => decide (i ∈ c.2.map Item.index)) =
      ((chunkPlan caseTable texts batchSize).filter
        (fun c => decide (c.1 = (normalize caseTable t).length))).filter
        (fun c => decide (i ∈ c.2.map Item.index)) := by
    rw [List.filter_filter]
    apply List.filter_congr
    intro c hc
    by_cases hmem : i ∈ c.2.map Item.index
    · obtain ⟨it', hit', hidx⟩ := List.mem_map.mp hmem
      obtain ⟨-, -, -, -, h5⟩ := mem_chunkPlan caseTable texts batchSize c hc
      obtain ⟨h6, h7⟩ := h5 it' hit'
      have := hlen it' h6 hidx
      simp [hmem, ← h7, this]
    · simp [hmem]
  have hflat : (((chunkPlan caseTable texts batchSize).filter
      (fun c => decide (c.1 = (normalize caseTable t).length))).map
        (fun c => c.2.map Item.index)).flatten =
      ((itemsFrom caseTable texts 0).filter
        (fun it => decide (it.text.length = (normalize caseTable t).length))).map Item.index := by
    have h := chunkPlan_filter caseTable texts batchSize (normalize caseTable t).length
    have h2 := congrArg (fun L => (L.map (List.map Item.index)).flatten) h
    simp only [List.map_map] at h2
    rw [← List.map_flatten, chunksFrom_flatten _ _ hbs _ 0 (by omega), List.drop_zero] at h2
    exact h2
  have hone := filter_mem_length_one i _
    (by
      rw [hflat]
      exact (itemsFrom_index_nodup caseTable texts 0).sublist
        ((List.filter_sublist _).map Item.index))
    (by
      rw [hflat]
      exact List.mem_map.mpr ⟨⟨i, normalize caseTable t⟩,
        List.mem_filter.mpr ⟨hitem, by simp⟩, rfl⟩)
  rw [hsame]
  rw [List.filter_map, List.length_map] at hone
  exact hone

/-- A chunk that ends with results has written only the entries of its own
members. -/
theorem processChunk_writes_own {α : Type} (F : Float32Ops α) (s : Splitter α) (l : Nat)
    (batch : List Item) (st : List (Event α) × Results) (R' : Results)
    (h : (processChunk F s l batch st).2 = .ok R') :
    R'.length = st.2.length ∧ ∀ j, j ∉ batch.map Item.index → R'[j]? = st.2[j]? := by
  simp only [processChunk] at h
  cases hrun : runInference s (fillCharIds l batch 0 (List.replicate (batch.length * l) 0))
      batch.length l with
  | none => rw [hrun] at h; exact Except.noConfusion h
  | some em =>
    rw [hrun] at h
    simp only at h
    cases hdec : crfDecodeBatch F s em batch.length l with
    | none => rw [hdec] at h; exact Except.noConfusion h
    | some preds =>
      rw [hdec] at h
      simp only at h
      cases hwr : writeResults (batch.map Item.text) preds batch 0 st.2 with
      | none => rw [hwr] at h; exact Except.noConfusion h
      | some R1 =>
        rw [hwr] at h
        cases Except.ok.inj h
        obtain ⟨h1, h2⟩ := writeResults_spec batch preds batch 0 st.2 _ rfl hwr
        exact ⟨h1, fun j hj => (h2 j).1 hj⟩

/-- A list of chunks processed in order handles the members of all of them. -/
theorem runSchedule_handles {α : Type} (F : Float32Ops α) (s : Splitter α) (bs : Nat)
    (Q : Item → List (List Nat) → Prop) (good : Item → Prop) (hQ : ChunkSound F s Q good) :
    ∀ (sched : List (Nat × List Item)) (st : List (Event α) × Results),
      (∀ c ∈ sched, 1 ≤ c.1 ∧ c.1 ≤ maxLen ∧ c.2 ≠ [] ∧ c.2.length ≤ bs ∧
        ∀ it ∈ c.2, (good it ∧ it.text.length = c.1) ∧ it.index < st.2.length) →
      Handles s bs Q (sched.flatMap Prod.snd) st (runSchedule F s sched st) := by
  intro sched
  induction sched with
  | nil =>
    intro st _
    exact Handles_nil s bs Q st
  | cons c rest ih =>
    intro st hall
    obtain ⟨h1, h2, h3, h4, h5⟩ := hall c (List.mem_cons_self _ _)
    have hchunk := processChunk_handles F s bs Q good hQ c.1 c.2 st h1 h2 h3 h4
      (fun it hit => (h5 it hit).1) (fun it hit => (h5 it hit).2)
    simp only [runSchedule, List.flatMap_cons]
    rcases hproc : processChunk F s c.1 c.2 st with ⟨tr, e | R1⟩
    · rw [hproc] at hchunk
      exact Handles_stop s bs Q _ _ st tr e hchunk
    · rw [hproc] at hchunk
      have hlen : R1.length = st.2.length := by
        obtain ⟨new, -, -, h3⟩ := hchunk
        rcases h3 with ⟨R', h4, -, h6⟩ | ⟨h4, -⟩ | ⟨h4, -⟩
        · simp only [Except.ok.injEq] at h4
          subst h4
          exact h6.1
        · exact Except.noConfusion h4
        · exact Except.noConfusion h4
      exact Handles_seq s bs Q _ _ st tr R1 _ hchunk
        (ih (tr, R1) (fun c' hc' => by
          obtain ⟨a1, a2, a3, a4, a5⟩ := hall c' (List.mem_cons_of_mem _ hc')
          exact ⟨a1, a2, a3, a4, fun it hit => ⟨(a5 it hit).1, by rw [hlen]; exact (a5 it hit).2⟩⟩))

/-- The members of the chunks of the plan are the items. -/
theorem mem_chunkPlan_flatMap (caseTable : Nat → Nat) (texts : List (List Nat))
    (batchSize : Int) (it : Item) :
    it ∈ (chunkPlan caseTable texts batchSize).flatMap Prod.snd ↔
      it ∈ itemsFrom caseTable texts 0 := by
  constructor
  · intro h
    obtain ⟨c, hc, hit⟩ := List.mem_flatMap.mp h
    exact ((mem_chunkPlan caseTable texts batchSize c hc).2.2.2.2 it hit).1
  · intro h
    have hmem : it ∈ (itemsFrom caseTable texts 0).filter
        (fun x => decide (x.text.length = it.text.length)) :=
      List.mem_filter.mpr ⟨h, by simp⟩
    have e := chunkPlan_filter caseTable texts batchSize it.text.length
    have f := chunksFrom_flatten ((itemsFrom caseTable texts 0).filter
      (fun x => decide (x.text.length = it.text.length))) _ (maxSubBatch_pos batchSize) _ 0
      (Nat.le_refl _)
    rw [List.drop_zero] at f
    rw [← f, ← e] at hmem
    obtain ⟨c2, hc2, hit⟩ := List.mem_flatten.mp hmem
    obtain ⟨c, hc, rfl⟩ := List.mem_map.mp hc2
    exact List.mem_flatMap.mpr ⟨c, (List.mem_filter.mp hc).1, hit⟩

/-- Results in which exactly the entries of the items are written, each with
the words of its single-row decode, are determined. -/
theorem written_unique {α : Type} (F : Float32Ops α) (caseTable : Nat → Nat) (s : Splitter α)
    (texts : List (List Nat)) (R R' : Results)
    (h : Written (SingleOf F s) (itemsFrom caseTable texts 0) (initialResults caseTable texts) R)
    (h' : Written (SingleOf F s) (itemsFrom caseTable texts 0) (initialResults caseTable texts) R') :
    R = R' := by
  apply List.ext_getElem?
  intro i
  by_cases hi : i < texts.length
  · rcases entry_of_written caseTable texts _ R h i texts[i] (List.getElem?_eq_getElem hi) with
      ⟨ht, a⟩ | ⟨ht, w, a, b⟩
    · rcases entry_of_written caseTable texts _ R' h' i texts[i]
        (List.getElem?_eq_getElem hi) with ⟨-, a'⟩ | ⟨ht', -⟩
      · rw [a, a']
      · exact absurd ht ht'
    · rcases entry_of_written caseTable texts _ R' h' i texts[i]
        (List.getElem?_eq_getElem hi) with ⟨ht', -⟩ | ⟨-, w', a', b'⟩
      · exact absurd ht' ht
      · simp only [SingleOf] at b b'
        rw [b] at b'
        cases Option.some.inj b'
        rw [a, a']
  · rw [List.getElem?_eq_none (by rw [h.1, initialResults_length]; omega),
      List.getElem?_eq_none (by rw [h'.1, initialResults_length]; omega)]

/-- The chunks of the plan processed in any order, with well-sized tables
and a provider that never fails and scores rows independently, end with
results in which exactly the entries of the items are written, each with the
words of its single-row decode. -/
theorem perm_plan_written {α : Type} (F : Float32Ops α) (caseTable : Nat → Nat)
    (s : Splitter α) (hs : s.WellSized) (hnf : s.NeverFails) (hrw : s.RowWise)
    (texts : List (List Nat)) (batchSize : Int) (sched : List (Nat × List Item))
    (hperm : sched.Perm (chunkPlan caseTable texts batchSize)) :
    ∃ R, (runSchedule F s sched ([], initialResults caseTable texts)).2 = .ok R ∧
      Written (SingleOf F s) (itemsFrom caseTable texts 0) (initialResults caseTable texts) R := by
  have hH := runSchedule_handles F s (maxSubBatch batchSize) (SingleOf F s)
    (GoodItem caseTable texts) (chunkSound_singleOf F s hnf hrw _) sched
    ([], initialResults caseTable texts) (by
      intro c hc
      obtain ⟨h1, h2, h3, h4, h5⟩ :=
        mem_chunkPlan caseTable texts batchSize c (hperm.mem_iff.mp hc)
      refine ⟨h3, h4, List.ne_nil_of_length_pos (by omega), h2, ?_⟩
      intro it hit
      obtain ⟨h6, h7⟩ := h5 it hit
      obtain ⟨h8, h9, -, -⟩ := itemsFrom_good caseTable texts it h6
      exact ⟨⟨h8, h7⟩, by
        show it.index < (initialResults caseTable texts).length
        rw [initialResults_length]; exact h9⟩)
  have hH' := Handles_of_mem_iff s _ _ _ (itemsFrom caseTable texts 0) _ _ (by
    intro it
    rw [← mem_chunkPlan_flatMap caseTable texts batchSize it]
    simp only [List.mem_flatMap]
    constructor
    · rintro ⟨c, hc, hit⟩
      exact ⟨c, hperm.mem_iff.mp hc, hit⟩
    · rintro ⟨c, hc, hit⟩
      exact ⟨c, hperm.mem_iff.mpr hc, hit⟩) hH
  obtain ⟨new, -, -, h3⟩ := hH'
  rcases h3 with ⟨R, h4, -, h6⟩ | ⟨-, e, -, hf⟩ | ⟨-, h5, -⟩
  · exact ⟨R, h4, h6⟩
  · rw [fails_false_of_neverFails s hnf e] at hf
    exact Bool.noConfusion hf
  · exact absurd hs h5

/-- No index is a member of two chunks of the plan. -/
theorem chunkPlan_at_most_one (caseTable : Nat → Nat) (texts : List (List Nat))
    (batchSize : Int) (j : Nat) :
    ((chunkPlan caseTable texts batchSize).filter
      (fun c => decide (j ∈ c.2.map Item.index))).length ≤ 1 := by
  by_cases h : ∃ c ∈ chunkPlan caseTable texts batchSize, j ∈ c.2.map Item.index
  · obtain ⟨c, hc, hj⟩ := h
    obtain ⟨it, hit, hidx⟩ := List.mem_map.mp hj
    obtain ⟨h6, -⟩ := (mem_chunkPlan caseTable texts batchSize c hc).2.2.2.2 it hit
    obtain ⟨⟨t, h1, h2, h3⟩, -⟩ := itemsFrom_good caseTable texts it h6
    rw [hidx] at h1
    rw [chunkPlan_exactly_one caseTable texts batchSize j t h1 (by rw [← h2]; exact h3)]
  · have : (chunkPlan caseTable texts batchSize).filter
        (fun c => decide (j ∈ c.2.map Item.index)) = [] := by
      apply List.filter_eq_nil_iff.mpr
      intro c hc
      simp only [decide_eq_true_eq]
      intro hj
      exact h ⟨c, hc, hj⟩
    rw [this]
    exact Nat.zero_le 1

/-- Claim C16.  Grouping invariance, for every list of texts and every
`batchSize`, with tables of the sizes of the data model and an emission
provider that never fails and scores each row of a batch as it scores that
row alone: `SplitBatch` processes the chunks of `chunkPlan` in order and
returns a result list, and processing the same chunks in any other order
returns the same result list; a chunk that ends with results has left every
entry other than those of its own members as it was; and no index is a
member of two chunks, so no entry is written by two chunks. -/
theorem grouping_invariance {α : Type} (F : Float32Ops α) (caseTable : Nat → Nat)
    (s : Splitter α) (hs : s.WellSized) (hnf : s.NeverFails) (hrw : s.RowWise)
    (texts : List (List Nat)) (batchSize : Int) :
    SplitBatch F caseTable s texts batchSize =
      runSchedule F s (chunkPlan caseTable texts batchSize)
        ([], initialResults caseTable texts) ∧
    (∃ R, (SplitBatch F caseTable s texts batchSize).2 = .ok R ∧
      ∀ sched, sched.Perm (chunkPlan caseTable texts batchSize) →
        (runSchedule F s sched ([], initialResults caseTable texts)).2 = .ok R) ∧
    (∀ (c : Nat × List Item) (st : List (Event α) × Results) (R' : Results),
      (processChunk F s c.1 c.2 st).2 = .ok R' →
      R'.length = st.2.length ∧ ∀ j, j ∉ c.2.map Item.index → R'[j]? = st.2[j]?) ∧
    (∀ j, ((chunkPlan caseTable texts batchSize).filter
      (fun c => decide (j ∈ c.2.map Item.index))).length ≤ 1) := by
  have hrun := SplitBatch_eq_run F caseTable s texts batchSize
  refine ⟨hrun, ?_, fun c st R' h => processChunk_writes_own F s c.1 c.2 st R' h,
    chunkPlan_at_most_one caseTable texts batchSize⟩
  obtain ⟨R, h1, h2⟩ := perm_plan_written F caseTable s hs hnf hrw texts batchSize _
    (List.Perm.refl _)
  refine ⟨R, by rw [hrun]; exact h1, ?_⟩
  intro sched hperm
  obtain ⟨R', h1', h2'⟩ := perm_plan_written F caseTable s hs hnf hrw texts batchSize sched hperm
  rw [h1', written_unique F caseTable s texts R R' h2 h2']

theorem grouping_invariance_witness :
    ∃ R, (SplitBatch exact noCase markSplitter [[119, 119], [97], [98, 119], [99]] 1).2 = .ok R ∧
      ∀ sched, sched.Perm (chunkPlan noCase [[119, 119], [97], [98, 119], [99]] 1) →
        (runSchedule exact markSplitter sched
          ([], initialResults noCase [[119, 119], [97], [98, 119], [99]])).2 = .ok R :=
  (grouping_invariance exact noCase markSplitter markSplitter_wellSized markSplitter_neverFails
    markSplitter_rowWise [[119, 119], [97], [98, 119], [99]] 1).2.1
/-! ## Index safety of the decoder and the assembler -/

/-- Every call `Split` makes is a call for one sequence. -/
theorem Split_calls_batchSize {α : Type} (F : Float32Ops α) (caseTable : Nat → Nat)
    (s : Splitter α) (text : List Nat) :
    ∀ e ∈ (Split F caseTable s text).1, e.batchSize = 1 := by
  by_cases ht : text = []
  · subst ht
    intro e he
    simp [Split] at he
  · have hlen : ¬ text.length = 0 := fun hc => ht (List.length_eq_zero.mp hc)
    simp only [Split, if_neg hlen]
    intro e he
    repeat' split at he
    all_goals
      simp only [List.mem_cons, List.mem_singleton, List.not_mem_nil, or_false] at he
      rcases he with rfl | rfl <;> rfl

/-- The emissions `Split` hands to the decoder are the `1*seqLen*2` scores
of the output buffer of the provider call. -/
theorem Split_decode_size {α : Type} (F : Float32Ops α) (caseTable : Nat → Nat)
    (s : Splitter α) (text : List Nat) (emissions : List α) (b l : Nat)
    (h : Event.decode emissions b l ∈ (Split F caseTable s text).1) :
    emissions.length = b * l * 2 := by
  by_cases ht : text = []
  · subst ht
    simp [Split] at h
  · have hlen : ¬ text.length = 0 := fun hc => ht (List.length_eq_zero.mp hc)
    simp only [Split, if_neg hlen] at h
    cases hrun : s.session (textToIds (normalize caseTable text)) 1
        (normalize caseTable text).length with
    | none =>
      rw [runInference_none s _ 1 _ hrun] at h
      simp at h
    | some out =>
      rw [runInference_eq s _ 1 _ out hrun] at h
      have key : ∀ tr : List (Event α) × Except Fault (List (List Nat)),
          tr.1 = [Event.infer [0] (textToIds (normalize caseTable text)) 1
              (normalize caseTable text).length,
            Event.decode ((List.range (1 * (normalize caseTable text).length * numTags)).map out)
              1 (normalize caseTable text).length] →
          Event.decode emissions b l ∈ tr.1 → emissions.length = b * l * 2 := by
        intro tr h1 h2
        rw [h1] at h2
        simp only [List.mem_cons, List.mem_singleton, List.not_mem_nil, or_false,
          Event.decode.injEq] at h2
        rcases h2 with h2 | ⟨rfl, rfl, rfl⟩
        · exact Event.noConfusion h2
        · simp [numTags]
      refine key _ ?_ h
      dsimp only
      repeat' split
      all_goals rfl

/-- The emissions a chunk hands to the decoder are the `B*L*2` scores of the
output buffer of its provider call. -/
theorem processChunk_decode_size {α : Type} (F : Float32Ops α) (s : Splitter α) (L : Nat)
    (batch : List Item) (st : List (Event α) × Results) (emissions : List α) (b l : Nat)
    (h : Event.decode emissions b l ∈ (processChunk F s L batch st).1) :
    Event.decode emissions b l ∈ st.1 ∨ emissions.length = b * l * 2 := by
  simp only [processChunk] at h
  cases hrun : s.session (fillCharIds L batch 0 (List.replicate (batch.length * L) 0))
      batch.length L with
  | none =>
    rw [runInference_none s _ _ _ hrun] at h
    simp only [List.mem_append, List.mem_singleton] at h
    rcases h with h | h
    · exact Or.inl h
    · exact Event.noConfusion h
  | some out =>
    rw [runInference_eq s _ _ _ out hrun] at h
    have key : ∀ tr : List (Event α) × Except Fault Results,
        tr.1 = st.1 ++ [Event.infer (batch.map Item.index)
            (fillCharIds L batch 0 (List.replicate (batch.length * L) 0)) batch.length L,
          Event.decode ((List.range (batch.length * L * numTags)).map out) batch.length L] →
        Event.decode emissions b l ∈ tr.1 →
        Event.decode emissions b l ∈ st.1 ∨ emissions.length = b * l * 2 := by
      intro tr h1 h2
      rw [h1] at h2
      simp only [List.mem_append, List.mem_cons, List.mem_singleton, List.not_mem_nil, or_false,
        Event.decode.injEq] at h2
      rcases h2 with h2 | h2 | ⟨rfl, rfl, rfl⟩
      · exact Or.inl h2
      · exact Event.noConfusion h2
      · right
        simp [numTags]
    refine key _ ?_ h
    dsimp only
    repeat' split
    all_goals rfl

theorem runSchedule_decode_size {α : Type} (F : Float32Ops α) (s : Splitter α) :
    ∀ (sched : List (Nat × List Item)) (st : List (Event α) × Results),
      (∀ emissions b l, Event.decode emissions b l ∈ st.1 → emissions.length = b * l * 2) →
      ∀ emissions b l, Event.decode emissions b l ∈ (runSchedule F s sched st).1 →
        emissions.length = b * l * 2 := by
  intro sched
  induction sched with
  | nil => intro st h; exact h
  | cons c rest ih =>
    intro st hst
    have hc : ∀ emissions b l, Event.decode emissions b l ∈ (processChunk F s c.1 c.2 st).1 →
        emissions.length = b * l * 2 := by
      intro emissions b l h
      rcases processChunk_decode_size F s c.1 c.2 st emissions b l h with h | h
      · exact hst emissions b l h
      · exact h
    simp only [runSchedule]
    rcases hproc : processChunk F s c.1 c.2 st with ⟨tr, e | R1⟩
    · rw [hproc] at hc
      exact hc
    · rw [hproc] at hc
      exact ih (tr, R1) hc

/-- Claim C15.  Decoder index safety, for any `float32` arithmetic.  Every
call `Split` or `SplitBatch` makes, of the provider or of the decoder, is
made with `batchSize ≥ 1` and `seqLen ≥ 1` (an empty input makes no call),
and every call of the decoder they make is made with an emissions array of
exactly `batchSize*seqLen*2` scores.  A call of `crfDecodeBatch` with
`batchSize ≥ 1`, `seqLen ≥ 1`, an emissions array of exactly
`batchSize*seqLen*2` scores and tables of sizes 2, 2 and 4 does not panic:
it returns `batchSize` paths, each of length exactly `seqLen` with every tag
0 or 1, and `decodeToWords` on a text of `seqLen` bytes with such a path
does not panic either. -/
theorem decoder_index_safety {α : Type} (F : Float32Ops α) (caseTable : Nat → Nat)
    (s : Splitter α) :
    (∀ text, ∀ e ∈ (Split F caseTable s text).1, 1 ≤ e.batchSize ∧ 1 ≤ e.seqLen) ∧
    (∀ xs batchSize, ∀ e ∈ (SplitBatch F caseTable s xs batchSize).1,
      1 ≤ e.batchSize ∧ 1 ≤ e.seqLen) ∧
    (∀ text emissions b l, Event.decode emissions b l ∈ (Split F caseTable s text).1 →
      emissions.length = b * l * 2) ∧
    (∀ xs batchSize emissions b l,
      Event.decode emissions b l ∈ (SplitBatch F caseTable s xs batchSize).1 →
      emissions.length = b * l * 2) ∧
    (s.WellSized → ∀ (emissions : List α) (B L : Nat), 1 ≤ B → 1 ≤ L →
      emissions.length = B * L * 2 →
      ∃ preds, crfDecodeBatch F s emissions B L = some preds ∧ preds.length = B ∧
        ∀ path ∈ preds, path.length = L ∧ (∀ x ∈ path, x = 0 ∨ x = 1) ∧
          ∀ text : List Nat, text.length = L → ∃ ws, decodeToWords text path = some ws) := by
  refine ⟨?_, ?_, ?_, ?_, ?_⟩
  · intro text e he
    have h1 := Split_calls_batchSize F caseTable s text e he
    have h2 := (Split_calls_seqLen F caseTable s text e he).2.1
    omega
  · intro xs batchSize e he
    obtain ⟨h1, -, h3, -⟩ := SplitBatch_calls_bounds F caseTable s xs batchSize e he
    exact ⟨h3, h1⟩
  · intro text emissions b l h
    exact Split_decode_size F caseTable s text emissions b l h
  · intro xs batchSize emissions b l h
    rw [SplitBatch_eq_run] at h
    exact runSchedule_decode_size F s _ _ (fun _ _ _ hc => by simp at hc) emissions b l h
  · intro hs emissions B L _ hL hem
    obtain ⟨preds, h1, h2, h3⟩ := crfDecodeBatch_some F s hs emissions B L hL (by omega)
    refine ⟨preds, h1, h2, ?_⟩
    intro path hp
    obtain ⟨b, hb, hget⟩ := List.getElem_of_mem hp
    obtain ⟨path', h4, -, h5, h6⟩ := h3 b (by omega)
    rw [List.getElem?_eq_getElem hb, hget] at h4
    cases Option.some.inj h4
    refine ⟨h5, fun x hx => by have := h6 x hx; omega, ?_⟩
    intro text ht
    obtain ⟨ws, hw, -⟩ := decodeToWords_flatten text path (by omega)
    exact ⟨ws, hw⟩

theorem decoder_index_safety_witness :
    ∃ preds, crfDecodeBatch exact sampleSplitter [0, 0, 0, 0, 0, 0, 1, 4, -3, 0, 2, 2] 2 3
        = some preds ∧ preds.length = 2 ∧
      ∀ path ∈ preds, path.length = 3 ∧ (∀ x ∈ path, x = 0 ∨ x = 1) ∧
        ∀ text : List Nat, text.length = 3 → ∃ ws, decodeToWords text path = some ws :=
  (decoder_index_safety exact noCase sampleSplitter).2.2.2.2 ⟨rfl, rfl, rfl⟩
    [0, 0, 0, 0, 0, 0, 1, 4, -3, 0, 2, 2] 2 3 (by decide) (by decide) rfl
/-! ## The tie-break of the decoder in float32 -/

/-- The search for the spacing ends: with enough doublings the magnitude is
below `2^24` spacings. -/
theorem quantum_spec : ∀ (fuel a q : Nat), 0 < q → a < 2 ^ 24 * q * 2 ^ fuel →
    a / quantum fuel a q < 2 ^ 24 := by
  intro fuel
  induction fuel with
  | zero =>
    intro a q hq h
    simp only [quantum]
    rw [Nat.div_lt_iff_lt_mul hq]
    simpa using h
  | succ fuel ih =>
    intro a q hq h
    simp only [quantum]
    split_ifs with hc
    · exact hc
    · apply ih a (2 * q) (by omega)
      have : 2 ^ 24 * (2 * q) * 2 ^ fuel = 2 ^ 24 * q * 2 ^ (fuel + 1) := by ring
      rw [this]
      exact h

/-- The spacing found for a magnitude leaves a significand below `2^24`. -/
theorem quantum_self (a : Nat) : a / quantum a a 1 < 2 ^ 24 := by
  apply quantum_spec a a 1 (by omega)
  have h1 : a < 2 ^ a := Nat.lt_two_pow a
  have h2 : 2 ^ a ≤ 2 ^ 24 * 1 * 2 ^ a := by
    rw [Nat.mul_one]
    exact Nat.le_mul_of_pos_left _ (by positivity)
  omega

/-- In `float32` a value greater than `z` is greater than every value that
is not a NaN and is not greater than `z`. -/
theorem float32_gt_total (x y z : F32) (hy : y ≠ F32.nan) (h1 : float32.gt x z = true)
    (h2 : float32.gt y z = false) : float32.gt x y = true := by
  cases x <;> cases y <;> cases z <;> simp [float32, F32.gt, F32.key] at hy h1 h2 ⊢
  omega

end DKSplit
